import Mathlib

/-!
# Event management: record persistence and consistency layer

A shallow embedding of `utils.cpp`, `event.cpp`, `registration.cpp` and of the
load / mutate / save operations of `admin.cpp` and `student.cpp`.

* `std::string` is a list of characters (`Str`).
* `int` is `Int`; the 32-bit range matters only where `stoi` checks it.
* Console input is passed as arguments, the vectors loaded from the files are
  passed as arguments, and each operation returns the vectors it hands to
  `saveEventsToFile` / `saveRegistrationsToFile` together with the outcome it
  reports on the console.
* The operations that write both files are also given on the files
  (`registerForEventOnFiles`, `unregisterFromEventOnFiles`,
  `deleteEventOnFiles`): a file is its content and whether it opens for
  writing, and a run records the save calls in order.
-/

namespace EventMgmt

/-- C++ `std::string`, as the list of its characters. -/
abbrev Str := List Char

/-! ## utils.cpp -/

/-- One call `getline(ss, token, delimiter)` on a stream whose unread content
is the argument (utils.cpp:19).  `none`: end of input was reached before any
character was extracted, the stream fails and the loop stops.  Otherwise the
token read and the unread remainder; the delimiter is consumed and is not
part of the token. -/
def getline : Str → Char → Option (Str × Str)
  | [], _ => none
  | c :: cs, d =>
    if c = d then some ([], cs)
    else
      match getline cs d with
      | none => some ([c], [])
      | some (t, rest) => some (c :: t, rest)

/-- The loop `while (getline(ss, token, delimiter)) tokens.push_back(token)`
(utils.cpp:19-21), bounded by a number of iterations. -/
def splitLoop : Nat → Str → Char → List Str
  | 0, _, _ => []
  | fuel + 1, s, d =>
    match getline s d with
    | none => []
    | some (t, rest) => t :: splitLoop fuel rest d

/-- Function `split(str, delimiter)` (utils.cpp:13-24).  Every successful
`getline` consumes a character or ends the input, so `length + 1` iterations
always reach the failing `getline`. -/
def split (str : Str) (delimiter : Char) : List Str :=
  splitLoop (str.length + 1) str delimiter

/-- Membership in the character set `" \t\n\r"` used by `trim`. -/
def isTrimChar (c : Char) : Bool :=
  c = ' ' || c = '\t' || c = '\n' || c = '\r'

/-- Method `str.find_first_not_of(" \t\n\r")`; `none` is `string::npos`. -/
def find_first_not_of : Str → Option Nat
  | [] => none
  | c :: cs =>
    if isTrimChar c then (find_first_not_of cs).map (· + 1) else some 0

/-- Method `str.find_last_not_of(" \t\n\r")`; `none` is `string::npos`. -/
def find_last_not_of : Str → Option Nat
  | [] => none
  | c :: cs =>
    match find_last_not_of cs with
    | some i => some (i + 1)
    | none => if isTrimChar c then none else some 0

/-- Method `str.substr(pos, len)` for `pos ≤ size`. -/
def substr (s : Str) (pos len : Nat) : Str :=
  (s.drop pos).take len

/-- Function `trim(str)` (utils.cpp:30-42). -/
def trim (str : Str) : Str :=
  match find_first_not_of str with
  | none => []
  | some first =>
    match find_last_not_of str with
    | none => []
    | some last => substr str first (last - first + 1)

/-- Function `isdigit(c)` in the C locale. -/
def isdigit (c : Char) : Bool :=
  decide (48 ≤ c.toNat) && decide (c.toNat ≤ 57)

/-- Function `isspace(c)` in the C locale, used by `stoi` to skip leading
white space. -/
def isspace (c : Char) : Bool :=
  c = ' ' || c = '\t' || c = '\n' || c = '\r' || c.toNat = 11 || c.toNat = 12

/-- Function `isNumeric(str)` (utils.cpp:48-57). -/
def isNumeric (str : Str) : Bool :=
  if str.isEmpty then false else str.all isdigit

/-- Largest value of the C++ type `int`. -/
def INT_MAX : Int := 2147483647

/-- Smallest value of the C++ type `int`. -/
def INT_MIN : Int := -2147483648

/-- Value of a run of decimal digits, most significant first. -/
def digitsValue (ds : Str) : Nat :=
  ds.foldl (fun v c => v * 10 + (c.toNat - 48)) 0

/-- Function `std::stoi(str)`: skips leading white space, reads an optional
sign and then the longest run of decimal digits, ignoring what follows.
`none` stands for the exception thrown when there is no digit
(`invalid_argument`) or when the value does not fit in `int`
(`out_of_range`). -/
def stoi (str : Str) : Option Int :=
  let s1 := str.dropWhile isspace
  let negative : Bool := match s1 with
    | '-' :: _ => true
    | _ => false
  let s2 : Str := match s1 with
    | '-' :: r => r
    | '+' :: r => r
    | r => r
  let ds := s2.takeWhile isdigit
  if ds.isEmpty then none
  else
    let v : Int := if negative then -(digitsValue ds : Int) else (digitsValue ds : Int)
    if INT_MIN ≤ v ∧ v ≤ INT_MAX then some v else none

/-- Function `isValidDate(date)` (utils.cpp:63-93).  The three segments are
non-empty digit runs of at most four characters when `stoi` is reached, so
`stoi` cannot throw there (lemma `stoi_of_isNumeric`); the last branch is
unreachable. -/
def isValidDate (date : Str) : Bool :=
  if date.length ≠ 10 then false
  else if date.get? 2 ≠ some '-' ∨ date.get? 5 ≠ some '-' then false
  else
    let day := substr date 0 2
    let month := substr date 3 2
    let year := substr date 6 4
    if !isNumeric day || !isNumeric month || !isNumeric year then false
    else
      match stoi day, stoi month, stoi year with
      | some d, some m, some y =>
        if m < 1 ∨ m > 12 then false
        else if d < 1 ∨ d > 31 then false
        else if y < 2025 then false
        else true
      | _, _, _ => false

/-- Function `::tolower(c)` in the C locale. -/
def tolower (c : Char) : Char :=
  if 65 ≤ c.toNat ∧ c.toNat ≤ 90 then Char.ofNat (c.toNat + 32) else c

/-- Function `toLower(str)` (utils.cpp:99-107). -/
def toLower (str : Str) : Str :=
  str.map tolower

/-- The decimal digit character of a number below ten. -/
def digitChar (d : Nat) : Char :=
  Char.ofNat (48 + d)

/-- Decimal digits of a natural number, prepended to an accumulator; the first
argument bounds the number of digits produced. -/
def natDigitsAux : Nat → Nat → Str → Str
  | 0, _, acc => acc
  | fuel + 1, n, acc =>
    if n / 10 = 0 then digitChar (n % 10) :: acc
    else natDigitsAux fuel (n / 10) (digitChar (n % 10) :: acc)

/-- Decimal representation of a natural number, without leading zeros. -/
def natDigits (n : Nat) : Str :=
  natDigitsAux (n + 1) n []

/-- Function `std::to_string(int)`. -/
def to_string (n : Int) : Str :=
  if n < 0 then '-' :: natDigits n.natAbs else natDigits n.toNat

/-! ## event.cpp -/

/-- Class `Event` (event.cpp:14-19): the five data members. -/
structure Event where
  eventName : Str
  date : Str
  venue : Str
  capacity : Int
  registeredCount : Int
  deriving DecidableEq, Repr

namespace Event

/-- Method `Event::hasAvailableSeats` (event.cpp:72-74). -/
def hasAvailableSeats (e : Event) : Bool :=
  decide (e.registeredCount < e.capacity)

/-- Method `Event::registerStudent` (event.cpp:79-83). -/
def registerStudent (e : Event) : Event :=
  if e.hasAvailableSeats then { e with registeredCount := e.registeredCount + 1 } else e

/-- Method `Event::unregisterStudent` (event.cpp:88-92). -/
def unregisterStudent (e : Event) : Event :=
  if e.registeredCount > 0 then { e with registeredCount := e.registeredCount - 1 } else e

/-- Method `Event::setEventName`. -/
def setEventName (e : Event) (name : Str) : Event := { e with eventName := name }

/-- Method `Event::setDate`. -/
def setDate (e : Event) (d : Str) : Event := { e with date := d }

/-- Method `Event::setVenue`. -/
def setVenue (e : Event) (v : Str) : Event := { e with venue := v }

/-- Method `Event::setCapacity`. -/
def setCapacity (e : Event) (cap : Int) : Event := { e with capacity := cap }

/-- Method `Event::toFileFormat` (event.cpp:99-102). -/
def toFileFormat (e : Event) : Str :=
  e.eventName ++ "|".toList ++ e.date ++ "|".toList ++ e.venue ++ "|".toList ++
    to_string e.capacity ++ "|".toList ++ to_string e.registeredCount

end Event

/-! ## registration.cpp -/

/-- Class `Registration` (registration.cpp:13-16). -/
structure Registration where
  studentUsername : Str
  eventName : Str
  registrationDate : Str
  deriving DecidableEq, Repr

namespace Registration

/-- Method `Registration::toFileFormat` (registration.cpp:37-39). -/
def toFileFormat (r : Registration) : Str :=
  r.studentUsername ++ "|".toList ++ r.eventName ++ "|".toList ++ r.registrationDate

end Registration

/-! ## Loading and saving the collections (admin.cpp, student.cpp) -/

/-- Result of the loop body that decodes one line of a collection file. -/
inductive LineResult (α : Type) where
  /-- The line adds nothing to the vector (blank line or too few fields). -/
  | skipped : LineResult α
  /-- The line is decoded and pushed onto the vector. -/
  | parsed : α → LineResult α
  /-- The call `stoi` throws; nothing catches the exception. -/
  | thrown : LineResult α
  deriving DecidableEq, Repr

/-- Body of the `while (getline(file, line))` loop of
`Admin::loadEventsFromFile` (admin.cpp:58-81), the event line decoder;
`Student::loadEventsFromFile` (student.cpp:51-64) has the same body. -/
def decodeEventLine (line : Str) : LineResult Event :=
  if line.isEmpty then .skipped
  else
    let parts := split line '|'
    if parts.length ≥ 4 then
      let name := trim (parts.getD 0 [])
      let date := trim (parts.getD 1 [])
      let venue := trim (parts.getD 2 [])
      match stoi (trim (parts.getD 3 [])) with
      | none => .thrown
      | some capacity =>
        if parts.length > 4 then
          match stoi (trim (parts.getD 4 [])) with
          | none => .thrown
          | some registered => .parsed ⟨name, date, venue, capacity, registered⟩
        else .parsed ⟨name, date, venue, capacity, 0⟩
    else .skipped

/-- The loop of `loadEventsFromFile` over the lines still to read, with the
vector built so far; `none` when a `stoi` exception ends the program. -/
def loadEventsLines : List Str → List Event → Option (List Event)
  | [], events => some events
  | line :: rest, events =>
    match decodeEventLine line with
    | .skipped => loadEventsLines rest events
    | .parsed e => loadEventsLines rest (events ++ [e])
    | .thrown => none

/-- Function `Admin::loadEventsFromFile` (admin.cpp:46-85) on the content of
`data/events.txt` (`none`: the file cannot be opened, the vector is empty).
Reading lines with `getline(file, line)` is `split` at the line feed. -/
def loadEventsFromFile (file : Option Str) : Option (List Event) :=
  match file with
  | none => some []
  | some content => loadEventsLines (split content '\n') []

/-- Function `Admin::saveEventsToFile` (admin.cpp:91-107): the content written
when the file opens, one `toFileFormat` line and `endl` per event. -/
def saveEventsToFile (events : List Event) : Str :=
  (events.map (fun e => e.toFileFormat ++ ['\n'])).flatten

/-- Body of the `while` loop of `Admin::loadRegistrationsFromFile`
(admin.cpp:124-136); it calls no `stoi` and never yields `thrown`. -/
def decodeRegistrationLine (line : Str) : LineResult Registration :=
  if line.isEmpty then .skipped
  else
    let parts := split line '|'
    if parts.length = 3 then
      .parsed ⟨trim (parts.getD 0 []), trim (parts.getD 1 []), trim (parts.getD 2 [])⟩
    else .skipped

/-- The loop of `loadRegistrationsFromFile` over the lines still to read. -/
def loadRegistrationsLines : List Str → List Registration → List Registration
  | [], registrations => registrations
  | line :: rest, registrations =>
    match decodeRegistrationLine line with
    | .parsed r => loadRegistrationsLines rest (registrations ++ [r])
    | _ => loadRegistrationsLines rest registrations

/-- Function `Admin::loadRegistrationsFromFile` (admin.cpp:113-140) on the
content of `data/registrations.txt` (`none`: the file cannot be opened). -/
def loadRegistrationsFromFile (file : Option Str) : List Registration :=
  match file with
  | none => []
  | some content => loadRegistrationsLines (split content '\n') []

/-- Function `Admin::saveRegistrationsToFile` (admin.cpp:145-160): the content
written when the file opens. -/
def saveRegistrationsToFile (registrations : List Registration) : Str :=
  (registrations.map (fun r => r.toFileFormat ++ ['\n'])).flatten

/-! ## The same four functions in student.cpp -/

namespace Student

/-- Body of the `while` loop of `Student::loadEventsFromFile`
(student.cpp:51-64). -/
def decodeEventLine (line : Str) : LineResult Event :=
  if line.isEmpty then .skipped
  else
    let parts := split line '|'
    if parts.length ≥ 4 then
      let name := trim (parts.getD 0 [])
      let date := trim (parts.getD 1 [])
      let venue := trim (parts.getD 2 [])
      match stoi (trim (parts.getD 3 [])) with
      | none => .thrown
      | some capacity =>
        if parts.length > 4 then
          match stoi (trim (parts.getD 4 [])) with
          | none => .thrown
          | some registered => .parsed ⟨name, date, venue, capacity, registered⟩
        else .parsed ⟨name, date, venue, capacity, 0⟩
    else .skipped

/-- The loop of `Student::loadEventsFromFile` over the lines still to read. -/
def loadEventsLines : List Str → List Event → Option (List Event)
  | [], events => some events
  | line :: rest, events =>
    match Student.decodeEventLine line with
    | .skipped => loadEventsLines rest events
    | .parsed e => loadEventsLines rest (events ++ [e])
    | .thrown => none

/-- Function `Student::loadEventsFromFile` (student.cpp:41-68). -/
def loadEventsFromFile (file : Option Str) : Option (List Event) :=
  match file with
  | none => some []
  | some content => Student.loadEventsLines (split content '\n') []

/-- The loop of `Student::saveEventsToFile` (student.cpp:80-82) from
position `i` on: writes `events[i].toFileFormat()` and `endl`. -/
def saveEventsFrom (events : List Event) : Nat → Nat → Str
  | 0, _ => []
  | fuel + 1, i =>
    match events[i]? with
    | none => []
    | some e => e.toFileFormat ++ '\n' :: saveEventsFrom events fuel (i + 1)

/-- Function `Student::saveEventsToFile` (student.cpp:73-86): the content
written when the file opens. -/
def saveEventsToFile (events : List Event) : Str :=
  Student.saveEventsFrom events events.length 0

/-- Body of the `while` loop of `Student::loadRegistrationsFromFile`
(student.cpp:99-106). -/
def decodeRegistrationLine (line : Str) : LineResult Registration :=
  if line.isEmpty then .skipped
  else
    let parts := split line '|'
    if parts.length = 3 then
      .parsed ⟨trim (parts.getD 0 []), trim (parts.getD 1 []), trim (parts.getD 2 [])⟩
    else .skipped

/-- The loop of `Student::loadRegistrationsFromFile` over the lines still to
read. -/
def loadRegistrationsLines : List Str → List Registration → List Registration
  | [], registrations => registrations
  | line :: rest, registrations =>
    match Student.decodeRegistrationLine line with
    | .parsed r => loadRegistrationsLines rest (registrations ++ [r])
    | _ => loadRegistrationsLines rest registrations

/-- Function `Student::loadRegistrationsFromFile` (student.cpp:90-110). -/
def loadRegistrationsFromFile (file : Option Str) : List Registration :=
  match file with
  | none => []
  | some content => Student.loadRegistrationsLines (split content '\n') []

/-- The loop of `Student::saveRegistrationsToFile` (student.cpp:122-124) from
position `i` on. -/
def saveRegistrationsFrom (registrations : List Registration) : Nat → Nat → Str
  | 0, _ => []
  | fuel + 1, i =>
    match registrations[i]? with
    | none => []
    | some r => r.toFileFormat ++ '\n' :: saveRegistrationsFrom registrations fuel (i + 1)

/-- Function `Student::saveRegistrationsToFile` (student.cpp:115-128): the
content written when the file opens. -/
def saveRegistrationsToFile (registrations : List Registration) : Str :=
  Student.saveRegistrationsFrom registrations registrations.length 0

end Student

/-! ## Operations -/

/-- What an operation reports, in the error taxonomy of the specification.
The source prints a message and returns; each constructor lists its messages. -/
inductive Outcome where
  /-- The mutation is applied and handed to the save functions. -/
  | success
  /-- Messages "cannot be empty", "Invalid date format", "Capacity must be
  greater than 0", "New capacity cannot be less than registered count". -/
  | validationError
  /-- Messages "Event with this name already exists" and "You are already
  registered for this event". -/
  | duplicateError
  /-- Message "Event is full! No available seats." -/
  | capacityError
  /-- Messages "Registration not found", "Invalid selection", "No events". -/
  | notFoundError
  /-- Message "Deletion cancelled!" -/
  | cancelled
  /-- No message: an empty new name or venue is ignored, choice 5 is "Done". -/
  | noChange
  /-- Messages "Could not open users.txt for writing", "Registration failed",
  "Unregistration failed", "Failed to delete event": a file did not open. -/
  | ioError
  deriving DecidableEq, Repr

/-- Function `Admin::addNewEvent` (admin.cpp:207-278).  Arguments: the vector
returned by `loadEventsFromFile` and the four console inputs.  Result: the
outcome and the vector of `data/events.txt` afterwards (the vector passed to
`saveEventsToFile` on success, the loaded one when the function returns
early). -/
def addNewEvent (events : List Event) (nameInput dateInput venueInput : Str)
    (cap_input : Int) : Outcome × List Event :=
  let eventName := trim nameInput
  if eventName.isEmpty then (.validationError, events)
  else if events.any (fun e => toLower e.eventName == toLower eventName) then
    (.duplicateError, events)
  else
    let date := trim dateInput
    if !isValidDate date then (.validationError, events)
    else
      let venue := trim venueInput
      if venue.isEmpty then (.validationError, events)
      else if cap_input ≤ 0 then (.validationError, events)
      else (.success, events ++ [⟨eventName, date, venue, cap_input, 0⟩])

/-- Function `Admin::editEvent` (admin.cpp:281-398).  Arguments: the loaded
vector, the event number and menu choice typed by the admin, the line read by
`getline` for choices 1 to 3 and the number read for choice 4.  Result: the
outcome of the edit and the vector passed to `saveEventsToFile` (the loaded
vector when nothing is saved). -/
def editEvent (events : List Event) (eventNum choice : Int) (text : Str)
    (newCap_input : Int) : Outcome × List Event :=
  if events.isEmpty then (.notFoundError, events)
  else if eventNum < 1 ∨ eventNum > (events.length : Int) then (.notFoundError, events)
  else
    let idx := (eventNum - 1).toNat
    match events[idx]? with
    | none => (.notFoundError, events)
    | some event =>
      if choice = 1 then
        let newName := trim text
        if !newName.isEmpty then
          let duplicate := events.any (fun e =>
            toLower e.eventName == toLower newName &&
              toLower e.eventName != toLower event.eventName)
          if duplicate then (.duplicateError, events)
          else (.success, events.set idx (event.setEventName newName))
        else (.noChange, events)
      else if choice = 2 then
        let newDate := trim text
        if isValidDate newDate then (.success, events.set idx (event.setDate newDate))
        else (.validationError, events)
      else if choice = 3 then
        let newVenue := trim text
        if !newVenue.isEmpty then (.success, events.set idx (event.setVenue newVenue))
        else (.noChange, events)
      else if choice = 4 then
        if newCap_input < 0 ∨ newCap_input < event.registeredCount then
          (.validationError, events)
        else if newCap_input > 0 then
          (.success, events.set idx (event.setCapacity newCap_input))
        else (.validationError, events)
      else if choice = 5 then (.noChange, events)
      else (.validationError, events)

/-- Function `Admin::deleteEvent` (admin.cpp:401-455).  Arguments: the loaded
events, the content of the registrations collection (loaded at line 434),
the event number and the confirmation line.  Result: the outcome and both
vectors as saved. -/
def deleteEvent (events : List Event) (registrations : List Registration)
    (eventNum : Int) (confirmation : Str) :
    Outcome × List Event × List Registration :=
  if events.isEmpty then (.notFoundError, events, registrations)
  else if eventNum < 1 ∨ eventNum > (events.length : Int) then
    (.notFoundError, events, registrations)
  else
    let idx := (eventNum - 1).toNat
    match events[idx]? with
    | none => (.notFoundError, events, registrations)
    | some ev =>
      if toLower (trim confirmation) = "yes".toList then
        let deletedEventName := ev.eventName
        (.success, events.eraseIdx idx,
          registrations.filter (fun r => r.eventName != deletedEventName))
      else (.cancelled, events, registrations)

/-- Function `Student::registerForEvent` (student.cpp:239-299) for the student
`username`.  Arguments: both loaded vectors, the event number typed and the
string returned by `getCurrentDateTime`.  Result: the outcome and both
vectors as saved. -/
def registerForEvent (username : Str) (events : List Event)
    (registrations : List Registration) (eventNum : Int) (now : Str) :
    Outcome × List Event × List Registration :=
  if events.isEmpty then (.notFoundError, events, registrations)
  else if eventNum < 1 ∨ eventNum > (events.length : Int) then
    (.notFoundError, events, registrations)
  else
    let idx := (eventNum - 1).toNat
    match events[idx]? with
    | none => (.notFoundError, events, registrations)
    | some selectedEvent =>
      let eventName := selectedEvent.eventName
      if registrations.any (fun r =>
          r.studentUsername == username && r.eventName == eventName) then
        (.duplicateError, events, registrations)
      else if !selectedEvent.hasAvailableSeats then
        (.capacityError, events, registrations)
      else
        (.success, events.set idx selectedEvent.registerStudent,
          registrations ++ [⟨username, eventName, now⟩])

/-- The search loop of `Student::unregisterFromEvent` (student.cpp:310-318):
index of the first registration of `username` for `eventName`. -/
def findRegistration (username eventName : Str) : List Registration → Option Nat
  | [] => none
  | r :: rs =>
    if r.studentUsername = username ∧ r.eventName = eventName then some 0
    else (findRegistration username eventName rs).map (· + 1)

/-- The loop of `Student::unregisterFromEvent` (student.cpp:330-335): calls
`unregisterStudent` on the first event named `eventName` and stops. -/
def unregisterFirstEvent (eventName : Str) : List Event → List Event
  | [] => []
  | e :: es =>
    if e.eventName = eventName then e.unregisterStudent :: es
    else e :: unregisterFirstEvent eventName es

/-- Function `Student::unregisterFromEvent` (student.cpp:304-343) for the
student `username`. -/
def unregisterFromEvent (username : Str) (events : List Event)
    (registrations : List Registration) (eventName : Str) :
    Outcome × List Event × List Registration :=
  match findRegistration username eventName registrations with
  | none => (.notFoundError, events, registrations)
  | some index =>
    (.success, unregisterFirstEvent eventName events, registrations.eraseIdx index)

/-! ## Add a student account (admin.cpp) -/

/-- The scan of `Admin::addNewStudent` (admin.cpp:615-623) over the lines of
`data/users.txt`: some non-empty line has `username` as trimmed first
field. -/
def usernameExists (username : Str) : List Str → Bool
  | [] => false
  | line :: rest =>
    if line.isEmpty then usernameExists username rest
    else
      let parts := split line ','
      if parts.length > 0 ∧ trim (parts.getD 0 []) = username then true
      else usernameExists username rest

/-- Function `Admin::addNewStudent` (admin.cpp:598-654).  Arguments: the
content of `data/users.txt` (`none`: it cannot be opened, the scan loop reads
nothing), whether the file opens for appending, and the three lines read from
the console.  Result: the outcome and the content of the file afterwards. -/
def addNewStudent (file : Option Str) (outfileOpens : Bool)
    (usernameInput password fullNameInput : Str) : Outcome × Option Str :=
  let username := trim usernameInput
  if username.isEmpty then (.validationError, file)
  else if usernameExists username (split (file.getD []) '\n') then (.duplicateError, file)
  else if password.isEmpty then (.validationError, file)
  else
    let fullName := trim fullNameInput
    if fullName.isEmpty then (.validationError, file)
    else if !outfileOpens then (.ioError, file)
    else
      (.success,
        some (file.getD [] ++ (username ++ ",".toList ++ password ++ ",".toList ++ fullName ++
          ",student".toList ++ ['\n'])))

/-! ## The operations on the two files -/

/-- The files `data/events.txt` and `data/registrations.txt`. -/
inductive FileName where
  | eventsFile
  | registrationsFile
  deriving DecidableEq, Repr

/-- The two files as an operation finds them: their content (`none`: the file
cannot be opened for reading) and whether an `ofstream` on them opens. -/
structure Files where
  events : Option Str
  registrations : Option Str
  eventsOpenForWrite : Bool
  registrationsOpenForWrite : Bool
  deriving DecidableEq, Repr

/-- What an operation on the files did: its outcome, the files afterwards and
the calls of a save function in the order they were made, each with the
value it returned. -/
structure Run where
  outcome : Outcome
  files : Files
  saves : List (FileName × Bool)
  deriving DecidableEq, Repr

/-- Function `Student::registerForEvent` (student.cpp:239-299) on the files:
loads both collections, runs the checks and the mutation, then evaluates
`saveEventsToFile(events) && saveRegistrationsToFile(registrations)`.
`none`: a `stoi` exception ended the load. -/
def registerForEventOnFiles (username : Str) (fs : Files) (eventNum : Int) (now : Str) :
    Option Run :=
  match Student.loadEventsFromFile fs.events with
  | none => none
  | some events =>
    let registrations := Student.loadRegistrationsFromFile fs.registrations
    match registerForEvent username events registrations eventNum now with
    | (.success, events1, registrations1) =>
      if fs.eventsOpenForWrite then
        let fs1 := { fs with events := some (Student.saveEventsToFile events1) }
        if fs.registrationsOpenForWrite then
          some ⟨.success,
            { fs1 with registrations := some (Student.saveRegistrationsToFile registrations1) },
            [(.eventsFile, true), (.registrationsFile, true)]⟩
        else some ⟨.ioError, fs1, [(.eventsFile, true), (.registrationsFile, false)]⟩
      else some ⟨.ioError, fs, [(.eventsFile, false)]⟩
    | (outcome, _, _) => some ⟨outcome, fs, []⟩

/-- Function `Student::unregisterFromEvent` (student.cpp:304-343) on the
files. -/
def unregisterFromEventOnFiles (username : Str) (fs : Files) (eventName : Str) :
    Option Run :=
  match Student.loadEventsFromFile fs.events with
  | none => none
  | some events =>
    let registrations := Student.loadRegistrationsFromFile fs.registrations
    match unregisterFromEvent username events registrations eventName with
    | (.success, events1, registrations1) =>
      if fs.eventsOpenForWrite then
        let fs1 := { fs with events := some (Student.saveEventsToFile events1) }
        if fs.registrationsOpenForWrite then
          some ⟨.success,
            { fs1 with registrations := some (Student.saveRegistrationsToFile registrations1) },
            [(.eventsFile, true), (.registrationsFile, true)]⟩
        else some ⟨.ioError, fs1, [(.eventsFile, true), (.registrationsFile, false)]⟩
      else some ⟨.ioError, fs, [(.eventsFile, false)]⟩
    | (outcome, _, _) => some ⟨outcome, fs, []⟩

/-- Function `Admin::deleteEvent` (admin.cpp:401-455) on the files: the
registrations are loaded and saved only inside `if (saveEventsToFile(events))`
and the value returned by `saveRegistrationsToFile` is not looked at. -/
def deleteEventOnFiles (fs : Files) (eventNum : Int) (confirmation : Str) : Option Run :=
  match loadEventsFromFile fs.events with
  | none => none
  | some events =>
    match deleteEvent events (loadRegistrationsFromFile fs.registrations) eventNum
        confirmation with
    | (.success, events1, registrations1) =>
      if fs.eventsOpenForWrite then
        let fs1 := { fs with events := some (saveEventsToFile events1) }
        if fs.registrationsOpenForWrite then
          some ⟨.success,
            { fs1 with registrations := some (saveRegistrationsToFile registrations1) },
            [(.eventsFile, true), (.registrationsFile, true)]⟩
        else some ⟨.success, fs1, [(.eventsFile, true), (.registrationsFile, false)]⟩
      else some ⟨.ioError, fs, [(.eventsFile, false)]⟩
    | (outcome, _, _) => some ⟨outcome, fs, []⟩

/-! ## main.cpp -/

/-- The two classes an authenticated user can be created as (`new Admin`,
`new Student`, main.cpp:64-72). -/
inductive Role where
  | admin
  | student
  deriving DecidableEq, Repr

/-- The object returned by `authenticateUser`: its class and the three
constructor arguments `uname`, `pass`, `name`. -/
structure Identity where
  role : Role
  username : Str
  password : Str
  fullName : Str
  deriving DecidableEq, Repr

/-- The loop `while (getline(file, line))` of `authenticateUser`
(main.cpp:43-75) over the lines still to read.  When the credentials match
and the type is neither `admin` nor `student`, the file has been closed at
line 59, the next `getline` fails and the function returns `nullptr`. -/
def authenticateLines (username password : Str) : List Str → Option Identity
  | [] => none
  | line :: rest =>
    if line.isEmpty then authenticateLines username password rest
    else
      let parts := split line ','
      if parts.length ≥ 4 then
        let uname := trim (parts.getD 0 [])
        let pass := trim (parts.getD 1 [])
        let name := trim (parts.getD 2 [])
        let type := trim (parts.getD 3 [])
        if uname = username ∧ pass = password then
          if type = "admin".toList then some ⟨Role.admin, uname, pass, name⟩
          else if type = "student".toList then some ⟨Role.student, uname, pass, name⟩
          else none
        else authenticateLines username password rest
      else authenticateLines username password rest

/-- Function `authenticateUser(username, password)` (main.cpp:24-80) on the
content of `data/users.txt` (`none`: the file cannot be opened); `none` as
result is `nullptr`. -/
def authenticateUser (file : Option Str) (username password : Str) : Option Identity :=
  match file with
  | none => none
  | some content => authenticateLines username password (split content '\n')

/-! ## Predicates used to state the properties -/

/-- A string has no leading and no trailing character of `" \t\n\r"`. -/
def NoEdgeSpace (s : Str) : Prop :=
  (∀ c, s.head? = some c → isTrimChar c = false) ∧
    (∀ c, s.getLast? = some c → isTrimChar c = false)

/-- A stored string field: no field separator, no line break, and no leading
or trailing white space. -/
def CleanField (s : Str) : Prop :=
  '|' ∉ s ∧ '\n' ∉ s ∧ '\r' ∉ s ∧ NoEdgeSpace s

/-- Number of registrations whose `eventName` is `name`. -/
def registrationCount (registrations : List Registration) (name : Str) : Int :=
  ((registrations.filter (fun r => r.eventName == name)).length : Int)

/-- Every event's `registeredCount` is the number of registrations whose
`eventName` is that event's name. -/
def CountsMatch (events : List Event) (registrations : List Registration) : Prop :=
  ∀ e ∈ events, e.registeredCount = registrationCount registrations e.eventName

/-- A consistent state: event names are unique, every registration names an
existing event, and the counts match. -/
def Consistent (events : List Event) (registrations : List Registration) : Prop :=
  (events.map (·.eventName)).Nodup ∧
    (∀ r ∈ registrations, ∃ e ∈ events, e.eventName = r.eventName) ∧
    CountsMatch events registrations

/-- Every event has `0 <= registeredCount <= capacity`. -/
def CapacityOk (events : List Event) : Prop :=
  ∀ e ∈ events, 0 ≤ e.registeredCount ∧ e.registeredCount ≤ e.capacity

/-- Event names are pairwise distinct under `toLower`. -/
def NamesDistinct (events : List Event) : Prop :=
  (events.map (fun e => toLower e.eventName)).Nodup

/-- Removes the last element of a list of segments when it is the empty
string. -/
def dropTrailingEmpty (segments : List Str) : List Str :=
  if segments.getLast? = some [] then segments.dropLast else segments

/-- The `split` of the specification, in its words: the maximal
delimiter-free segments of the string in order (`List.splitOn`: one segment
more than there are delimiters, empty segments kept), without an element for
the empty remainder after a final delimiter. -/
def splitSpec (s : Str) (d : Char) : List Str :=
  dropTrailingEmpty (s.splitOn d)

/-- Membership in the set {space, tab, CR, LF} of the specification. -/
def isSpecSpace (c : Char) : Bool :=
  decide (c ∈ [' ', '\t', '\r', '\n'])

/-- The `trim` of the specification, in its words: the string without its
longest prefix and without its longest suffix of characters from
{space, tab, CR, LF}. -/
def trimSpec (s : Str) : Str :=
  (s.dropWhile isSpecSpace).rdropWhile isSpecSpace

/-- The users line matches the credentials: it has at least four
comma-separated fields, and its trimmed first and second fields are the
username and the password. -/
def CredentialsMatch (username password line : Str) : Prop :=
  (split line ',').length ≥ 4 ∧ trim ((split line ',').getD 0 []) = username ∧
    trim ((split line ',').getD 1 []) = password

/-- An event as the collection stores it: string fields trimmed and free of
`|` and line breaks, name and venue not empty, both numbers values of the
type `int`. -/
def StoredEvent (e : Event) : Prop :=
  CleanField e.eventName ∧ CleanField e.date ∧ CleanField e.venue ∧
    e.eventName ≠ [] ∧ e.venue ≠ [] ∧
    (INT_MIN ≤ e.capacity ∧ e.capacity ≤ INT_MAX) ∧
    (INT_MIN ≤ e.registeredCount ∧ e.registeredCount ≤ INT_MAX)

/-- Every registration's `eventName` is the name of some event. -/
def RefersToEvents (events : List Event) (registrations : List Registration) : Prop :=
  ∀ r ∈ registrations, ∃ e ∈ events, e.eventName = r.eventName

/-- The usernames decoded from a users file: the trimmed first field of every
line with at least four comma-separated fields, in file order. -/
def decodedUsernames (file : Option Str) : List Str :=
  (split (file.getD []) '\n').filterMap (fun line =>
    if (split line ',').length ≥ 4 then some (trim ((split line ',').getD 0 [])) else none)

/-- Every row of the file ends with a line break: the file is absent, empty,
or its last character is the line feed. -/
def NewlineTerminated (file : Option Str) : Prop :=
  file.getD [] = [] ∨ (file.getD []).getLast? = some '\n'

/-- The order of the two saves in one run from the files `fs`: the calls are
none, or a failed save of the events alone, or a successful save of the
events followed by the save of the registrations; when the events file does
not open the files are left as they were and no save of the registrations is
made; and without a successful save of the registrations their file keeps its
content. -/
def DualWriteOrder (fs : Files) (run : Run) : Prop :=
  (run.saves = [] ∨ run.saves = [(FileName.eventsFile, false)] ∨
      ∃ b, run.saves = [(FileName.eventsFile, true), (FileName.registrationsFile, b)]) ∧
    (fs.eventsOpenForWrite = false →
      run.files = fs ∧ ∀ b, (FileName.registrationsFile, b) ∉ run.saves) ∧
    ((FileName.registrationsFile, true) ∉ run.saves →
      run.files.registrations = fs.registrations)

/-- A string field that the line codec gives back as it is: free of the field
separator and of the line feed, without surrounding white space. -/
def EncodableField (s : Str) : Prop :=
  '|' ∉ s ∧ '\n' ∉ s ∧ NoEdgeSpace s

/-- An event whose three string fields are encodable and whose two numbers
are values of the type `int`. -/
def EncodableEvent (e : Event) : Prop :=
  EncodableField e.eventName ∧ EncodableField e.date ∧ EncodableField e.venue ∧
    (INT_MIN ≤ e.capacity ∧ e.capacity ≤ INT_MAX) ∧
    (INT_MIN ≤ e.registeredCount ∧ e.registeredCount ≤ INT_MAX)

/-- A registration whose three fields are encodable. -/
def EncodableRegistration (r : Registration) : Prop :=
  EncodableField r.studentUsername ∧ EncodableField r.eventName ∧
    EncodableField r.registrationDate

/-- A value typed for a new account as the claims take it: not empty, free of
the comma and of the line feed, without surrounding white space. -/
def CleanUserField (s : Str) : Prop :=
  s ≠ [] ∧ ',' ∉ s ∧ '\n' ∉ s ∧ NoEdgeSpace s

/-- The line `addNewStudent` writes, without the final `endl`. -/
def studentRecord (username password fullName : Str) : Str :=
  username ++ ",".toList ++ password ++ ",".toList ++ fullName ++ ",student".toList

/-! # Lemmas -/

/-! ## Lemmas on `getline` and `split` -/

theorem getline_length_lt (d : Char) :
    ∀ (s t rest : Str), getline s d = some (t, rest) → rest.length < s.length := by
  intro s
  induction s with
  | nil => intro t rest h; simp [getline] at h
  | cons c cs ih =>
    intro t rest h
    simp only [getline] at h
    split at h
    · simp only [Option.some.injEq, Prod.mk.injEq] at h
      rw [← h.2]; simp
    · cases hg : getline cs d with
      | none =>
        rw [hg] at h
        simp only [Option.some.injEq, Prod.mk.injEq] at h
        rw [← h.2]; simp
      | some p =>
        obtain ⟨t1, r1⟩ := p
        rw [hg] at h
        simp only [Option.some.injEq, Prod.mk.injEq] at h
        have := ih t1 r1 hg
        rw [← h.2]; simp; omega

theorem splitLoop_fuel_indep (d : Char) :
    ∀ (f1 f2 : Nat) (s : Str), s.length < f1 → s.length < f2 →
      splitLoop f1 s d = splitLoop f2 s d := by
  intro f1
  induction f1 with
  | zero => intro f2 s h; omega
  | succ n ih =>
    intro f2 s h1 h2
    cases f2 with
    | zero => omega
    | succ m =>
      cases hg : getline s d with
      | none => simp [splitLoop, hg]
      | some p =>
        obtain ⟨t, rest⟩ := p
        have hlt := getline_length_lt d s t rest hg
        simp only [splitLoop, hg]
        rw [ih m rest (by omega) (by omega)]

/-- Unfolding of the `split` loop by one `getline`. -/
theorem split_step (s : Str) (d : Char) :
    split s d = match getline s d with
      | none => []
      | some (t, rest) => t :: split rest d := by
  unfold split
  cases hg : getline s d with
  | none => simp [splitLoop, hg]
  | some p =>
    obtain ⟨t, rest⟩ := p
    have hlt := getline_length_lt d s t rest hg
    have e : splitLoop (s.length + 1) s d =
        (match getline s d with
          | none => []
          | some (t, rest) => t :: splitLoop s.length rest d) := rfl
    rw [e, hg]
    simp only
    rw [splitLoop_fuel_indep d s.length (rest.length + 1) rest hlt (by omega)]

theorem getline_append_delim (d : Char) (rest : Str) :
    ∀ a : Str, d ∉ a → getline (a ++ d :: rest) d = some (a, rest) := by
  intro a
  induction a with
  | nil => intro _; simp [getline]
  | cons c cs ih =>
    intro h
    simp only [List.mem_cons, not_or] at h
    have hc : c ≠ d := fun e => h.1 e.symm
    simp [getline, hc, ih h.2]

theorem getline_no_delim (d : Char) :
    ∀ a : Str, d ∉ a → a ≠ [] → getline a d = some (a, []) := by
  intro a
  induction a with
  | nil => intro _ h; exact absurd rfl h
  | cons c cs ih =>
    intro h _
    simp only [List.mem_cons, not_or] at h
    have hc : c ≠ d := fun e => h.1 e.symm
    cases cs with
    | nil => simp [getline, hc]
    | cons c2 cs2 =>
      have := ih h.2 (by simp)
      simp only [getline, hc, if_false] at this ⊢
      rw [this]

theorem split_nil (d : Char) : split [] d = [] := by
  simp [split, splitLoop, getline]

theorem split_append_delim (d : Char) (a rest : Str) (h : d ∉ a) :
    split (a ++ d :: rest) d = a :: split rest d := by
  rw [split_step, getline_append_delim d rest a h]

theorem split_no_delim (d : Char) (a : Str) (h : d ∉ a) (hne : a ≠ []) :
    split a d = [a] := by
  rw [split_step, getline_no_delim d a h hne]
  simp [split_nil]

/-! ## Lemmas on `trim` -/

theorem find_first_not_of_head (c : Char) (cs : Str) (h : isTrimChar c = false) :
    find_first_not_of (c :: cs) = some 0 := by
  simp [find_first_not_of, h]

theorem find_last_not_of_getLast :
    ∀ (s : Str) (c : Char), s.getLast? = some c → isTrimChar c = false →
      find_last_not_of s = some (s.length - 1) := by
  intro s
  induction s with
  | nil => intro c h; simp at h
  | cons x xs ih =>
    intro c h hc
    cases xs with
    | nil =>
      simp only [List.getLast?_singleton, Option.some.injEq] at h
      subst h
      simp [find_last_not_of, hc]
    | cons y ys =>
      have h2 : (y :: ys).getLast? = some c := by
        rw [List.getLast?_cons_cons] at h; exact h
      have := ih c h2 hc
      simp only [find_last_not_of] at this ⊢
      rw [this]
      simp

theorem trim_of_noEdgeSpace (s : Str) (h : NoEdgeSpace s) : trim s = s := by
  cases s with
  | nil => simp [trim, find_first_not_of]
  | cons c cs =>
    have h1 := h.1 c (by simp)
    obtain ⟨l, hl⟩ : ∃ l, (c :: cs).getLast? = some l := by
      cases hx : (c :: cs).getLast? with
      | none => simp at hx
      | some l => exact ⟨l, rfl⟩
    have h2 := find_last_not_of_getLast (c :: cs) l hl (h.2 l hl)
    simp only [trim, find_first_not_of_head c cs h1, h2, substr]
    simp

/-! ## Lemmas on decimal digits, `to_string` and `stoi` -/

theorem digitChar_toNat (d : Nat) (h : d < 10) : (digitChar d).toNat = 48 + d := by
  interval_cases d <;> rfl

theorem isdigit_digitChar (d : Nat) (h : d < 10) : isdigit (digitChar d) = true := by
  interval_cases d <;> rfl

theorem digitsValue_append_single (ds : Str) (c : Char) :
    digitsValue (ds ++ [c]) = digitsValue ds * 10 + (c.toNat - 48) := by
  simp [digitsValue, List.foldl_append]

/-- The digits produced for `n` are a non-empty run of digit characters whose
value is `n`, put in front of the accumulator. -/
theorem natDigitsAux_spec :
    ∀ (fuel n : Nat), n < fuel →
      ∃ ds : Str, (∀ acc, natDigitsAux fuel n acc = ds ++ acc) ∧ ds ≠ [] ∧
        (∀ c ∈ ds, isdigit c = true) ∧ digitsValue ds = n := by
  intro fuel
  induction fuel with
  | zero => intro n h; omega
  | succ k ih =>
    intro n h
    by_cases h0 : n / 10 = 0
    · refine ⟨[digitChar (n % 10)], ?_, by simp, ?_, ?_⟩
      · intro acc; simp [natDigitsAux, h0]
      · intro c hc
        simp only [List.mem_singleton] at hc
        subst hc
        exact isdigit_digitChar _ (Nat.mod_lt _ (by norm_num))
      · have hlt : n % 10 < 10 := Nat.mod_lt _ (by norm_num)
        simp only [digitsValue, List.foldl_cons, List.foldl_nil, digitChar_toNat _ hlt]
        omega
    · have hk : n / 10 < k := by omega
      obtain ⟨ds, hacc, hne, hdig, hval⟩ := ih (n / 10) hk
      refine ⟨ds ++ [digitChar (n % 10)], ?_, by simp, ?_, ?_⟩
      · intro acc
        simp [natDigitsAux, h0, hacc]
      · intro c hc
        simp only [List.mem_append, List.mem_singleton] at hc
        rcases hc with hc | hc
        · exact hdig c hc
        · subst hc
          exact isdigit_digitChar _ (Nat.mod_lt _ (by norm_num))
      · have hlt : n % 10 < 10 := Nat.mod_lt _ (by norm_num)
        rw [digitsValue_append_single, hval, digitChar_toNat _ hlt]
        omega

theorem natDigits_spec (n : Nat) :
    natDigits n ≠ [] ∧ (∀ c ∈ natDigits n, isdigit c = true) ∧
      digitsValue (natDigits n) = n := by
  obtain ⟨ds, hacc, hne, hdig, hval⟩ := natDigitsAux_spec (n + 1) n (by omega)
  have e : natDigits n = ds := by simp [natDigits, hacc]
  rw [e]
  exact ⟨hne, hdig, hval⟩

theorem isdigit_not_isspace (c : Char) (h : isdigit c = true) : isspace c = false := by
  simp only [isdigit, Bool.and_eq_true, decide_eq_true_eq] at h
  simp only [isspace, Bool.or_eq_false_iff, decide_eq_false_iff_not]
  refine ⟨⟨⟨⟨⟨?_, ?_⟩, ?_⟩, ?_⟩, ?_⟩, ?_⟩ <;> intro e <;> (try subst e) <;> revert h <;>
    (try decide) <;> omega

theorem isdigit_not_isTrimChar (c : Char) (h : isdigit c = true) : isTrimChar c = false := by
  have := isdigit_not_isspace c h
  simp only [isspace, Bool.or_eq_false_iff] at this
  simp only [isTrimChar, Bool.or_eq_false_iff]
  exact ⟨⟨⟨this.1.1.1.1.1, this.1.1.1.1.2⟩, this.1.1.1.2⟩, this.1.1.2⟩

theorem isdigit_ne_of_toNat_lt (c x : Char) (h : isdigit c = true) (hx : x.toNat < 48) :
    c ≠ x := by
  intro e
  subst e
  simp only [isdigit, Bool.and_eq_true, decide_eq_true_eq] at h
  omega

theorem isdigit_ne_pipe (c : Char) (h : isdigit c = true) : c ≠ '|' := by
  intro e
  subst e
  revert h
  decide

/-- On a non-empty run of digits `stoi` returns its value when it fits `int`. -/
theorem stoi_of_digits (ds : Str) (hne : ds ≠ []) (hdig : ∀ c ∈ ds, isdigit c = true)
    (hmax : (digitsValue ds : Int) ≤ INT_MAX) : stoi ds = some (digitsValue ds : Int) := by
  cases ds with
  | nil => exact absurd rfl hne
  | cons c cs =>
    have hc : isdigit c = true := hdig c (by simp)
    have hsp : isspace c = false := isdigit_not_isspace c hc
    have hminus : c ≠ '-' := isdigit_ne_of_toNat_lt c '-' hc (by decide)
    have hplus : c ≠ '+' := isdigit_ne_of_toNat_lt c '+' hc (by decide)
    have hdrop : List.dropWhile isspace (c :: cs) = c :: cs := by
      simp [List.dropWhile, hsp]
    have htake : List.takeWhile isdigit (c :: cs) = c :: cs := by
      rw [List.takeWhile_eq_self_iff]
      exact hdig
    have hmin : INT_MIN ≤ (digitsValue (c :: cs) : Int) := by
      have : (0 : Int) ≤ (digitsValue (c :: cs) : Int) := Int.ofNat_nonneg _
      unfold INT_MIN; omega
    unfold stoi
    rw [hdrop]
    have hs2 : (match (c :: cs : Str) with
        | '-' :: r => r
        | '+' :: r => r
        | r => r) = c :: cs := by
      split
      · rename_i heq; simp at heq; exact absurd heq.1 hminus
      · rename_i heq; simp at heq; exact absurd heq.1 hplus
      · rfl
    have hneg : (match (c :: cs : Str) with
        | '-' :: _ => true
        | _ => false) = false := by
      split
      · rename_i heq; simp at heq; exact absurd heq.1 hminus
      · rfl
    simp only [hs2, hneg, htake]
    simp [hmin, hmax]

theorem stoi_natDigits (n : Nat) (h : (n : Int) ≤ INT_MAX) :
    stoi (natDigits n) = some (n : Int) := by
  obtain ⟨hne, hdig, hval⟩ := natDigits_spec n
  have := stoi_of_digits (natDigits n) hne hdig (by rw [hval]; exact h)
  rw [this, hval]

theorem to_string_of_nonneg (n : Int) (h : 0 ≤ n) : to_string n = natDigits n.toNat := by
  unfold to_string
  simp [not_lt.mpr h]

/-- Reading back what `to_string` wrote for a non-negative `int`. -/
theorem stoi_to_string (n : Int) (h0 : 0 ≤ n) (h : n ≤ INT_MAX) :
    stoi (to_string n) = some n := by
  rw [to_string_of_nonneg n h0, stoi_natDigits n.toNat (by rw [Int.toNat_of_nonneg h0]; exact h),
    Int.toNat_of_nonneg h0]

theorem to_string_props (n : Int) (h0 : 0 ≤ n) :
    to_string n ≠ [] ∧ '|' ∉ to_string n ∧ NoEdgeSpace (to_string n) := by
  rw [to_string_of_nonneg n h0]
  obtain ⟨hne, hdig, _⟩ := natDigits_spec n.toNat
  refine ⟨hne, ?_, ?_, ?_⟩
  · intro hmem
    exact isdigit_ne_pipe _ (hdig _ hmem) rfl
  · intro c hc
    exact isdigit_not_isTrimChar c (hdig c (List.mem_of_mem_head? hc))
  · intro c hc
    exact isdigit_not_isTrimChar c (hdig c (List.mem_of_mem_getLast? hc))

theorem digitsFold_lt :
    ∀ (ds : Str) (v : Nat), (∀ c ∈ ds, isdigit c = true) →
      ds.foldl (fun v c => v * 10 + (c.toNat - 48)) v < (v + 1) * 10 ^ ds.length := by
  intro ds
  induction ds with
  | nil => intro v _; simp
  | cons c cs ih =>
    intro v h
    have hc : isdigit c = true := h c (by simp)
    simp only [isdigit, Bool.and_eq_true, decide_eq_true_eq] at hc
    have := ih (v * 10 + (c.toNat - 48)) (fun x hx => h x (List.mem_cons_of_mem _ hx))
    simp only [List.foldl_cons, List.length_cons]
    have hle : (v * 10 + (c.toNat - 48) + 1) * 10 ^ cs.length ≤
        (v + 1) * 10 ^ (cs.length + 1) := by
      have e : (v + 1) * 10 ^ (cs.length + 1) = ((v + 1) * 10) * 10 ^ cs.length := by
        rw [pow_succ]; ring
      rw [e]
      apply Nat.mul_le_mul_right
      omega
    omega

/-- On a string accepted by `isNumeric` with at most nine characters `stoi`
returns a value: it cannot throw in `isValidDate`. -/
theorem stoi_of_isNumeric (s : Str) (h : isNumeric s = true) (hlen : s.length ≤ 9) :
    stoi s = some (digitsValue s : Int) := by
  unfold isNumeric at h
  cases s with
  | nil => simp at h
  | cons c cs =>
    simp only [List.isEmpty_cons, Bool.false_eq_true, if_false, List.all_eq_true] at h
    apply stoi_of_digits _ (by simp) h
    have hlt := digitsFold_lt (c :: cs) 0 h
    have hpow : 10 ^ (c :: cs).length ≤ 10 ^ 9 := Nat.pow_le_pow_right (by norm_num) hlen
    have hv : digitsValue (c :: cs) < 10 ^ 9 := by
      unfold digitsValue
      omega
    unfold INT_MAX
    have : (10 : Nat) ^ 9 = 1000000000 := by norm_num
    omega

theorem toFileFormat_eq (e : Event) :
    e.toFileFormat = e.eventName ++ '|' :: (e.date ++ '|' :: (e.venue ++ '|' ::
      (to_string e.capacity ++ '|' :: to_string e.registeredCount))) := by
  simp [Event.toFileFormat, List.append_assoc]

/-- Splitting an encoded event line gives back its five fields. -/
theorem split_toFileFormat (e : Event) (hn : '|' ∉ e.eventName) (hd : '|' ∉ e.date)
    (hv : '|' ∉ e.venue) (hcap : 0 ≤ e.capacity) (hreg : 0 ≤ e.registeredCount) :
    split e.toFileFormat '|' =
      [e.eventName, e.date, e.venue, to_string e.capacity, to_string e.registeredCount] := by
  obtain ⟨_, hc, _⟩ := to_string_props e.capacity hcap
  obtain ⟨hrne, hr, _⟩ := to_string_props e.registeredCount hreg
  rw [toFileFormat_eq, split_append_delim _ _ _ hn, split_append_delim _ _ _ hd,
    split_append_delim _ _ _ hv, split_append_delim _ _ _ hc, split_no_delim _ _ hr hrne]

/-- The preamble shared by the operations that select an event by number:
a valid number `i + 1` reaches the event at position `i`. -/
theorem select_event (events : List Event) (i : Nat) (hi : i < events.length) :
    events.isEmpty = false ∧ ¬((i : Int) + 1 < 1 ∨ (i : Int) + 1 > (events.length : Int)) ∧
      ((i : Int) + 1 - 1).toNat = i ∧ events[i]? = some events[i] := by
  refine ⟨?_, ?_, ?_, ?_⟩
  · cases events with
    | nil => simp at hi
    | cons _ _ => rfl
  · omega
  · omega
  · simp [hi]

/-- The duplicate test of `registerForEvent` as a proposition. -/
theorem any_registration_iff (username eventName : Str) (registrations : List Registration) :
    registrations.any (fun r => r.studentUsername == username && r.eventName == eventName) = true ↔
      ∃ r ∈ registrations, r.studentUsername = username ∧ r.eventName = eventName := by
  simp [List.any_eq_true]

/-- The three outcomes of `registerForEvent` at a valid position `i`. -/
theorem registerForEvent_eval (username : Str) (events : List Event)
    (registrations : List Registration) (i : Nat) (hi : i < events.length) (now : Str) :
    ((∃ r ∈ registrations, r.studentUsername = username ∧
          r.eventName = events[i].eventName) →
        registerForEvent username events registrations ((i : Int) + 1) now =
          (Outcome.duplicateError, events, registrations)) ∧
      ((¬ ∃ r ∈ registrations, r.studentUsername = username ∧
          r.eventName = events[i].eventName) →
        events[i].capacity ≤ events[i].registeredCount →
        registerForEvent username events registrations ((i : Int) + 1) now =
          (Outcome.capacityError, events, registrations)) ∧
      ((¬ ∃ r ∈ registrations, r.studentUsername = username ∧
          r.eventName = events[i].eventName) →
        events[i].registeredCount < events[i].capacity →
        registerForEvent username events registrations ((i : Int) + 1) now =
          (Outcome.success,
            events.take i ++
              { events[i] with registeredCount := events[i].registeredCount + 1 } ::
                events.drop (i + 1),
            registrations ++ [⟨username, events[i].eventName, now⟩])) := by
  obtain ⟨h1, h2, h3, h4⟩ := select_event events i hi
  refine ⟨?_, ?_, ?_⟩
  · intro hdup
    have := (any_registration_iff username events[i].eventName registrations).mpr hdup
    unfold registerForEvent
    simp only [h1, h2, h3, h4, this, if_true, if_false, Bool.false_eq_true]
  · intro hdup hfull
    have hany : registrations.any (fun r =>
        r.studentUsername == username && r.eventName == events[i].eventName) = false := by
      rw [Bool.eq_false_iff]
      exact fun h => hdup ((any_registration_iff _ _ _).mp h)
    have hseat : events[i].hasAvailableSeats = false := by
      simp [Event.hasAvailableSeats, hfull]
    unfold registerForEvent
    simp only [h1, h2, h3, h4, hany, hseat, if_true, if_false, Bool.false_eq_true, Bool.not_false]
  · intro hdup hfree
    have hany : registrations.any (fun r =>
        r.studentUsername == username && r.eventName == events[i].eventName) = false := by
      rw [Bool.eq_false_iff]
      exact fun h => hdup ((any_registration_iff _ _ _).mp h)
    have hseat : events[i].hasAvailableSeats = true := by
      simp [Event.hasAvailableSeats, hfree]
    unfold registerForEvent
    simp only [h1, h2, h3, h4, hany, hseat, if_true, if_false, Bool.false_eq_true, Bool.not_true,
      Event.registerStudent]
    rw [List.set_eq_take_append_cons_drop, if_pos hi]

/-- A successful `registerForEvent` selected a valid position and wrote the
incremented event there and the new registration at the end. -/
theorem registerForEvent_success (username : Str) (events events1 : List Event)
    (registrations registrations1 : List Registration) (eventNum : Int) (now : Str)
    (h : registerForEvent username events registrations eventNum now =
      (Outcome.success, events1, registrations1)) :
    ∃ (i : Nat) (hi : i < events.length), eventNum = (i : Int) + 1 ∧
      events[i].registeredCount < events[i].capacity ∧
      events1 = events.set i
        { events[i] with registeredCount := events[i].registeredCount + 1 } ∧
      registrations1 = registrations ++ [⟨username, events[i].eventName, now⟩] := by
  unfold registerForEvent at h
  split at h
  · simp at h
  split at h
  · simp at h
  rename_i hempty hrange
  have hr1 : 1 ≤ eventNum := by omega
  have hr2 : eventNum ≤ (events.length : Int) := by omega
  have hi : (eventNum - 1).toNat < events.length := by omega
  simp only [List.getElem?_eq_getElem hi] at h
  refine ⟨(eventNum - 1).toNat, hi, by omega, ?_⟩
  split at h
  · simp at h
  split at h
  · simp at h
  rename_i hdup hseat
  have hs : events[(eventNum - 1).toNat].hasAvailableSeats = true := by
    simpa using hseat
  simp only [Prod.mk.injEq, true_and] at h
  have hlt : events[(eventNum - 1).toNat].registeredCount <
      events[(eventNum - 1).toNat].capacity := by
    simpa [Event.hasAvailableSeats] using hs
  refine ⟨hlt, ?_, h.2.symm⟩
  rw [← h.1]
  simp only [Event.registerStudent, hs, if_true]

/-! ## Lemmas on `unregisterFromEvent` -/

theorem findRegistration_none_iff (username eventName : Str) :
    ∀ registrations : List Registration,
      findRegistration username eventName registrations = none ↔
        ¬ ∃ r ∈ registrations, r.studentUsername = username ∧ r.eventName = eventName := by
  intro registrations
  induction registrations with
  | nil => simp [findRegistration]
  | cons r rs ih =>
    by_cases hr : r.studentUsername = username ∧ r.eventName = eventName
    · simp [findRegistration, hr]
    · have hr2 : ¬(r.studentUsername = username ∧ r.eventName = eventName) := hr
      simp only [findRegistration, if_neg hr2, Option.map_eq_none', ih, List.mem_cons,
        exists_eq_or_imp, not_or]
      exact ⟨fun h => ⟨hr, h⟩, fun h => h.2⟩

theorem findRegistration_some (username eventName : Str) :
    ∀ (registrations : List Registration) (k : Nat),
      findRegistration username eventName registrations = some k →
        ∃ pre r post, registrations = pre ++ r :: post ∧
          (r.studentUsername = username ∧ r.eventName = eventName) ∧
          (∀ x ∈ pre, ¬(x.studentUsername = username ∧ x.eventName = eventName)) ∧
          registrations.eraseIdx k = pre ++ post := by
  intro registrations
  induction registrations with
  | nil => intro k h; simp [findRegistration] at h
  | cons r rs ih =>
    intro k h
    by_cases hr : r.studentUsername = username ∧ r.eventName = eventName
    · simp only [findRegistration, if_pos hr, Option.some.injEq] at h
      subst h
      exact ⟨[], r, rs, rfl, hr, by simp, by simp⟩
    · simp only [findRegistration, if_neg hr, Option.map_eq_some'] at h
      obtain ⟨k1, hk1, hk⟩ := h
      obtain ⟨pre, r1, post, hsplit, hmatch, hpre, herase⟩ := ih k1 hk1
      subst hk
      refine ⟨r :: pre, r1, post, by simp [hsplit], hmatch, ?_, ?_⟩
      · intro x hx
        rcases List.mem_cons.mp hx with hx | hx
        · subst hx; exact hr
        · exact hpre x hx
      · simp [List.eraseIdx, herase]

theorem unregisterFirstEvent_absent (eventName : Str) :
    ∀ events : List Event, (∀ e ∈ events, e.eventName ≠ eventName) →
      unregisterFirstEvent eventName events = events := by
  intro events
  induction events with
  | nil => intro _; rfl
  | cons e es ih =>
    intro h
    have he : e.eventName ≠ eventName := h e (by simp)
    simp only [unregisterFirstEvent, if_neg he]
    rw [ih (fun x hx => h x (List.mem_cons_of_mem _ hx))]

theorem unregisterFirstEvent_first (eventName : Str) (e : Event) (post : List Event)
    (he : e.eventName = eventName) :
    ∀ pre : List Event, (∀ x ∈ pre, x.eventName ≠ eventName) →
      unregisterFirstEvent eventName (pre ++ e :: post) =
        pre ++ e.unregisterStudent :: post := by
  intro pre
  induction pre with
  | nil => intro _; simp [unregisterFirstEvent, he]
  | cons p ps ih =>
    intro h
    have hp : p.eventName ≠ eventName := h p (by simp)
    have := ih (fun x hx => h x (List.mem_cons_of_mem _ hx))
    show unregisterFirstEvent eventName (p :: (ps ++ e :: post)) =
      p :: (ps ++ e.unregisterStudent :: post)
    rw [unregisterFirstEvent, if_neg hp, this]

/-! ## Lemmas on `addNewEvent` and `editEvent` -/

/-- The duplicate test of `addNewEvent` as a proposition. -/
theorem any_same_name_iff (events : List Event) (name : Str) :
    events.any (fun e => toLower e.eventName == toLower name) = true ↔
      ∃ e ∈ events, toLower e.eventName = toLower name := by
  simp [List.any_eq_true]

/-! ## The count invariant under the operations other than the name edit -/

theorem mem_eraseIdx_names :
    ∀ (events : List Event) (i : Nat) (hi : i < events.length),
      (events.map (·.eventName)).Nodup →
      ∀ e ∈ events.eraseIdx i, e ∈ events ∧ e.eventName ≠ events[i].eventName := by
  intro events
  induction events with
  | nil => intro i hi; simp at hi
  | cons x xs ih =>
    intro i hi hnd e he
    simp only [List.map_cons, List.nodup_cons, List.mem_map, not_exists, not_and] at hnd
    cases i with
    | zero =>
      simp only [List.eraseIdx_cons_zero] at he
      refine ⟨List.mem_cons_of_mem _ he, ?_⟩
      simpa using fun h => hnd.1 e he h
    | succ k =>
      simp only [List.eraseIdx_cons_succ, List.mem_cons] at he
      have hk : k < xs.length := by simpa using hi
      rcases he with he | he
      · subst he
        refine ⟨by simp, ?_⟩
        simpa using fun h => hnd.1 xs[k] (List.getElem_mem _) h.symm
      · obtain ⟨h1, h2⟩ := ih k hk hnd.2 e he
        exact ⟨List.mem_cons_of_mem _ h1, by simpa using h2⟩

theorem mem_set_names :
    ∀ (events : List Event) (i : Nat) (hi : i < events.length) (ev : Event),
      (events.map (·.eventName)).Nodup →
      ∀ e ∈ events.set i ev, e = ev ∨ (e ∈ events ∧ e.eventName ≠ events[i].eventName) := by
  intro events
  induction events with
  | nil => intro i hi; simp at hi
  | cons x xs ih =>
    intro i hi ev hnd e he
    simp only [List.map_cons, List.nodup_cons, List.mem_map, not_exists, not_and] at hnd
    cases i with
    | zero =>
      simp only [List.set_cons_zero, List.mem_cons] at he
      rcases he with he | he
      · exact Or.inl he
      · refine Or.inr ⟨List.mem_cons_of_mem _ he, ?_⟩
        simpa using fun h => hnd.1 e he h
    | succ k =>
      simp only [List.set_cons_succ, List.mem_cons] at he
      have hk : k < xs.length := by simpa using hi
      rcases he with he | he
      · subst he
        refine Or.inr ⟨by simp, ?_⟩
        simpa using fun h => hnd.1 xs[k] (List.getElem_mem _) h.symm
      · rcases ih k hk ev hnd.2 e he with h | ⟨h1, h2⟩
        · exact Or.inl h
        · exact Or.inr ⟨List.mem_cons_of_mem _ h1, by simpa using h2⟩

theorem mem_unregisterFirstEvent (eventName : Str) :
    ∀ (events : List Event), (events.map (·.eventName)).Nodup →
      ∀ e ∈ unregisterFirstEvent eventName events,
        (e ∈ events ∧ e.eventName ≠ eventName) ∨
          (∃ e0 ∈ events, e0.eventName = eventName ∧ e = e0.unregisterStudent) := by
  intro events
  induction events with
  | nil => intro _ e he; simp [unregisterFirstEvent] at he
  | cons x xs ih =>
    intro hnd e he
    simp only [List.map_cons, List.nodup_cons, List.mem_map, not_exists, not_and] at hnd
    by_cases hx : x.eventName = eventName
    · simp only [unregisterFirstEvent, if_pos hx, List.mem_cons] at he
      rcases he with he | he
      · exact Or.inr ⟨x, by simp, hx, he⟩
      · refine Or.inl ⟨List.mem_cons_of_mem _ he, ?_⟩
        intro h
        exact hnd.1 e he (h.trans hx.symm)
    · simp only [unregisterFirstEvent, if_neg hx, List.mem_cons] at he
      rcases he with he | he
      · subst he
        exact Or.inl ⟨by simp, hx⟩
      · rcases ih hnd.2 e he with ⟨h1, h2⟩ | ⟨e0, h0, h1, h2⟩
        · exact Or.inl ⟨List.mem_cons_of_mem _ h1, h2⟩
        · exact Or.inr ⟨e0, List.mem_cons_of_mem _ h0, h1, h2⟩

theorem registrationCount_append_single (registrations : List Registration)
    (r : Registration) (name : Str) :
    registrationCount (registrations ++ [r]) name =
      registrationCount registrations name + (if r.eventName = name then 1 else 0) := by
  unfold registrationCount
  by_cases h : r.eventName = name <;> simp [List.filter_append, List.filter_cons, h]

theorem registrationCount_remove (pre post : List Registration) (r : Registration)
    (name : Str) :
    registrationCount (pre ++ r :: post) name =
      registrationCount (pre ++ post) name + (if r.eventName = name then 1 else 0) := by
  unfold registrationCount
  by_cases h : r.eventName = name <;> simp [List.filter_append, List.filter_cons, h]
  omega

theorem registrationCount_filter_ne (registrations : List Registration) (deleted name : Str)
    (h : name ≠ deleted) :
    registrationCount (registrations.filter (fun r => r.eventName != deleted)) name =
      registrationCount registrations name := by
  unfold registrationCount
  rw [List.filter_filter]
  congr 2
  apply List.filter_congr
  intro r _
  by_cases hr : r.eventName = name
  · subst hr; simp [h]
  · simp [hr]

theorem registrationCount_eq_zero (registrations : List Registration) (name : Str)
    (h : ∀ r ∈ registrations, r.eventName ≠ name) : registrationCount registrations name = 0 := by
  unfold registrationCount
  rw [List.filter_eq_nil_iff.mpr]
  · rfl
  · intro r hr
    simpa using h r hr

theorem tolower_ne_of_ne (a b : Str) (h : toLower a ≠ toLower b) : a ≠ b :=
  fun e => h (by rw [e])

theorem addNewEvent_preserves_counts (events : List Event) (registrations : List Registration)
    (nameInput dateInput venueInput : Str) (cap_input : Int)
    (h : Consistent events registrations) :
    CountsMatch (addNewEvent events nameInput dateInput venueInput cap_input).2
      registrations := by
  obtain ⟨_, href, hcount⟩ := h
  unfold addNewEvent
  simp only
  split
  · exact hcount
  split
  · exact hcount
  rename_i hdup
  split
  · exact hcount
  split
  · exact hcount
  split
  · exact hcount
  intro e he
  simp only [List.mem_append, List.mem_singleton] at he
  rcases he with he | he
  · exact hcount e he
  · subst he
    symm
    apply registrationCount_eq_zero
    intro r hr hname
    obtain ⟨e0, he0, hn⟩ := href r hr
    apply hdup
    rw [any_same_name_iff]
    exact ⟨e0, he0, by rw [hn, hname]⟩

theorem countsMatch_of_same_names_counts (events events1 : List Event)
    (registrations : List Registration)
    (h : events1.map (fun e => (e.eventName, e.registeredCount)) =
      events.map (fun e => (e.eventName, e.registeredCount)))
    (hc : CountsMatch events registrations) : CountsMatch events1 registrations := by
  intro e he
  have hm : (e.eventName, e.registeredCount) ∈
      events1.map (fun e => (e.eventName, e.registeredCount)) :=
    List.mem_map.mpr ⟨e, he, rfl⟩
  rw [h] at hm
  obtain ⟨e0, he0, heq⟩ := List.mem_map.mp hm
  simp only [Prod.mk.injEq] at heq
  rw [← heq.1, ← heq.2]
  exact hc e0 he0

theorem set_getElem_same {β : Type} :
    ∀ (l : List β) (i : Nat) (hi : i < l.length), l.set i l[i] = l := by
  intro l
  induction l with
  | nil => intro i hi; simp at hi
  | cons x xs ih =>
    intro i hi
    cases i with
    | zero => rfl
    | succ k =>
      have hk : k < xs.length := by simpa using hi
      simp only [List.set_cons_succ, List.getElem_cons_succ, ih k hk]

theorem map_set_same {β : Type} (f : Event → β) (events : List Event) (i : Nat) (ev ev1 : Event)
    (hget : events[i]? = some ev) (hf : f ev1 = f ev) :
    (events.set i ev1).map f = events.map f := by
  obtain ⟨hi, hev⟩ := List.getElem?_eq_some.mp hget
  have hlen : i < (events.map f).length := by simpa using hi
  have hfi : f ev = (events.map f)[i] := by simp [hev]
  rw [List.map_set, hf, hfi, set_getElem_same _ i hlen]

/-- The vector `editEvent` saves is the loaded one, or the loaded one with the
selected event replaced by the result of one setter. -/
theorem editEvent_result (events : List Event) (eventNum choice : Int) (text : Str)
    (newCap_input : Int) :
    (editEvent events eventNum choice text newCap_input).2 = events ∨
      ∃ ev, events[(eventNum - 1).toNat]? = some ev ∧
        ((choice = 1 ∧ (editEvent events eventNum choice text newCap_input).2 =
            events.set (eventNum - 1).toNat (ev.setEventName (trim text))) ∨
          (editEvent events eventNum choice text newCap_input).2 =
            events.set (eventNum - 1).toNat (ev.setDate (trim text)) ∨
          (editEvent events eventNum choice text newCap_input).2 =
            events.set (eventNum - 1).toNat (ev.setVenue (trim text)) ∨
          (editEvent events eventNum choice text newCap_input).2 =
            events.set (eventNum - 1).toNat (ev.setCapacity newCap_input)) := by
  unfold editEvent
  by_cases hempty : events.isEmpty = true
  · left; simp only [hempty, if_true]
  by_cases hrange : eventNum < 1 ∨ eventNum > (events.length : Int)
  · left; simp only [hempty, hrange, if_true, if_false, Bool.false_eq_true]
  simp only [hempty, hrange, if_false, Bool.false_eq_true]
  cases hget : events[(eventNum - 1).toNat]? with
  | none => left; rfl
  | some event =>
    simp only
    split_ifs with h1 h2 h3 h4 h5 h6 h7 h8 h9 h10 h11
    · exact Or.inl rfl
    · exact Or.inr ⟨event, rfl, Or.inl ⟨h1, rfl⟩⟩
    · exact Or.inl rfl
    · exact Or.inr ⟨event, rfl, Or.inr (Or.inl rfl)⟩
    · exact Or.inl rfl
    · exact Or.inr ⟨event, rfl, Or.inr (Or.inr (Or.inl rfl))⟩
    · exact Or.inl rfl
    · exact Or.inl rfl
    · exact Or.inr ⟨event, rfl, Or.inr (Or.inr (Or.inr rfl))⟩
    · exact Or.inl rfl
    · exact Or.inl rfl
    · exact Or.inl rfl

theorem editEvent_other_preserves_counts (events : List Event)
    (registrations : List Registration) (eventNum choice : Int) (text : Str)
    (newCap_input : Int) (hchoice : choice ≠ 1) (h : CountsMatch events registrations) :
    CountsMatch (editEvent events eventNum choice text newCap_input).2 registrations := by
  rcases editEvent_result events eventNum choice text newCap_input with
    hres | ⟨ev, hget, ⟨hc, _⟩ | hres | hres | hres⟩
  · rw [hres]; exact h
  · exact absurd hc hchoice
  · rw [hres]
    exact countsMatch_of_same_names_counts _ _ _ (map_set_same _ events _ ev _ hget rfl) h
  · rw [hres]
    exact countsMatch_of_same_names_counts _ _ _ (map_set_same _ events _ ev _ hget rfl) h
  · rw [hres]
    exact countsMatch_of_same_names_counts _ _ _ (map_set_same _ events _ ev _ hget rfl) h

theorem deleteEvent_preserves_counts (events : List Event) (registrations : List Registration)
    (eventNum : Int) (confirmation : Str) (h : Consistent events registrations) :
    CountsMatch (deleteEvent events registrations eventNum confirmation).2.1
      (deleteEvent events registrations eventNum confirmation).2.2 := by
  obtain ⟨hnd, _, hcount⟩ := h
  unfold deleteEvent
  split
  · exact hcount
  split
  · exact hcount
  rename_i hrange
  have hi : (eventNum - 1).toNat < events.length := by omega
  simp only [List.getElem?_eq_getElem hi]
  split
  · intro e he
    obtain ⟨hmem, hne⟩ := mem_eraseIdx_names events _ hi hnd e he
    simp only
    rw [registrationCount_filter_ne _ _ _ hne]
    exact hcount e hmem
  · exact hcount

theorem registerForEvent_preserves_counts (username : Str) (events : List Event)
    (registrations : List Registration) (eventNum : Int) (now : Str)
    (h : Consistent events registrations) :
    CountsMatch (registerForEvent username events registrations eventNum now).2.1
      (registerForEvent username events registrations eventNum now).2.2 := by
  obtain ⟨hnd, _, hcount⟩ := h
  unfold registerForEvent
  split
  · exact hcount
  split
  · exact hcount
  rename_i hrange
  have hi : (eventNum - 1).toNat < events.length := by omega
  simp only [List.getElem?_eq_getElem hi]
  split
  · exact hcount
  split
  · exact hcount
  rename_i hseat
  generalize (eventNum - 1).toNat = i at hi hseat ⊢
  have hs : events[i].hasAvailableSeats = true := by simpa using hseat
  intro e he
  simp only [registrationCount_append_single]
  rcases mem_set_names events i hi _ hnd e he with he1 | ⟨hmem, hne⟩
  · subst he1
    have := hcount events[i] (List.getElem_mem _)
    simp only [Event.registerStudent, hs, if_true, this]
  · rw [if_neg (fun h => hne h.symm)]
    simpa using hcount e hmem

theorem unregisterFromEvent_preserves_counts (username : Str) (events : List Event)
    (registrations : List Registration) (eventName : Str)
    (h : Consistent events registrations) :
    CountsMatch (unregisterFromEvent username events registrations eventName).2.1
      (unregisterFromEvent username events registrations eventName).2.2 := by
  obtain ⟨hnd, _, hcount⟩ := h
  unfold unregisterFromEvent
  cases hf : findRegistration username eventName registrations with
  | none => exact hcount
  | some k =>
    obtain ⟨pre, r, post, hsplit, hmatch, _, herase⟩ :=
      findRegistration_some username eventName registrations k hf
    simp only [herase]
    intro e he
    have hrem := registrationCount_remove pre post r e.eventName
    rw [← hsplit] at hrem
    rcases mem_unregisterFirstEvent eventName events hnd e he with ⟨hmem, hne⟩ | ⟨e0, h0, hn, he0⟩
    · have := hcount e hmem
      rw [hrem, if_neg (by rw [hmatch.2]; exact fun h => hne h.symm)] at this
      simpa using this
    · have h1 := hcount e0 h0
      have hname : e.eventName = e0.eventName := by
        rw [he0]; unfold Event.unregisterStudent; split <;> rfl
      rw [hname] at hrem ⊢
      rw [hrem, if_pos (by rw [hmatch.2, hn])] at h1
      have hnonneg : 0 ≤ registrationCount (pre ++ post) e0.eventName := by
        unfold registrationCount; exact Int.ofNat_nonneg _
      have hpos : e0.registeredCount > 0 := by omega
      rw [he0]
      simp only [Event.unregisterStudent, if_pos hpos]
      omega

/-! ## Reading back negative numbers -/

/-- Reading back what `to_string` wrote for a negative `int`. -/
theorem stoi_to_string_neg (n : Int) (h0 : n < 0) (h : INT_MIN ≤ n) :
    stoi (to_string n) = some n := by
  obtain ⟨hne, hdig, hval⟩ := natDigits_spec n.natAbs
  have hts : to_string n = '-' :: natDigits n.natAbs := by
    unfold to_string
    simp [h0]
  have htake : List.takeWhile isdigit (natDigits n.natAbs) = natDigits n.natAbs := by
    rw [List.takeWhile_eq_self_iff]
    exact hdig
  have hempty : (natDigits n.natAbs).isEmpty = false := by
    cases hx : natDigits n.natAbs with
    | nil => exact absurd hx hne
    | cons _ _ => rfl
  have hv : -((n.natAbs : Nat) : Int) = n := by omega
  have hmax : n ≤ INT_MAX := by unfold INT_MAX; omega
  rw [hts]
  unfold stoi
  have hdrop : List.dropWhile isspace ('-' :: natDigits n.natAbs) =
      '-' :: natDigits n.natAbs := by
    rw [List.dropWhile_cons_of_neg (by decide)]
  rw [hdrop]
  simp only [htake, hempty, Bool.false_eq_true, if_false, if_true, hval, hv]
  simp [h, hmax]

/-- Reading back what `to_string` wrote for any value of the type `int`. -/
theorem stoi_to_string_int (n : Int) (hmin : INT_MIN ≤ n) (hmax : n ≤ INT_MAX) :
    stoi (to_string n) = some n := by
  by_cases h0 : 0 ≤ n
  · exact stoi_to_string n h0 hmax
  · exact stoi_to_string_neg n (by omega) hmin

/-! ## Lemmas on the capacity invariant -/

theorem registerStudent_bounds (e : Event)
    (h : 0 ≤ e.registeredCount ∧ e.registeredCount ≤ e.capacity) :
    0 ≤ e.registerStudent.registeredCount ∧
      e.registerStudent.registeredCount ≤ e.registerStudent.capacity := by
  unfold Event.registerStudent Event.hasAvailableSeats
  by_cases hs : e.registeredCount < e.capacity
  · simp only [hs, decide_True, if_true]; omega
  · simp only [hs, decide_False, Bool.false_eq_true, if_false]; exact h

theorem unregisterStudent_bounds (e : Event)
    (h : 0 ≤ e.registeredCount ∧ e.registeredCount ≤ e.capacity) :
    0 ≤ e.unregisterStudent.registeredCount ∧
      e.unregisterStudent.registeredCount ≤ e.unregisterStudent.capacity := by
  unfold Event.unregisterStudent
  by_cases hs : e.registeredCount > 0
  · simp only [hs, if_true]; omega
  · simp only [hs, if_false]; exact h

theorem capacityOk_set (events : List Event) (i : Nat) (ev : Event)
    (h : CapacityOk events) (hev : 0 ≤ ev.registeredCount ∧ ev.registeredCount ≤ ev.capacity) :
    CapacityOk (events.set i ev) := by
  intro e he
  rcases List.mem_or_eq_of_mem_set he with h1 | h1
  · exact h e h1
  · rw [h1]; exact hev

theorem capacityOk_addNewEvent (events : List Event) (nameInput dateInput venueInput : Str)
    (cap_input : Int) (h : CapacityOk events) :
    CapacityOk (addNewEvent events nameInput dateInput venueInput cap_input).2 := by
  unfold addNewEvent
  simp only
  split_ifs with h1 h2 h3 h4 h5
  · exact h
  · exact h
  · exact h
  · exact h
  · exact h
  · intro e he
    simp only [List.mem_append, List.mem_singleton] at he
    rcases he with he | he
    · exact h e he
    · subst he
      simp only
      omega

theorem capacityOk_editEvent (events : List Event) (eventNum choice : Int) (text : Str)
    (newCap_input : Int) (h : CapacityOk events) :
    CapacityOk (editEvent events eventNum choice text newCap_input).2 := by
  unfold editEvent
  by_cases hempty : events.isEmpty = true
  · simp only [hempty, if_true]; exact h
  by_cases hrange : eventNum < 1 ∨ eventNum > (events.length : Int)
  · simp only [hempty, hrange, if_true, if_false, Bool.false_eq_true]; exact h
  simp only [hempty, hrange, if_false, Bool.false_eq_true]
  cases hget : events[(eventNum - 1).toNat]? with
  | none => exact h
  | some event =>
    have hev := h event (List.getElem?_mem hget)
    simp only
    split_ifs with h1 h2 h3 h4 h5 h6 h7 h8 h9 h10 h11
    · exact h
    · exact capacityOk_set _ _ _ h hev
    · exact h
    · exact capacityOk_set _ _ _ h hev
    · exact h
    · exact capacityOk_set _ _ _ h hev
    · exact h
    · exact h
    · refine capacityOk_set _ _ _ h ?_
      simp only [Event.setCapacity]
      omega
    · exact h
    · exact h
    · exact h

theorem capacityOk_deleteEvent (events : List Event) (registrations : List Registration)
    (eventNum : Int) (confirmation : Str) (h : CapacityOk events) :
    CapacityOk (deleteEvent events registrations eventNum confirmation).2.1 := by
  unfold deleteEvent
  by_cases hempty : events.isEmpty = true
  · simp only [hempty, if_true]; exact h
  by_cases hrange : eventNum < 1 ∨ eventNum > (events.length : Int)
  · simp only [hempty, hrange, if_true, if_false, Bool.false_eq_true]; exact h
  simp only [hempty, hrange, if_false, Bool.false_eq_true]
  cases hget : events[(eventNum - 1).toNat]? with
  | none => exact h
  | some ev =>
    simp only
    split_ifs
    · intro e he
      exact h e (List.mem_of_mem_eraseIdx he)
    · exact h

theorem capacityOk_registerForEvent (username : Str) (events : List Event)
    (registrations : List Registration) (eventNum : Int) (now : Str) (h : CapacityOk events) :
    CapacityOk (registerForEvent username events registrations eventNum now).2.1 := by
  unfold registerForEvent
  by_cases hempty : events.isEmpty = true
  · simp only [hempty, if_true]; exact h
  by_cases hrange : eventNum < 1 ∨ eventNum > (events.length : Int)
  · simp only [hempty, hrange, if_true, if_false, Bool.false_eq_true]; exact h
  simp only [hempty, hrange, if_false, Bool.false_eq_true]
  cases hget : events[(eventNum - 1).toNat]? with
  | none => exact h
  | some ev =>
    simp only
    split_ifs
    · exact h
    · exact h
    · exact capacityOk_set _ _ _ h
        (registerStudent_bounds ev (h ev (List.getElem?_mem hget)))

theorem capacityOk_unregisterFirstEvent (eventName : Str) :
    ∀ events : List Event, CapacityOk events →
      CapacityOk (unregisterFirstEvent eventName events) := by
  intro events
  induction events with
  | nil => intro h; exact h
  | cons x xs ih =>
    intro h
    have hx := h x (by simp)
    have hxs : CapacityOk xs := fun e he => h e (List.mem_cons_of_mem _ he)
    unfold unregisterFirstEvent
    split_ifs
    · intro e he
      rcases List.mem_cons.mp he with he | he
      · rw [he]; exact unregisterStudent_bounds x hx
      · exact hxs e he
    · intro e he
      rcases List.mem_cons.mp he with he | he
      · rw [he]; exact hx
      · exact ih hxs e he

theorem capacityOk_unregisterFromEvent (username : Str) (events : List Event)
    (registrations : List Registration) (eventName : Str) (h : CapacityOk events) :
    CapacityOk (unregisterFromEvent username events registrations eventName).2.1 := by
  unfold unregisterFromEvent
  split
  · exact h
  · exact capacityOk_unregisterFirstEvent eventName events h

/-! ## Lemmas on the name edit -/

/-- Under pairwise distinct lower-cased names, the duplicate test of the name
edit is the existence of another position with the new lower-cased name. -/
theorem rename_duplicate_iff (events : List Event) (i : Nat) (hi : i < events.length)
    (newName : Str) (hnd : NamesDistinct events) :
    events.any (fun e => toLower e.eventName == toLower newName &&
        toLower e.eventName != toLower events[i].eventName) = true ↔
      ∃ j, ∃ hj : j < events.length, j ≠ i ∧
        toLower events[j].eventName = toLower newName := by
  have hinj : ∀ (j : Nat) (hj : j < events.length),
      toLower events[j].eventName = toLower events[i].eventName → j = i := by
    intro j hj heq
    have hj1 : j < (events.map (fun e => toLower e.eventName)).length := by simpa using hj
    have hi1 : i < (events.map (fun e => toLower e.eventName)).length := by simpa using hi
    have := (@List.Nodup.getElem_inj_iff _ _ hnd j hj1 i hi1).mp (by simpa using heq)
    exact this
  simp only [List.any_eq_true, Bool.and_eq_true, beq_iff_eq, bne_iff_ne, ne_eq]
  constructor
  · rintro ⟨e, he, h1, h2⟩
    obtain ⟨j, hj, hje⟩ := List.getElem_of_mem he
    subst hje
    refine ⟨j, hj, ?_, h1⟩
    intro hji
    subst hji
    exact h2 rfl
  · rintro ⟨j, hj, hji, h1⟩
    exact ⟨events[j], List.getElem_mem _, h1, fun h => hji (hinj j hj h)⟩

theorem namesDistinct_rename (events : List Event) (i : Nat) (hi : i < events.length)
    (newName : Str) (hnd : NamesDistinct events)
    (hno : ¬ ∃ j, ∃ hj : j < events.length, j ≠ i ∧
        toLower events[j].eventName = toLower newName) :
    NamesDistinct (events.set i (events[i].setEventName newName)) := by
  unfold NamesDistinct at hnd ⊢
  rw [List.map_set]
  by_cases hsame : toLower newName = toLower events[i].eventName
  · have hlen : i < (events.map (fun e => toLower e.eventName)).length := by simpa using hi
    have : toLower (events[i].setEventName newName).eventName =
        (events.map (fun e => toLower e.eventName))[i] := by
      simp [Event.setEventName, hsame]
    rw [this, set_getElem_same _ i hlen]
    exact hnd
  · apply List.Nodup.set hnd
    intro hmem
    obtain ⟨e, he, heq⟩ := List.mem_map.mp hmem
    obtain ⟨j, hj, hje⟩ := List.getElem_of_mem he
    subst hje
    simp only [Event.setEventName] at heq
    by_cases hji : j = i
    · subst hji
      exact hsame heq.symm
    · exact hno ⟨j, hj, hji, heq⟩

/-- The name edit at a valid position with a non-empty trimmed name. -/
theorem editEvent_name_eval (events : List Event) (i : Nat) (hi : i < events.length)
    (text : Str) (newCap_input : Int) (hne : trim text ≠ []) :
    editEvent events ((i : Int) + 1) 1 text newCap_input =
      if events.any (fun e => toLower e.eventName == toLower (trim text) &&
          toLower e.eventName != toLower events[i].eventName) = true
      then (Outcome.duplicateError, events)
      else (Outcome.success, events.set i (events[i].setEventName (trim text))) := by
  obtain ⟨h1, h2, h3, h4⟩ := select_event events i hi
  have hne1 : (!(trim text).isEmpty) = true := by
    cases h : trim text with
    | nil => exact absurd h hne
    | cons _ _ => rfl
  unfold editEvent
  simp only [h1, h2, h3, h4, hne1, if_true, if_false, Bool.false_eq_true]

/-! ## Lemmas on `isValidDate` -/

theorem isNumeric_pair (a b : Char) :
    isNumeric [a, b] = true ↔ isdigit a = true ∧ isdigit b = true := by
  simp [isNumeric]

theorem isNumeric_quad (a b c d : Char) :
    isNumeric [a, b, c, d] = true ↔
      isdigit a = true ∧ isdigit b = true ∧ isdigit c = true ∧ isdigit d = true := by
  simp [isNumeric]

/-- The checks of `isValidDate` on a string of ten characters. -/
theorem isValidDate_ten (c0 c1 c2 c3 c4 c5 c6 c7 c8 c9 : Char) :
    isValidDate [c0, c1, c2, c3, c4, c5, c6, c7, c8, c9] = true ↔
      c2 = '-' ∧ c5 = '-' ∧
        (isdigit c0 = true ∧ isdigit c1 = true) ∧
        (isdigit c3 = true ∧ isdigit c4 = true) ∧
        (isdigit c6 = true ∧ isdigit c7 = true ∧ isdigit c8 = true ∧ isdigit c9 = true) ∧
        (1 ≤ digitsValue [c3, c4] ∧ digitsValue [c3, c4] ≤ 12) ∧
        (1 ≤ digitsValue [c0, c1] ∧ digitsValue [c0, c1] ≤ 31) ∧
        2025 ≤ digitsValue [c6, c7, c8, c9] := by
  unfold isValidDate
  simp only [List.length_cons, List.length_nil, substr, List.drop, List.take]
  by_cases h2 : c2 = '-'
  swap
  · simp [h2]
  by_cases h5 : c5 = '-'
  swap
  · simp [h5]
  by_cases hd : isNumeric [c0, c1] = true
  swap
  · have := (isNumeric_pair c0 c1).not.mp hd
    simp [h2, h5, hd, this]
  by_cases hm : isNumeric [c3, c4] = true
  swap
  · have := (isNumeric_pair c3 c4).not.mp hm
    simp [h2, h5, hd, hm, this]
  by_cases hy : isNumeric [c6, c7, c8, c9] = true
  swap
  · have := (isNumeric_quad c6 c7 c8 c9).not.mp hy
    simp [h2, h5, hd, hm, hy, this]
  have sd := stoi_of_isNumeric [c0, c1] hd (by simp)
  have sm := stoi_of_isNumeric [c3, c4] hm (by simp)
  have sy := stoi_of_isNumeric [c6, c7, c8, c9] hy (by simp)
  have hd1 := (isNumeric_pair c0 c1).mp hd
  have hm1 := (isNumeric_pair c3 c4).mp hm
  have hy1 := (isNumeric_quad c6 c7 c8 c9).mp hy
  simp only [h2, h5, hd, hm, hy, sd, sm, sy]
  simp only [hd1, hm1, hy1, and_self, true_and]
  simp
  omega

theorem length_ten_chars (s : Str) (h : s.length = 10) :
    ∃ c0 c1 c2 c3 c4 c5 c6 c7 c8 c9 : Char, s = [c0, c1, c2, c3, c4, c5, c6, c7, c8, c9] := by
  match s, h with
  | [c0, c1, c2, c3, c4, c5, c6, c7, c8, c9], _ =>
    exact ⟨c0, c1, c2, c3, c4, c5, c6, c7, c8, c9, rfl⟩

theorem isValidDate_length (s : Str) (h : isValidDate s = true) : s.length = 10 := by
  by_contra hlen
  simp [isValidDate, hlen] at h

theorem digitsValue_pair (a b : Char) :
    digitsValue [a, b] = (a.toNat - 48) * 10 + (b.toNat - 48) := by
  simp [digitsValue]

theorem digitsValue_quad (a b c d : Char) :
    digitsValue [a, b, c, d] =
      (a.toNat - 48) * 1000 + (b.toNat - 48) * 100 + (c.toNat - 48) * 10 + (d.toNat - 48) := by
  simp only [digitsValue, List.foldl_cons, List.foldl_nil]
  ring

/-! ## Lemmas on the `split` contract -/

theorem getline_eq_none (d : Char) (s : Str) : getline s d = none ↔ s = [] := by
  cases s with
  | nil => simp [getline]
  | cons c cs =>
    simp only [getline]
    split
    · simp
    · split <;> simp

/-- The `split` loop by the first character of the string. -/
theorem split_cons (c : Char) (cs : Str) (d : Char) :
    split (c :: cs) d =
      if c = d then [] :: split cs d
      else
        match split cs d with
        | [] => [[c]]
        | t :: ts => (c :: t) :: ts := by
  by_cases hc : c = d
  · rw [split_step]
    simp [getline, hc]
  · rw [split_step, if_neg hc, split_step cs d]
    simp only [getline, if_neg hc]
    cases hg : getline cs d with
    | none => simp [split_nil]
    | some p =>
      obtain ⟨t, rest⟩ := p
      simp

theorem dropTrailingEmpty_nil : dropTrailingEmpty [] = [] := by
  simp [dropTrailingEmpty]

theorem dropTrailingEmpty_single (x : Str) :
    dropTrailingEmpty [x] = if x = [] then [] else [x] := by
  by_cases h : x = [] <;> simp [dropTrailingEmpty, h]

theorem dropTrailingEmpty_cons_cons (x y : Str) (rest : List Str) :
    dropTrailingEmpty (x :: y :: rest) = x :: dropTrailingEmpty (y :: rest) := by
  unfold dropTrailingEmpty
  rw [List.getLast?_cons_cons]
  split <;> simp

theorem splitOn_cons (c : Char) (cs : Str) (d : Char) :
    (c :: cs).splitOn d =
      if c = d then [] :: cs.splitOn d else (cs.splitOn d).modifyHead (List.cons c) := by
  simp only [List.splitOn, List.splitOnP_cons, beq_iff_eq]

theorem splitOn_ne_nil (s : Str) (d : Char) : s.splitOn d ≠ [] :=
  List.splitOnP_ne_nil _ _

/-- The `split` of the source computes the `split` of the specification. -/
theorem split_eq_splitSpec (d : Char) : ∀ s : Str, split s d = splitSpec s d := by
  intro s
  induction s with
  | nil => simp [split_nil, splitSpec, List.splitOn, dropTrailingEmpty]
  | cons c cs ih =>
    unfold splitSpec at ih ⊢
    rw [split_cons, splitOn_cons, ih]
    cases hL : cs.splitOn d with
    | nil => exact absurd hL (splitOn_ne_nil cs d)
    | cons h t =>
      by_cases hc : c = d
      · simp only [if_pos hc, dropTrailingEmpty_cons_cons]
      · simp only [if_neg hc, List.modifyHead]
        cases t with
        | nil =>
          rw [dropTrailingEmpty_single, dropTrailingEmpty_single]
          by_cases hh : h = []
          · simp [hh]
          · simp [hh]
        | cons y r =>
          simp only [dropTrailingEmpty_cons_cons]

theorem split_delimiter_free (d : Char) : ∀ (s : Str), ∀ t ∈ split s d, d ∉ t := by
  intro s
  induction s with
  | nil => intro t ht; simp [split_nil] at ht
  | cons c cs ih =>
    intro t ht
    rw [split_cons] at ht
    by_cases hc : c = d
    · simp only [if_pos hc, List.mem_cons] at ht
      rcases ht with ht | ht
      · subst ht; simp
      · exact ih t ht
    · simp only [if_neg hc] at ht
      cases hs : split cs d with
      | nil =>
        rw [hs] at ht
        simp only [List.mem_singleton] at ht
        subst ht
        simpa using fun h => hc h.symm
      | cons u us =>
        rw [hs] at ht ih
        simp only [List.mem_cons] at ht
        rcases ht with ht | ht
        · subst ht
          have := ih u (by simp)
          simp only [List.mem_cons, not_or]
          exact ⟨fun h => hc h.symm, this⟩
        · exact ih t (List.mem_cons_of_mem _ ht)

/-! ## Lemmas on the `trim` contract -/

theorem isTrimChar_eq_isSpecSpace (c : Char) : isTrimChar c = isSpecSpace c := by
  by_cases h1 : c = ' ' <;> by_cases h2 : c = '\t' <;> by_cases h3 : c = '\n' <;>
    by_cases h4 : c = '\r' <;> simp [isTrimChar, isSpecSpace, h1, h2, h3, h4]

theorem isTrimChar_fun_eq : isTrimChar = isSpecSpace :=
  funext isTrimChar_eq_isSpecSpace

theorem rdropWhile_cons (p : Char → Bool) (c : Char) (cs : Str) :
    List.rdropWhile p (c :: cs) =
      if List.rdropWhile p cs = [] then (if p c then [] else [c])
      else c :: List.rdropWhile p cs := by
  unfold List.rdropWhile
  rw [List.reverse_cons, List.dropWhile_append]
  by_cases h : List.dropWhile p cs.reverse = []
  · by_cases hc : p c = true <;> simp [h, hc]
  · have h2 : (List.dropWhile p cs.reverse).isEmpty = false := by
      cases hx : List.dropWhile p cs.reverse with
      | nil => exact absurd hx h
      | cons _ _ => rfl
    simp [h, h2]

theorem find_last_not_of_none :
    ∀ s : Str, find_last_not_of s = none → List.rdropWhile isTrimChar s = [] := by
  intro s
  induction s with
  | nil => intro _; simp
  | cons c cs ih =>
    intro h
    simp only [find_last_not_of] at h
    cases hl : find_last_not_of cs with
    | some i => rw [hl] at h; simp at h
    | none =>
      rw [hl] at h
      have hc : isTrimChar c = true := by
        by_contra hc
        simp [hc] at h
      rw [rdropWhile_cons, ih hl]
      simp [hc]

theorem find_last_not_of_some :
    ∀ (s : Str) (j : Nat), find_last_not_of s = some j →
      s.take (j + 1) = List.rdropWhile isTrimChar s := by
  intro s
  induction s with
  | nil => intro j h; simp [find_last_not_of] at h
  | cons c cs ih =>
    intro j h
    simp only [find_last_not_of] at h
    cases hl : find_last_not_of cs with
    | some i =>
      rw [hl] at h
      simp only [Option.some.injEq] at h
      subst h
      have := ih i hl
      have hne : List.rdropWhile isTrimChar cs ≠ [] := by
        rw [← this]
        cases cs with
        | nil => simp [find_last_not_of] at hl
        | cons _ _ => simp
      rw [rdropWhile_cons, if_neg hne, ← this]
      rfl
    | none =>
      rw [hl] at h
      have hc : isTrimChar c = false := by
        by_contra hc
        simp only [Bool.not_eq_false] at hc
        simp [hc] at h
      simp only [hc, Bool.false_eq_true, if_false, Option.some.injEq] at h
      subst h
      rw [rdropWhile_cons, find_last_not_of_none cs hl]
      simp [hc]

theorem trim_cons_space (c : Char) (cs : Str) (hc : isTrimChar c = true) :
    trim (c :: cs) = trim cs := by
  unfold trim
  simp only [find_first_not_of, find_last_not_of, hc, if_true]
  cases hf : find_first_not_of cs with
  | none => simp
  | some i =>
    cases hl : find_last_not_of cs with
    | none => simp
    | some j =>
      simp only [Option.map_some', substr, List.drop_succ_cons]
      congr 1
      omega

theorem trim_cons_other (c : Char) (cs : Str) (hc : isTrimChar c = false) :
    trim (c :: cs) = List.rdropWhile isTrimChar (c :: cs) := by
  have hl : ∃ j, find_last_not_of (c :: cs) = some j := by
    simp only [find_last_not_of]
    cases find_last_not_of cs with
    | none => simp [hc]
    | some i => exact ⟨i + 1, rfl⟩
  obtain ⟨j, hj⟩ := hl
  have := find_last_not_of_some (c :: cs) j hj
  unfold trim
  rw [hj]
  simp only [find_first_not_of, hc, Bool.false_eq_true, if_false, substr, List.drop_zero,
    Nat.sub_zero]
  exact this

/-- The `trim` of the source computes the `trim` of the specification. -/
theorem trim_eq_trimSpec : ∀ s : Str, trim s = trimSpec s := by
  intro s
  unfold trimSpec
  rw [← isTrimChar_fun_eq]
  induction s with
  | nil => simp [trim, find_first_not_of]
  | cons c cs ih =>
    by_cases hc : isTrimChar c = true
    · rw [trim_cons_space c cs hc, ih, List.dropWhile_cons_of_pos hc]
    · have hc2 : isTrimChar c = false := by simpa using hc
      rw [trim_cons_other c cs hc2, List.dropWhile_cons_of_neg hc]

theorem trim_eq_nil_iff : ∀ s : Str, trim s = [] ↔ ∀ c ∈ s, isTrimChar c = true := by
  intro s
  induction s with
  | nil => simp [trim, find_first_not_of]
  | cons c cs ih =>
    by_cases hc : isTrimChar c = true
    · rw [trim_cons_space c cs hc, ih]
      simp [hc]
    · have hc2 : isTrimChar c = false := by simpa using hc
      rw [trim_cons_other c cs hc2, List.rdropWhile_eq_nil_iff]

/-! ## Lemmas on the line decoders -/

theorem split_length_pos_ne_nil (line : Str) (d : Char) (h : 0 < (split line d).length) :
    line.isEmpty = false := by
  cases line with
  | nil => simp [split_nil] at h
  | cons _ _ => rfl

theorem decodeRegistrationLine_eq (line : Str) :
    decodeRegistrationLine line =
      if (split line '|').length = 3 then
        LineResult.parsed ⟨trim ((split line '|').getD 0 []), trim ((split line '|').getD 1 []),
          trim ((split line '|').getD 2 [])⟩
      else LineResult.skipped := by
  unfold decodeRegistrationLine
  cases line with
  | nil => simp [split_nil]
  | cons c cs => simp

theorem loadRegistrationsLines_acc :
    ∀ (lines : List Str) (acc : List Registration),
      loadRegistrationsLines lines acc =
        acc ++ lines.filterMap (fun line =>
          if (split line '|').length = 3 then
            some (⟨trim ((split line '|').getD 0 []), trim ((split line '|').getD 1 []),
              trim ((split line '|').getD 2 [])⟩ : Registration)
          else none) := by
  intro lines
  induction lines with
  | nil => intro acc; simp [loadRegistrationsLines]
  | cons line rest ih =>
    intro acc
    unfold loadRegistrationsLines
    rw [decodeRegistrationLine_eq]
    by_cases h : (split line '|').length = 3
    · simp only [if_pos h, ih, List.filterMap_cons, List.append_assoc, List.singleton_append]
    · simp only [if_neg h, ih, List.filterMap_cons]

/-! ## Lemmas on `authenticateUser` -/

theorem authenticateLines_skip (username password line : Str) (rest : List Str)
    (h : ¬ CredentialsMatch username password line) :
    authenticateLines username password (line :: rest) =
      authenticateLines username password rest := by
  unfold CredentialsMatch at h
  rw [authenticateLines]
  by_cases he : line.isEmpty = true
  · simp only [he, if_true]
  · by_cases h4 : (split line ',').length ≥ 4
    · have hcred : ¬(trim ((split line ',').getD 0 []) = username ∧
          trim ((split line ',').getD 1 []) = password) := fun hc => h ⟨h4, hc.1, hc.2⟩
      simp only [he, h4, hcred, if_true, if_false, Bool.false_eq_true]
    · simp only [he, h4, if_false, Bool.false_eq_true]

theorem authenticateLines_match (username password line : Str) (rest : List Str)
    (h : CredentialsMatch username password line) :
    authenticateLines username password (line :: rest) =
      if trim ((split line ',').getD 3 []) = "admin".toList then
        some ⟨Role.admin, username, password, trim ((split line ',').getD 2 [])⟩
      else if trim ((split line ',').getD 3 []) = "student".toList then
        some ⟨Role.student, username, password, trim ((split line ',').getD 2 [])⟩
      else none := by
  obtain ⟨h4, hu, hp⟩ := h
  have he : line.isEmpty = false := split_length_pos_ne_nil line ',' (by omega)
  have hcred : trim ((split line ',').getD 0 []) = username ∧
      trim ((split line ',').getD 1 []) = password := ⟨hu, hp⟩
  rw [authenticateLines]
  simp only [he, Bool.false_eq_true, if_false, h4, if_true, hcred, and_self, hu, hp]

theorem authenticateLines_first (username password line : Str) (post : List Str)
    (h : CredentialsMatch username password line) :
    ∀ pre : List Str, (∀ l ∈ pre, ¬ CredentialsMatch username password l) →
      authenticateLines username password (pre ++ line :: post) =
        authenticateLines username password (line :: post) := by
  intro pre
  induction pre with
  | nil => intro _; rfl
  | cons p ps ih =>
    intro hpre
    rw [List.cons_append, authenticateLines_skip username password p _ (hpre p (by simp))]
    exact ih (fun l hl => hpre l (List.mem_cons_of_mem _ hl))

/-! ## Lemmas on what `trim` and `split` return -/

theorem mem_of_mem_trim : ∀ (s : Str) (c : Char), c ∈ trim s → c ∈ s := by
  intro s
  induction s with
  | nil => intro c h; simp [trim, find_first_not_of] at h
  | cons x xs ih =>
    intro c h
    by_cases hx : isTrimChar x = true
    · rw [trim_cons_space x xs hx] at h
      exact List.mem_cons_of_mem _ (ih c h)
    · have hx2 : isTrimChar x = false := by simpa using hx
      rw [trim_cons_other x xs hx2] at h
      exact (List.rdropWhile_prefix isTrimChar (x :: xs)).subset h

theorem noEdgeSpace_trim : ∀ s : Str, NoEdgeSpace (trim s) := by
  intro s
  induction s with
  | nil =>
    have : trim [] = [] := by simp [trim, find_first_not_of]
    rw [this]
    exact ⟨fun c h => by simp at h, fun c h => by simp at h⟩
  | cons x xs ih =>
    by_cases hx : isTrimChar x = true
    · rw [trim_cons_space x xs hx]; exact ih
    · have hx2 : isTrimChar x = false := by simpa using hx
      rw [trim_cons_other x xs hx2]
      constructor
      · intro c hc
        rw [rdropWhile_cons] at hc
        split at hc
        · simp only [hx2, Bool.false_eq_true, if_false, List.head?_cons,
            Option.some.injEq] at hc
          rw [← hc]; exact hx2
        · simp only [List.head?_cons, Option.some.injEq] at hc
          rw [← hc]; exact hx2
      · intro c hc
        have hne : List.rdropWhile isTrimChar (x :: xs) ≠ [] := by
          intro h; rw [h] at hc; simp at hc
        have hlast := List.rdropWhile_last_not isTrimChar (x :: xs) hne
        rw [List.getLast?_eq_getLast _ hne, Option.some.injEq] at hc
        rw [← hc]
        simpa using hlast

theorem trim_trim (s : Str) : trim (trim s) = trim s :=
  trim_of_noEdgeSpace _ (noEdgeSpace_trim s)

theorem mem_of_mem_split (d : Char) :
    ∀ (s : Str) (t : Str), t ∈ split s d → ∀ c ∈ t, c ∈ s := by
  intro s
  induction s with
  | nil => intro t ht; simp [split_nil] at ht
  | cons x xs ih =>
    intro t ht c hc
    rw [split_cons] at ht
    by_cases hx : x = d
    · simp only [if_pos hx, List.mem_cons] at ht
      rcases ht with ht | ht
      · subst ht; simp at hc
      · exact List.mem_cons_of_mem _ (ih t ht c hc)
    · simp only [if_neg hx] at ht
      cases hs : split xs d with
      | nil =>
        rw [hs] at ht
        simp only [List.mem_singleton] at ht
        subst ht
        simp only [List.mem_singleton] at hc
        subst hc
        simp
      | cons u us =>
        rw [hs] at ht ih
        simp only [List.mem_cons] at ht
        rcases ht with ht | ht
        · subst ht
          rcases List.mem_cons.mp hc with h | h
          · subst h; simp
          · exact List.mem_cons_of_mem _ (ih u (by simp) c h)
        · exact List.mem_cons_of_mem _ (ih t (List.mem_cons_of_mem _ ht) c hc)

/-- A field taken from the parts of a line, trimmed: free of the separator,
free of every character the line is free of, and without surrounding white
space. -/
theorem field_of_line (line : Str) (d : Char) (i : Nat) :
    d ∉ trim ((split line d).getD i []) ∧
      (∀ c, c ∉ line → c ∉ trim ((split line d).getD i [])) ∧
      NoEdgeSpace (trim ((split line d).getD i [])) := by
  have hpart : (split line d).getD i [] = [] ∨ (split line d).getD i [] ∈ split line d := by
    by_cases hi : i < (split line d).length
    · right
      rw [List.getD_eq_getElem _ _ hi]
      exact List.getElem_mem _
    · left
      rw [List.getD_eq_default _ _ (by omega)]
  refine ⟨fun h => ?_, fun c hc h => ?_, noEdgeSpace_trim _⟩
  · have hm := mem_of_mem_trim _ d h
    rcases hpart with hp | hp
    · rw [hp] at hm; simp at hm
    · exact split_delimiter_free d line _ hp hm
  · have hm := mem_of_mem_trim _ c h
    rcases hpart with hp | hp
    · rw [hp] at hm; simp at hm
    · exact hc (mem_of_mem_split d line _ hp c hm)

/-! ## Lemmas on `to_string` for every `int` -/

theorem to_string_props_int (n : Int) :
    to_string n ≠ [] ∧ '|' ∉ to_string n ∧ '\n' ∉ to_string n ∧
      NoEdgeSpace (to_string n) := by
  by_cases h0 : 0 ≤ n
  · obtain ⟨h1, h2, h3⟩ := to_string_props n h0
    refine ⟨h1, h2, ?_, h3⟩
    rw [to_string_of_nonneg n h0]
    intro hmem
    have := (natDigits_spec n.toNat).2.1 _ hmem
    revert this
    decide
  · have hneg : n < 0 := by omega
    obtain ⟨hne, hdig, _⟩ := natDigits_spec n.natAbs
    have hts : to_string n = '-' :: natDigits n.natAbs := by
      unfold to_string
      simp [hneg]
    rw [hts]
    refine ⟨by simp, ?_, ?_, ?_, ?_⟩
    · intro hmem
      rcases List.mem_cons.mp hmem with h | h
      · revert h; decide
      · exact isdigit_ne_pipe _ (hdig _ h) rfl
    · intro hmem
      rcases List.mem_cons.mp hmem with h | h
      · revert h; decide
      · have := hdig _ h
        revert this
        decide
    · intro c hc
      simp only [List.head?_cons, Option.some.injEq] at hc
      rw [← hc]; decide
    · intro c hc
      have hlast : (natDigits n.natAbs).getLast? = some c := by
        cases hx : natDigits n.natAbs with
        | nil => exact absurd hx hne
        | cons y ys =>
          rw [hx, List.getLast?_cons_cons] at hc
          exact hc
      exact isdigit_not_isTrimChar c (hdig c (List.mem_of_mem_getLast? hlast))

/-! ## Lemmas on failed authentication -/

theorem authenticateLines_none (username password : Str) :
    ∀ lines : List Str, (∀ l ∈ lines, ¬ CredentialsMatch username password l) →
      authenticateLines username password lines = none := by
  intro lines
  induction lines with
  | nil => intro _; rfl
  | cons l ls ih =>
    intro h
    rw [authenticateLines_skip username password l ls (h l (by simp))]
    exact ih (fun x hx => h x (List.mem_cons_of_mem _ hx))

/-! ## Lemmas on referential integrity -/

theorem mem_eraseIdx_of_name_ne :
    ∀ (events : List Event) (i : Nat) (hi : i < events.length) (e : Event),
      e ∈ events → e.eventName ≠ events[i].eventName → e ∈ events.eraseIdx i := by
  intro events
  induction events with
  | nil => intro i hi; simp at hi
  | cons x xs ih =>
    intro i hi e he hne
    cases i with
    | zero =>
      simp only [List.getElem_cons_zero] at hne
      simp only [List.eraseIdx_cons_zero]
      rcases List.mem_cons.mp he with h | h
      · subst h; exact absurd rfl hne
      · exact h
    | succ k =>
      have hk : k < xs.length := by simpa using hi
      simp only [List.getElem_cons_succ] at hne
      simp only [List.eraseIdx_cons_succ, List.mem_cons]
      rcases List.mem_cons.mp he with h | h
      · exact Or.inl h
      · exact Or.inr (ih k hk e h hne)

theorem names_set_same (events : List Event) (i : Nat) (ev ev1 : Event)
    (hget : events[i]? = some ev) (hname : ev1.eventName = ev.eventName) (name : Str) :
    (∃ e ∈ events.set i ev1, e.eventName = name) ↔ (∃ e ∈ events, e.eventName = name) := by
  have hmap := map_set_same (fun e => e.eventName) events i ev ev1 hget hname
  constructor
  · rintro ⟨e, he, hn⟩
    have hm : name ∈ (events.set i ev1).map (fun e => e.eventName) :=
      List.mem_map.mpr ⟨e, he, hn⟩
    rw [hmap] at hm
    obtain ⟨e1, he1, hn1⟩ := List.mem_map.mp hm
    exact ⟨e1, he1, hn1⟩
  · rintro ⟨e, he, hn⟩
    have hm : name ∈ events.map (fun e => e.eventName) := List.mem_map.mpr ⟨e, he, hn⟩
    rw [← hmap] at hm
    obtain ⟨e1, he1, hn1⟩ := List.mem_map.mp hm
    exact ⟨e1, he1, hn1⟩

theorem names_unregisterFirstEvent (eventName name : Str) :
    ∀ events : List Event,
      (∃ e ∈ unregisterFirstEvent eventName events, e.eventName = name) ↔
        (∃ e ∈ events, e.eventName = name) := by
  intro events
  have hmap : (unregisterFirstEvent eventName events).map (fun e => e.eventName) =
      events.map (fun e => e.eventName) := by
    induction events with
    | nil => rfl
    | cons x xs ih =>
      unfold unregisterFirstEvent
      split_ifs
      · have : x.unregisterStudent.eventName = x.eventName := by
          unfold Event.unregisterStudent; split <;> rfl
        simp [this]
      · simp [ih]
  constructor
  · rintro ⟨e, he, hn⟩
    have hm : name ∈ (unregisterFirstEvent eventName events).map (fun e => e.eventName) :=
      List.mem_map.mpr ⟨e, he, hn⟩
    rw [hmap] at hm
    obtain ⟨e1, he1, hn1⟩ := List.mem_map.mp hm
    exact ⟨e1, he1, hn1⟩
  · rintro ⟨e, he, hn⟩
    have hm : name ∈ events.map (fun e => e.eventName) := List.mem_map.mpr ⟨e, he, hn⟩
    rw [← hmap] at hm
    obtain ⟨e1, he1, hn1⟩ := List.mem_map.mp hm
    exact ⟨e1, he1, hn1⟩

theorem refers_registerForEvent (username : Str) (events : List Event)
    (registrations : List Registration) (eventNum : Int) (now : Str)
    (h : RefersToEvents events registrations) :
    RefersToEvents (registerForEvent username events registrations eventNum now).2.1
      (registerForEvent username events registrations eventNum now).2.2 := by
  unfold registerForEvent
  by_cases hempty : events.isEmpty = true
  · simp only [hempty, if_true]; exact h
  by_cases hrange : eventNum < 1 ∨ eventNum > (events.length : Int)
  · simp only [hempty, hrange, if_true, if_false, Bool.false_eq_true]; exact h
  simp only [hempty, hrange, if_false, Bool.false_eq_true]
  cases hget : events[(eventNum - 1).toNat]? with
  | none => exact h
  | some ev =>
    simp only
    split_ifs
    · exact h
    · exact h
    · have hname : ev.registerStudent.eventName = ev.eventName := by
        unfold Event.registerStudent; split <;> rfl
      intro r hr
      rw [names_set_same events _ ev _ hget hname]
      simp only [List.mem_append, List.mem_singleton] at hr
      rcases hr with hr | hr
      · exact h r hr
      · subst hr
        exact ⟨ev, List.getElem?_mem hget, rfl⟩

theorem refers_unregisterFromEvent (username : Str) (events : List Event)
    (registrations : List Registration) (eventName : Str)
    (h : RefersToEvents events registrations) :
    RefersToEvents (unregisterFromEvent username events registrations eventName).2.1
      (unregisterFromEvent username events registrations eventName).2.2 := by
  unfold unregisterFromEvent
  split
  · exact h
  · intro r hr
    rw [names_unregisterFirstEvent]
    exact h r (List.mem_of_mem_eraseIdx hr)

theorem refers_deleteEvent (events : List Event) (registrations : List Registration)
    (eventNum : Int) (confirmation : Str) (h : RefersToEvents events registrations) :
    RefersToEvents (deleteEvent events registrations eventNum confirmation).2.1
      (deleteEvent events registrations eventNum confirmation).2.2 := by
  unfold deleteEvent
  by_cases hempty : events.isEmpty = true
  · simp only [hempty, if_true]; exact h
  by_cases hrange : eventNum < 1 ∨ eventNum > (events.length : Int)
  · simp only [hempty, hrange, if_true, if_false, Bool.false_eq_true]; exact h
  simp only [hempty, hrange, if_false, Bool.false_eq_true]
  have hi : (eventNum - 1).toNat < events.length := by omega
  rw [List.getElem?_eq_getElem hi]
  simp only
  split_ifs
  · intro r hr
    obtain ⟨hmem, hne⟩ := List.mem_filter.mp hr
    obtain ⟨e, he, hname⟩ := h r hmem
    have hne2 : r.eventName ≠ events[(eventNum - 1).toNat].eventName := by simpa using hne
    exact ⟨e, mem_eraseIdx_of_name_ne events _ hi e he (by rw [hname]; exact hne2), hname⟩
  · exact h

/-! ## Lemmas on the two copies of the store functions -/

theorem student_decodeEventLine (line : Str) :
    Student.decodeEventLine line = decodeEventLine line := rfl

theorem student_loadEventsLines :
    ∀ (lines : List Str) (acc : List Event),
      Student.loadEventsLines lines acc = loadEventsLines lines acc := by
  intro lines
  induction lines with
  | nil => intro acc; rfl
  | cons l ls ih =>
    intro acc
    unfold Student.loadEventsLines loadEventsLines
    rw [student_decodeEventLine]
    cases decodeEventLine l with
    | skipped => exact ih acc
    | parsed e => exact ih (acc ++ [e])
    | thrown => rfl

theorem student_loadEventsFromFile (file : Option Str) :
    Student.loadEventsFromFile file = loadEventsFromFile file := by
  cases file with
  | none => rfl
  | some content => exact student_loadEventsLines _ _

theorem student_decodeRegistrationLine (line : Str) :
    Student.decodeRegistrationLine line = decodeRegistrationLine line := rfl

theorem student_loadRegistrationsLines :
    ∀ (lines : List Str) (acc : List Registration),
      Student.loadRegistrationsLines lines acc = loadRegistrationsLines lines acc := by
  intro lines
  induction lines with
  | nil => intro acc; rfl
  | cons l ls ih =>
    intro acc
    unfold Student.loadRegistrationsLines loadRegistrationsLines
    rw [student_decodeRegistrationLine]
    cases decodeRegistrationLine l with
    | skipped => exact ih acc
    | parsed r => exact ih (acc ++ [r])
    | thrown => exact ih acc

theorem student_loadRegistrationsFromFile (file : Option Str) :
    Student.loadRegistrationsFromFile file = loadRegistrationsFromFile file := by
  cases file with
  | none => rfl
  | some content => exact student_loadRegistrationsLines _ _

theorem saveEventsToFile_cons (e : Event) (es : List Event) :
    saveEventsToFile (e :: es) = e.toFileFormat ++ '\n' :: saveEventsToFile es := by
  simp [saveEventsToFile]

theorem saveRegistrationsToFile_cons (r : Registration) (rs : List Registration) :
    saveRegistrationsToFile (r :: rs) =
      r.toFileFormat ++ '\n' :: saveRegistrationsToFile rs := by
  simp [saveRegistrationsToFile]

theorem student_saveEventsFrom (events : List Event) :
    ∀ (fuel i : Nat), i + fuel = events.length →
      Student.saveEventsFrom events fuel i = saveEventsToFile (events.drop i) := by
  intro fuel
  induction fuel with
  | zero =>
    intro i h
    have : events.drop i = [] := List.drop_eq_nil_of_le (by omega)
    simp [Student.saveEventsFrom, this, saveEventsToFile]
  | succ n ih =>
    intro i h
    have hi : i < events.length := by omega
    have e1 : Student.saveEventsFrom events (n + 1) i =
        events[i].toFileFormat ++ '\n' :: Student.saveEventsFrom events n (i + 1) := by
      simp only [Student.saveEventsFrom, List.getElem?_eq_getElem hi]
    rw [e1, ih (i + 1) (by omega), List.drop_eq_getElem_cons hi, saveEventsToFile_cons]

theorem student_saveEventsToFile (events : List Event) :
    Student.saveEventsToFile events = saveEventsToFile events := by
  unfold Student.saveEventsToFile
  rw [student_saveEventsFrom events events.length 0 (by omega), List.drop_zero]

theorem student_saveRegistrationsFrom (registrations : List Registration) :
    ∀ (fuel i : Nat), i + fuel = registrations.length →
      Student.saveRegistrationsFrom registrations fuel i =
        saveRegistrationsToFile (registrations.drop i) := by
  intro fuel
  induction fuel with
  | zero =>
    intro i h
    have : registrations.drop i = [] := List.drop_eq_nil_of_le (by omega)
    simp [Student.saveRegistrationsFrom, this, saveRegistrationsToFile]
  | succ n ih =>
    intro i h
    have hi : i < registrations.length := by omega
    have e1 : Student.saveRegistrationsFrom registrations (n + 1) i =
        registrations[i].toFileFormat ++
          '\n' :: Student.saveRegistrationsFrom registrations n (i + 1) := by
      simp only [Student.saveRegistrationsFrom, List.getElem?_eq_getElem hi]
    rw [e1, ih (i + 1) (by omega), List.drop_eq_getElem_cons hi, saveRegistrationsToFile_cons]

theorem student_saveRegistrationsToFile (registrations : List Registration) :
    Student.saveRegistrationsToFile registrations = saveRegistrationsToFile registrations := by
  unfold Student.saveRegistrationsToFile
  rw [student_saveRegistrationsFrom registrations registrations.length 0 (by omega),
    List.drop_zero]

/-! ## Lemmas on the order of the two saves -/

/-- The date edit at a valid position. -/
theorem editEvent_date_eval (events : List Event) (i : Nat) (hi : i < events.length)
    (text : Str) (newCap_input : Int) :
    editEvent events ((i : Int) + 1) 2 text newCap_input =
      if isValidDate (trim text) = true
      then (Outcome.success, events.set i (events[i].setDate (trim text)))
      else (Outcome.validationError, events) := by
  obtain ⟨h1, h2, h3, h4⟩ := select_event events i hi
  have c1 : ¬((2 : Int) = 1) := by decide
  unfold editEvent
  simp only [h1, h2, h3, h4, c1, if_true, if_false, Bool.false_eq_true]

theorem dualWriteOrder_save (fs : Files) (outcome1 outcome2 : Outcome)
    (eventsContent registrationsContent : Str) (run : Run)
    (h : (if fs.eventsOpenForWrite = true then
        if fs.registrationsOpenForWrite = true then
          some (⟨outcome1,
            { events := some eventsContent, registrations := some registrationsContent,
              eventsOpenForWrite := fs.eventsOpenForWrite,
              registrationsOpenForWrite := fs.registrationsOpenForWrite },
            [(FileName.eventsFile, true), (FileName.registrationsFile, true)]⟩ : Run)
        else some ⟨outcome2,
          { events := some eventsContent, registrations := fs.registrations,
            eventsOpenForWrite := fs.eventsOpenForWrite,
            registrationsOpenForWrite := fs.registrationsOpenForWrite },
          [(FileName.eventsFile, true), (FileName.registrationsFile, false)]⟩
      else some ⟨Outcome.ioError, fs, [(FileName.eventsFile, false)]⟩) = some run) :
    DualWriteOrder fs run := by
  obtain ⟨ev, rg, ew, rw⟩ := fs
  cases ew <;> cases rw <;>
    simp only [if_true, if_false, Bool.false_eq_true, Option.some.injEq] at h <;>
    subst h <;> unfold DualWriteOrder <;> simp

theorem dualWriteOrder_nosave (fs : Files) (outcome : Outcome) :
    DualWriteOrder fs ⟨outcome, fs, []⟩ :=
  ⟨Or.inl rfl, fun _ => ⟨rfl, fun b => by simp⟩, fun _ => rfl⟩

theorem dualWriteOrder_register (username : Str) (fs : Files) (eventNum : Int) (now : Str)
    (run : Run) (h : registerForEventOnFiles username fs eventNum now = some run) :
    DualWriteOrder fs run := by
  unfold registerForEventOnFiles at h
  split at h
  · exact absurd h (by simp)
  · simp only at h
    split at h
    · exact dualWriteOrder_save fs _ _ _ _ run h
    · simp only [Option.some.injEq] at h
      subst h
      exact dualWriteOrder_nosave fs _

theorem dualWriteOrder_unregister (username : Str) (fs : Files) (eventName : Str)
    (run : Run) (h : unregisterFromEventOnFiles username fs eventName = some run) :
    DualWriteOrder fs run := by
  unfold unregisterFromEventOnFiles at h
  split at h
  · exact absurd h (by simp)
  · simp only at h
    split at h
    · exact dualWriteOrder_save fs _ _ _ _ run h
    · simp only [Option.some.injEq] at h
      subst h
      exact dualWriteOrder_nosave fs _

theorem dualWriteOrder_delete (fs : Files) (eventNum : Int) (confirmation : Str)
    (run : Run) (h : deleteEventOnFiles fs eventNum confirmation = some run) :
    DualWriteOrder fs run := by
  unfold deleteEventOnFiles at h
  split at h
  · exact absurd h (by simp)
  · split at h
    · exact dualWriteOrder_save fs _ _ _ _ run h
    · simp only [Option.some.injEq] at h
      subst h
      exact dualWriteOrder_nosave fs _

/-! ## Lemmas on saving and loading again -/

theorem stoi_range (s : Str) (v : Int) (h : stoi s = some v) :
    INT_MIN ≤ v ∧ v ≤ INT_MAX := by
  unfold stoi at h
  dsimp only at h
  split_ifs at h with h1 h2 h3 h4
  all_goals first
    | (cases h; done)
    | (cases h; assumption)

theorem split_toFileFormat_int (e : Event) (hn : '|' ∉ e.eventName) (hd : '|' ∉ e.date)
    (hv : '|' ∉ e.venue) :
    split e.toFileFormat '|' =
      [e.eventName, e.date, e.venue, to_string e.capacity, to_string e.registeredCount] := by
  obtain ⟨_, hc, _⟩ := to_string_props_int e.capacity
  obtain ⟨hrne, hr, _⟩ := to_string_props_int e.registeredCount
  rw [toFileFormat_eq, split_append_delim _ _ _ hn, split_append_delim _ _ _ hd,
    split_append_delim _ _ _ hv, split_append_delim _ _ _ hc, split_no_delim _ _ hr hrne]

/-- Decoding the line written for an encodable event gives the event back. -/
theorem decodeEventLine_toFileFormat (e : Event) (h : EncodableEvent e) :
    decodeEventLine e.toFileFormat = LineResult.parsed e := by
  obtain ⟨hn, hd, hv, hc, hr⟩ := h
  have hsplit := split_toFileFormat_int e hn.1 hd.1 hv.1
  have hne : e.toFileFormat.isEmpty = false := by
    rw [toFileFormat_eq]
    cases e.eventName <;> simp
  have sc := stoi_to_string_int e.capacity hc.1 hc.2
  have sr := stoi_to_string_int e.registeredCount hr.1 hr.2
  have tc := trim_of_noEdgeSpace _ (to_string_props_int e.capacity).2.2.2
  have tr := trim_of_noEdgeSpace _ (to_string_props_int e.registeredCount).2.2.2
  simp only [decodeEventLine, hne, hsplit]
  simp [trim_of_noEdgeSpace _ hn.2.2, trim_of_noEdgeSpace _ hd.2.2,
    trim_of_noEdgeSpace _ hv.2.2, tc, tr, sc, sr]

theorem toFileFormat_no_newline (e : Event) (h : EncodableEvent e) :
    '\n' ∉ e.toFileFormat := by
  obtain ⟨hn, hd, hv, _, _⟩ := h
  have hc := (to_string_props_int e.capacity).2.2.1
  have hr := (to_string_props_int e.registeredCount).2.2.1
  rw [toFileFormat_eq]
  simp only [List.mem_append, List.mem_cons, not_or]
  exact ⟨hn.2.1, by decide, hd.2.1, by decide, hv.2.1, by decide, hc, by decide, hr⟩

/-- The lines of a content written as newline-terminated lines. -/
theorem split_terminated_lines :
    ∀ lines : List Str, (∀ l ∈ lines, '\n' ∉ l) →
      split (lines.map (fun l => l ++ ['\n'])).flatten '\n' = lines := by
  intro lines
  induction lines with
  | nil => intro _; simp [split_nil]
  | cons l ls ih =>
    intro h
    have hl := h l (by simp)
    simp only [List.map_cons, List.flatten_cons, List.append_assoc, List.singleton_append]
    rw [split_append_delim '\n' l _ hl, ih (fun x hx => h x (List.mem_cons_of_mem _ hx))]

theorem saveEventsToFile_eq (events : List Event) :
    saveEventsToFile events =
      ((events.map Event.toFileFormat).map (fun l => l ++ ['\n'])).flatten := by
  simp [saveEventsToFile, List.map_map, Function.comp_def]

theorem saveRegistrationsToFile_eq (registrations : List Registration) :
    saveRegistrationsToFile registrations =
      ((registrations.map Registration.toFileFormat).map (fun l => l ++ ['\n'])).flatten := by
  simp [saveRegistrationsToFile, List.map_map, Function.comp_def]

theorem loadEventsLines_encoded :
    ∀ (events acc : List Event), (∀ e ∈ events, EncodableEvent e) →
      loadEventsLines (events.map Event.toFileFormat) acc = some (acc ++ events) := by
  intro events
  induction events with
  | nil => intro acc _; simp [loadEventsLines]
  | cons e es ih =>
    intro acc h
    simp only [List.map_cons, loadEventsLines, decodeEventLine_toFileFormat e (h e (by simp))]
    rw [ih (acc ++ [e]) (fun x hx => h x (List.mem_cons_of_mem _ hx))]
    simp

/-- Saving encodable events and loading the content gives the events back. -/
theorem load_save_events (events : List Event) (h : ∀ e ∈ events, EncodableEvent e) :
    split (saveEventsToFile events) '\n' = events.map Event.toFileFormat ∧
      loadEventsFromFile (some (saveEventsToFile events)) = some events := by
  have hlines : split (saveEventsToFile events) '\n' = events.map Event.toFileFormat := by
    rw [saveEventsToFile_eq]
    apply split_terminated_lines
    intro l hl
    obtain ⟨e, he, rfl⟩ := List.mem_map.mp hl
    exact toFileFormat_no_newline e (h e he)
  refine ⟨hlines, ?_⟩
  unfold loadEventsFromFile
  simp only [hlines]
  rw [loadEventsLines_encoded events [] h]
  simp

theorem decodeEventLine_encodable (line : Str) (e : Event) (hline : '\n' ∉ line)
    (h : decodeEventLine line = LineResult.parsed e) : EncodableEvent e := by
  have f := fun i => field_of_line line '|' i
  unfold decodeEventLine at h
  simp only at h
  split at h
  · exact absurd h (by simp)
  split at h
  swap
  · exact absurd h (by simp)
  split at h
  · exact absurd h (by simp)
  rename_i cap hcap
  have rc := stoi_range _ _ hcap
  split at h
  · split at h
    · exact absurd h (by simp)
    rename_i reg hreg
    have rr := stoi_range _ _ hreg
    simp only [LineResult.parsed.injEq] at h
    subst h
    exact ⟨⟨(f 0).1, (f 0).2.1 _ hline, (f 0).2.2⟩, ⟨(f 1).1, (f 1).2.1 _ hline, (f 1).2.2⟩,
      ⟨(f 2).1, (f 2).2.1 _ hline, (f 2).2.2⟩, rc, rr⟩
  · simp only [LineResult.parsed.injEq] at h
    subst h
    refine ⟨⟨(f 0).1, (f 0).2.1 _ hline, (f 0).2.2⟩, ⟨(f 1).1, (f 1).2.1 _ hline, (f 1).2.2⟩,
      ⟨(f 2).1, (f 2).2.1 _ hline, (f 2).2.2⟩, rc, ?_, ?_⟩
    · show INT_MIN ≤ (0 : Int)
      unfold INT_MIN; omega
    · show (0 : Int) ≤ INT_MAX
      unfold INT_MAX; omega

theorem loadEventsLines_encodable :
    ∀ (lines : List Str) (acc events : List Event), (∀ l ∈ lines, '\n' ∉ l) →
      (∀ e ∈ acc, EncodableEvent e) → loadEventsLines lines acc = some events →
      ∀ e ∈ events, EncodableEvent e := by
  intro lines
  induction lines with
  | nil =>
    intro acc events _ hacc h
    simp only [loadEventsLines, Option.some.injEq] at h
    subst h
    exact hacc
  | cons l ls ih =>
    intro acc events hl hacc h
    have hls : ∀ x ∈ ls, '\n' ∉ x := fun x hx => hl x (List.mem_cons_of_mem _ hx)
    unfold loadEventsLines at h
    cases hd : decodeEventLine l with
    | skipped =>
      rw [hd] at h
      exact ih acc events hls hacc h
    | thrown =>
      rw [hd] at h
      exact absurd h (by simp)
    | parsed e0 =>
      rw [hd] at h
      refine ih (acc ++ [e0]) events hls ?_ h
      intro e he
      rcases List.mem_append.mp he with h1 | h1
      · exact hacc e h1
      · simp only [List.mem_singleton] at h1
        subst h1
        exact decodeEventLine_encodable l e (hl l (by simp)) hd

theorem registration_toFileFormat_eq (r : Registration) :
    r.toFileFormat = r.studentUsername ++ '|' :: (r.eventName ++ '|' :: r.registrationDate) := by
  simp [Registration.toFileFormat, List.append_assoc]

/-- Decoding the line written for an encodable registration: the registration
comes back when its date is not empty; with an empty date the line ends with
the separator, splits into two parts and is skipped. -/
theorem decodeRegistrationLine_toFileFormat (r : Registration)
    (h : EncodableRegistration r) :
    decodeRegistrationLine r.toFileFormat =
      if r.registrationDate = [] then LineResult.skipped else LineResult.parsed r := by
  obtain ⟨hs, he, hd⟩ := h
  rw [decodeRegistrationLine_eq, registration_toFileFormat_eq,
    split_append_delim _ _ _ hs.1, split_append_delim _ _ _ he.1]
  by_cases hdate : r.registrationDate = []
  · simp [hdate, split_nil]
  · rw [split_no_delim _ _ hd.1 hdate]
    simp [hdate, trim_of_noEdgeSpace _ hs.2.2, trim_of_noEdgeSpace _ he.2.2,
      trim_of_noEdgeSpace _ hd.2.2]

theorem registration_toFileFormat_no_newline (r : Registration)
    (h : EncodableRegistration r) : '\n' ∉ r.toFileFormat := by
  obtain ⟨hs, he, hd⟩ := h
  rw [registration_toFileFormat_eq]
  simp only [List.mem_append, List.mem_cons, not_or]
  exact ⟨hs.2.1, by decide, he.2.1, by decide, hd.2.1⟩

theorem loadRegistrationsLines_encoded :
    ∀ (registrations acc : List Registration),
      (∀ r ∈ registrations, EncodableRegistration r) →
      loadRegistrationsLines (registrations.map Registration.toFileFormat) acc =
        acc ++ registrations.filter (fun r => decide (r.registrationDate ≠ [])) := by
  intro registrations
  induction registrations with
  | nil => intro acc _; simp [loadRegistrationsLines]
  | cons r rs ih =>
    intro acc h
    have hrs : ∀ x ∈ rs, EncodableRegistration x := fun x hx => h x (List.mem_cons_of_mem _ hx)
    simp only [List.map_cons, loadRegistrationsLines,
      decodeRegistrationLine_toFileFormat r (h r (by simp))]
    by_cases hdate : r.registrationDate = []
    · simp only [hdate, if_true, ih acc hrs]
      simp [List.filter_cons, hdate]
    · simp only [hdate, if_false, ih (acc ++ [r]) hrs]
      simp [List.filter_cons, hdate]

/-- Saving encodable registrations and loading the content gives back those
with a non-empty date. -/
theorem load_save_registrations (registrations : List Registration)
    (h : ∀ r ∈ registrations, EncodableRegistration r) :
    loadRegistrationsFromFile (some (saveRegistrationsToFile registrations)) =
      registrations.filter (fun r => decide (r.registrationDate ≠ [])) := by
  have hlines : split (saveRegistrationsToFile registrations) '\n' =
      registrations.map Registration.toFileFormat := by
    rw [saveRegistrationsToFile_eq]
    apply split_terminated_lines
    intro l hl
    obtain ⟨r, hr, rfl⟩ := List.mem_map.mp hl
    exact registration_toFileFormat_no_newline r (h r hr)
  unfold loadRegistrationsFromFile
  simp only [hlines]
  rw [loadRegistrationsLines_encoded registrations [] h]
  simp

theorem loadRegistrationsFromFile_encodable (content : Str) :
    ∀ r ∈ loadRegistrationsFromFile (some content), EncodableRegistration r := by
  intro r hr
  unfold loadRegistrationsFromFile at hr
  simp only at hr
  rw [loadRegistrationsLines_acc, List.nil_append] at hr
  obtain ⟨line, hline, hdec⟩ := List.mem_filterMap.mp hr
  have hnl : '\n' ∉ line := split_delimiter_free '\n' content line hline
  have f := fun i => field_of_line line '|' i
  split at hdec
  · simp only [Option.some.injEq] at hdec
    subst hdec
    exact ⟨⟨(f 0).1, (f 0).2.1 _ hnl, (f 0).2.2⟩, ⟨(f 1).1, (f 1).2.1 _ hnl, (f 1).2.2⟩,
      ⟨(f 2).1, (f 2).2.1 _ hnl, (f 2).2.2⟩⟩
  · exact absurd hdec (by simp)

theorem loadEventsFromFile_encodable (content : Str) (events : List Event)
    (h : loadEventsFromFile (some content) = some events) : ∀ e ∈ events, EncodableEvent e := by
  unfold loadEventsFromFile at h
  simp only at h
  exact loadEventsLines_encodable (split content '\n') [] events
    (fun l hl => split_delimiter_free '\n' content l hl) (fun e he => by simp at he) h

theorem encodable_of_stored (e : Event) (h : StoredEvent e) : EncodableEvent e := by
  obtain ⟨hn, hd, hv, _, _, hc, hr⟩ := h
  exact ⟨⟨hn.1, hn.2.1, hn.2.2.2⟩, ⟨hd.1, hd.2.1, hd.2.2.2⟩, ⟨hv.1, hv.2.1, hv.2.2.2⟩, hc, hr⟩

/-! ## Lemmas on `addNewStudent` -/

theorem split_ne_nil_of_ne_nil (d : Char) (s : Str) (h : s ≠ []) : split s d ≠ [] := by
  cases s with
  | nil => exact absurd rfl h
  | cons c cs =>
    rw [split_cons]
    split
    · simp
    · split <;> simp

theorem split_append_terminated (d : Char) (b : Str) :
    ∀ a : Str, (a = [] ∨ a.getLast? = some d) → split (a ++ b) d = split a d ++ split b d := by
  intro a
  induction a with
  | nil => intro _; simp [split_nil]
  | cons c cs ih =>
    intro h
    have hlast : (c :: cs).getLast? = some d := by
      rcases h with h | h
      · exact absurd h (by simp)
      · exact h
    by_cases hc : c = d
    · have hcs : cs = [] ∨ cs.getLast? = some d := by
        cases cs with
        | nil => exact Or.inl rfl
        | cons y ys =>
          right
          rw [List.getLast?_cons_cons] at hlast
          exact hlast
      rw [List.cons_append, split_cons, split_cons, if_pos hc, if_pos hc, ih hcs]
      rfl
    · have hcs : cs ≠ [] := by
        intro hnil
        subst hnil
        simp only [List.getLast?_singleton, Option.some.injEq] at hlast
        exact hc hlast
      have hcs2 : cs.getLast? = some d := by
        cases cs with
        | nil => exact absurd rfl hcs
        | cons y ys =>
          rw [List.getLast?_cons_cons] at hlast
          exact hlast
      rw [List.cons_append, split_cons, split_cons, if_neg hc, if_neg hc, ih (Or.inr hcs2)]
      cases hs : split cs d with
      | nil => exact absurd hs (split_ne_nil_of_ne_nil d cs hcs)
      | cons t ts => rfl

theorem split_length_append_delim (d : Char) (rest : Str) :
    ∀ a : Str, (split rest d).length + 1 ≤ (split (a ++ d :: rest) d).length := by
  intro a
  induction a with
  | nil =>
    rw [List.nil_append, split_cons, if_pos rfl]
    simp
  | cons c cs ih =>
    rw [List.cons_append, split_cons]
    by_cases hc : c = d
    · rw [if_pos hc]
      simp only [List.length_cons]
      omega
    · rw [if_neg hc]
      cases hs : split (cs ++ d :: rest) d with
      | nil => rw [hs] at ih; simp at ih
      | cons t ts =>
        rw [hs] at ih
        simpa using ih

theorem usernameExists_iff (username : Str) (hne : username ≠ []) :
    ∀ lines : List Str,
      usernameExists username lines = true ↔
        ∃ l ∈ lines, trim ((split l ',').getD 0 []) = username := by
  intro lines
  induction lines with
  | nil => simp [usernameExists]
  | cons l ls ih =>
    unfold usernameExists
    by_cases hl : l.isEmpty = true
    · have hl2 : l = [] := by simpa using hl
      have hno : trim ((split l ',').getD 0 []) ≠ username := by
        rw [hl2, split_nil]
        simp only [List.getD_nil]
        intro h
        apply hne
        rw [← h]
        simp [trim, find_first_not_of]
      simp only [hl, if_true, ih, List.mem_cons, exists_eq_or_imp, hno, false_or]
    · have hl2 : l ≠ [] := by simpa using hl
      have hpos : (split l ',').length > 0 :=
        List.length_pos.mpr (split_ne_nil_of_ne_nil ',' l hl2)
      simp only [hl, if_false, hpos, true_and, Bool.false_eq_true]
      by_cases hu : trim ((split l ',').getD 0 []) = username
      · simp only [hu, if_true, true_iff]
        exact ⟨l, by simp, hu⟩
      · simp only [hu, if_false, ih, List.mem_cons, exists_eq_or_imp, false_or]

/-- The fields of the written record when the username has no comma. -/
theorem split_studentRecord_head (username password fullName : Str)
    (hu : ',' ∉ username) :
    (split (studentRecord username password fullName) ',').getD 0 [] = username ∧
      4 ≤ (split (studentRecord username password fullName) ',').length := by
  have e : studentRecord username password fullName =
      username ++ ',' :: (password ++ ',' :: (fullName ++ ',' :: "student".toList)) := by
    simp [studentRecord, List.append_assoc]
  rw [e, split_append_delim ',' username _ hu]
  refine ⟨rfl, ?_⟩
  have h1 := split_length_append_delim ',' (fullName ++ ',' :: "student".toList) password
  have h2 := split_length_append_delim ',' "student".toList fullName
  have h3 : (split "student".toList ',').length = 1 := by decide
  simp only [List.length_cons]
  omega

theorem split_studentRecord (username password fullName : Str)
    (hu : ',' ∉ username) (hp : ',' ∉ password) (hf : ',' ∉ fullName) :
    split (studentRecord username password fullName) ',' =
      [username, password, fullName, "student".toList] := by
  have e : studentRecord username password fullName =
      username ++ ',' :: (password ++ ',' :: (fullName ++ ',' :: "student".toList)) := by
    simp [studentRecord, List.append_assoc]
  rw [e, split_append_delim ',' username _ hu, split_append_delim ',' password _ hp,
    split_append_delim ',' fullName _ hf, split_no_delim ',' _ (by decide) (by decide)]

theorem studentRecord_no_newline (username password fullName : Str)
    (hu : '\n' ∉ username) (hp : '\n' ∉ password) (hf : '\n' ∉ fullName) :
    '\n' ∉ studentRecord username password fullName := by
  unfold studentRecord
  simp only [List.mem_append, not_or]
  exact ⟨⟨⟨⟨⟨hu, by decide⟩, hp⟩, by decide⟩, hf⟩, by decide⟩

/-- The lines of the users file after a record is appended to a file whose
rows are newline-terminated. -/
theorem lines_after_append (file : Option Str) (record : Str) (hterm : NewlineTerminated file)
    (hnl : '\n' ∉ record) :
    split (file.getD [] ++ (record ++ ['\n'])) '\n' = split (file.getD []) '\n' ++ [record] := by
  rw [split_append_terminated '\n' _ _ hterm]
  congr 1
  have : record ++ ['\n'] = record ++ '\n' :: [] := rfl
  rw [this, split_append_delim '\n' record [] hnl, split_nil]

/-- The accepting path of `addNewStudent`. -/
theorem addNewStudent_accept (file : Option Str) (usernameInput password fullNameInput : Str)
    (hu : trim usernameInput ≠ [])
    (hnew : ∀ l ∈ split (file.getD []) '\n',
      trim ((split l ',').getD 0 []) ≠ trim usernameInput)
    (hp : password ≠ []) (hf : trim fullNameInput ≠ []) :
    addNewStudent file true usernameInput password fullNameInput =
      (Outcome.success,
        some (file.getD [] ++
          (studentRecord (trim usernameInput) password (trim fullNameInput) ++ ['\n']))) := by
  have h1 : (trim usernameInput).isEmpty = false := by
    cases h : trim usernameInput with
    | nil => exact absurd h hu
    | cons _ _ => rfl
  have h2 : usernameExists (trim usernameInput) (split (file.getD []) '\n') = false := by
    rw [Bool.eq_false_iff]
    intro h
    obtain ⟨l, hl, heq⟩ := (usernameExists_iff _ hu _).mp h
    exact hnew l hl heq
  have h3 : password.isEmpty = false := by
    cases password with
    | nil => exact absurd rfl hp
    | cons _ _ => rfl
  have h4 : (trim fullNameInput).isEmpty = false := by
    cases h : trim fullNameInput with
    | nil => exact absurd h hf
    | cons _ _ => rfl
  unfold addNewStudent studentRecord
  simp only [h1, h2, h3, h4, Bool.false_eq_true, if_false, Bool.not_true, List.append_assoc]

theorem addNewStudent_reject_duplicate (file : Option Str) (opens : Bool)
    (usernameInput password fullNameInput : Str) (hu : trim usernameInput ≠ [])
    (hdup : ∃ l ∈ split (file.getD []) '\n',
      trim ((split l ',').getD 0 []) = trim usernameInput) :
    addNewStudent file opens usernameInput password fullNameInput =
      (Outcome.duplicateError, file) := by
  have h1 : (trim usernameInput).isEmpty = false := by
    cases h : trim usernameInput with
    | nil => exact absurd h hu
    | cons _ _ => rfl
  have h2 := (usernameExists_iff _ hu _).mpr hdup
  unfold addNewStudent
  simp only [h1, h2, Bool.false_eq_true, if_false, if_true]

theorem addNewStudent_reject_empty (file : Option Str) (opens : Bool)
    (usernameInput password fullNameInput : Str)
    (h : trim usernameInput = [] ∨ password = [] ∨ trim fullNameInput = []) :
    (addNewStudent file opens usernameInput password fullNameInput).2 = file ∧
      (addNewStudent file opens usernameInput password fullNameInput).1 ≠ Outcome.success := by
  unfold addNewStudent
  simp only
  split_ifs with h1 h2 h3 h4 h5
  · exact ⟨rfl, by simp⟩
  · exact ⟨rfl, by simp⟩
  · exact ⟨rfl, by simp⟩
  · exact ⟨rfl, by simp⟩
  · exact ⟨rfl, by simp⟩
  · exfalso
    rcases h with h | h | h
    · rw [h] at h1; exact h1 rfl
    · rw [h] at h3; exact h3 rfl
    · rw [h] at h4; exact h4 rfl

theorem decodedUsernames_after_append (file : Option Str)
    (username password fullName : Str) (hterm : NewlineTerminated file)
    (hcomma : ',' ∉ username) (hedge : NoEdgeSpace username)
    (hnl : '\n' ∉ studentRecord username password fullName) :
    decodedUsernames
        (some (file.getD [] ++ (studentRecord username password fullName ++ ['\n']))) =
      decodedUsernames file ++ [username] := by
  obtain ⟨hhead, hlen⟩ := split_studentRecord_head username password fullName hcomma
  unfold decodedUsernames
  simp only [Option.getD_some]
  rw [lines_after_append file _ hterm hnl, List.filterMap_append]
  congr 1
  simp only [List.filterMap_cons, List.filterMap_nil, ge_iff_le, hlen, if_true, hhead,
    trim_of_noEdgeSpace _ hedge]

theorem not_mem_decodedUsernames (file : Option Str) (username : Str)
    (hnew : ∀ l ∈ split (file.getD []) '\n', trim ((split l ',').getD 0 []) ≠ username) :
    username ∉ decodedUsernames file := by
  intro hmem
  unfold decodedUsernames at hmem
  obtain ⟨l, hl, hdec⟩ := List.mem_filterMap.mp hmem
  split at hdec
  · simp only [Option.some.injEq] at hdec
    exact hnew l hl hdec
  · exact absurd hdec (by simp)

/-! # The claims -/

/-- Claim C1. Event round trip: for an event with non-empty name and venue, a date
accepted by `isValidDate`, a positive capacity (an `int`), a registered count
between 0 and the capacity, and string fields without separator, line break
or surrounding white space, decoding `toFileFormat e` with the line decoder of
`loadEventsFromFile` yields exactly `e`.  (The proof does not need the first
three hypotheses.) -/
theorem event_round_trip (e : Event)
    (_hname : e.eventName ≠ []) (_hvenue : e.venue ≠ [])
    (_hdate : isValidDate e.date = true)
    (hcap : 0 < e.capacity) (hint : e.capacity ≤ INT_MAX)
    (hreg0 : 0 ≤ e.registeredCount) (hreg : e.registeredCount ≤ e.capacity)
    (hn : CleanField e.eventName) (hd : CleanField e.date) (hv : CleanField e.venue) :
    decodeEventLine e.toFileFormat = LineResult.parsed e := by
  have hsplit := split_toFileFormat e hn.1 hd.1 hv.1 (le_of_lt hcap) hreg0
  have hne : e.toFileFormat.isEmpty = false := by
    rw [toFileFormat_eq]
    cases e.eventName <;> simp
  have hc := stoi_to_string e.capacity (le_of_lt hcap) hint
  have hr := stoi_to_string e.registeredCount hreg0 (le_trans hreg hint)
  have tc := trim_of_noEdgeSpace _ (to_string_props e.capacity (le_of_lt hcap)).2.2
  have tr := trim_of_noEdgeSpace _ (to_string_props e.registeredCount hreg0).2.2
  simp only [decodeEventLine, hne, hsplit]
  simp [trim_of_noEdgeSpace _ hn.2.2.2, trim_of_noEdgeSpace _ hd.2.2.2,
    trim_of_noEdgeSpace _ hv.2.2.2, tc, tr, hc, hr]

/-- Claim C1 at the event `Tech Fest|15-03-2025|Hall A|2|0`. -/
theorem event_round_trip_witness :
    decodeEventLine (Event.toFileFormat
      ⟨"Tech Fest".toList, "15-03-2025".toList, "Hall A".toList, 2, 0⟩) =
      LineResult.parsed ⟨"Tech Fest".toList, "15-03-2025".toList, "Hall A".toList, 2, 0⟩ :=
  event_round_trip ⟨"Tech Fest".toList, "15-03-2025".toList, "Hall A".toList, 2, 0⟩
    (by decide) (by decide) (by decide) (by decide) (by decide) (by decide) (by decide)
    (by unfold CleanField NoEdgeSpace; decide) (by unfold CleanField NoEdgeSpace; decide)
    (by unfold CleanField NoEdgeSpace; decide)

/-- Claim C2. On a consistent state (one event `A` holding one registration) the
name edit of `editEvent` succeeds, renames the event to `B`, leaves the
registration under `A`, and the saved state no longer has
`registeredCount` equal to the number of registrations of the event. -/
theorem editEvent_name_breaks_counts :
    Consistent [⟨"A".toList, "15-03-2025".toList, "Hall".toList, 5, 1⟩]
        [⟨"s".toList, "A".toList, "01-01-2025 10:00".toList⟩] ∧
      editEvent [⟨"A".toList, "15-03-2025".toList, "Hall".toList, 5, 1⟩] 1 1 "B".toList 0 =
        (Outcome.success, [⟨"B".toList, "15-03-2025".toList, "Hall".toList, 5, 1⟩]) ∧
      ¬ CountsMatch
        (editEvent [⟨"A".toList, "15-03-2025".toList, "Hall".toList, 5, 1⟩] 1 1 "B".toList 0).2
        [⟨"s".toList, "A".toList, "01-01-2025 10:00".toList⟩] := by
  refine ⟨?_, ?_, ?_⟩
  · unfold Consistent CountsMatch registrationCount; decide
  · decide
  · unfold CountsMatch registrationCount; decide

/-- Claim C3. Cascade delete: a confirmed `deleteEvent` of the event at position `i`,
named `E`, saves the events without position `i` (the others in order) and the
registrations filtered to those whose `eventName` is not `E`, in their order;
no saved registration names `E` and every registration of another event is
kept. -/
theorem deleteEvent_cascade (events : List Event) (registrations : List Registration)
    (i : Nat) (hi : i < events.length) (confirmation : Str)
    (hyes : toLower (trim confirmation) = "yes".toList) :
    deleteEvent events registrations ((i : Int) + 1) confirmation =
        (Outcome.success, events.take i ++ events.drop (i + 1),
          registrations.filter (fun r => decide (r.eventName ≠ events[i].eventName))) ∧
      (∀ r ∈ (deleteEvent events registrations ((i : Int) + 1) confirmation).2.2,
        r.eventName ≠ events[i].eventName) ∧
      (∀ r ∈ registrations, r.eventName ≠ events[i].eventName →
        r ∈ (deleteEvent events registrations ((i : Int) + 1) confirmation).2.2) := by
  obtain ⟨h1, h2, h3, h4⟩ := select_event events i hi
  have hres : deleteEvent events registrations ((i : Int) + 1) confirmation =
      (Outcome.success, events.take i ++ events.drop (i + 1),
        registrations.filter (fun r => decide (r.eventName ≠ events[i].eventName))) := by
    unfold deleteEvent
    simp only [h1, h2, h3, h4, hyes, if_true, if_false, Bool.false_eq_true]
    rw [List.eraseIdx_eq_take_drop_succ]
    congr 2
    apply List.filter_congr
    intro r _
    by_cases hr : r.eventName = events[i].eventName <;> simp [hr]
  rw [hres]
  refine ⟨rfl, ?_, ?_⟩
  · intro r hr
    simpa using (List.mem_filter.mp hr).2
  · intro r hr hne
    exact List.mem_filter.mpr ⟨hr, by simpa using hne⟩

/-- Claim C3 at two events and three registrations: deleting the first event. -/
theorem deleteEvent_cascade_witness :
    deleteEvent
        [⟨"A".toList, "15-03-2025".toList, "Hall".toList, 5, 2⟩,
          ⟨"B".toList, "16-03-2025".toList, "Lab".toList, 3, 1⟩]
        [⟨"s".toList, "A".toList, []⟩, ⟨"s".toList, "B".toList, []⟩, ⟨"t".toList, "A".toList, []⟩]
        1 " YES".toList =
      (Outcome.success, [⟨"B".toList, "16-03-2025".toList, "Lab".toList, 3, 1⟩],
        [⟨"s".toList, "B".toList, []⟩]) :=
  (deleteEvent_cascade
    [⟨"A".toList, "15-03-2025".toList, "Hall".toList, 5, 2⟩,
      ⟨"B".toList, "16-03-2025".toList, "Lab".toList, 3, 1⟩]
    [⟨"s".toList, "A".toList, []⟩, ⟨"s".toList, "B".toList, []⟩, ⟨"t".toList, "A".toList, []⟩]
    0 (by decide) " YES".toList (by decide)).1

/-- Claim C4. `registerForEvent` at a valid position `i`: `DuplicateError` with both
vectors unchanged when the student already holds a registration for the
event's name (whether or not the event is full); otherwise `CapacityError`
with both unchanged when `registeredCount >= capacity`; otherwise one
registration `(student, eventName, timestamp)` is appended at the end and only
the selected event changes, its `registeredCount` raised by exactly 1. -/
theorem registerForEvent_contract (username : Str) (events : List Event)
    (registrations : List Registration) (i : Nat) (hi : i < events.length) (now : Str) :
    ((∃ r ∈ registrations, r.studentUsername = username ∧
          r.eventName = events[i].eventName) →
        registerForEvent username events registrations ((i : Int) + 1) now =
          (Outcome.duplicateError, events, registrations)) ∧
      ((¬ ∃ r ∈ registrations, r.studentUsername = username ∧
          r.eventName = events[i].eventName) →
        events[i].capacity ≤ events[i].registeredCount →
        registerForEvent username events registrations ((i : Int) + 1) now =
          (Outcome.capacityError, events, registrations)) ∧
      ((¬ ∃ r ∈ registrations, r.studentUsername = username ∧
          r.eventName = events[i].eventName) →
        events[i].registeredCount < events[i].capacity →
        registerForEvent username events registrations ((i : Int) + 1) now =
          (Outcome.success,
            events.take i ++
              { events[i] with registeredCount := events[i].registeredCount + 1 } ::
                events.drop (i + 1),
            registrations ++ [⟨username, events[i].eventName, now⟩])) :=
  registerForEvent_eval username events registrations i hi now

/-- Claim C4 on the event `Tech Fest` with one free seat: a new student is
registered. -/
theorem registerForEvent_contract_witness :
    registerForEvent "bob".toList
        [⟨"Tech Fest".toList, "15-03-2025".toList, "Hall A".toList, 2, 1⟩]
        [⟨"amy".toList, "Tech Fest".toList, []⟩] 1 "01-03-2025 09:00".toList =
      (Outcome.success,
        [⟨"Tech Fest".toList, "15-03-2025".toList, "Hall A".toList, 2, 2⟩],
        [⟨"amy".toList, "Tech Fest".toList, []⟩,
          ⟨"bob".toList, "Tech Fest".toList, "01-03-2025 09:00".toList⟩]) :=
  (registerForEvent_contract "bob".toList
    [⟨"Tech Fest".toList, "15-03-2025".toList, "Hall A".toList, 2, 1⟩]
    [⟨"amy".toList, "Tech Fest".toList, []⟩] 0 (by decide) "01-03-2025 09:00".toList).2.2
    (by decide) (by decide)

/-- Claim C5. Double registration: when `registerForEvent` succeeds, a second call by
the same student for the same event number, on the vectors the first call
saved, reports `DuplicateError` and saves nothing: the `registeredCount` and
the registrations stay as the first call left them. -/
theorem registerForEvent_twice (username : Str) (events events1 : List Event)
    (registrations registrations1 : List Registration) (eventNum : Int) (now now2 : Str)
    (h : registerForEvent username events registrations eventNum now =
      (Outcome.success, events1, registrations1)) :
    registerForEvent username events1 registrations1 eventNum now2 =
      (Outcome.duplicateError, events1, registrations1) := by
  obtain ⟨i, hi, hnum, _, he, hr⟩ :=
    registerForEvent_success username events events1 registrations registrations1 eventNum now h
  have hi1 : i < events1.length := by rw [he]; simpa using hi
  have hname : events1[i].eventName = events[i].eventName := by
    simp [he]
  have hdup : ∃ r ∈ registrations1, r.studentUsername = username ∧
      r.eventName = events1[i].eventName := by
    refine ⟨⟨username, events[i].eventName, now⟩, ?_, rfl, hname.symm⟩
    rw [hr]; simp
  rw [hnum]
  exact (registerForEvent_eval username events1 registrations1 i hi1 now2).1 hdup

/-- Claim C5 on the event `Tech Fest`: the second call of `amy` is a duplicate. -/
theorem registerForEvent_twice_witness :
    registerForEvent "amy".toList
        [⟨"Tech Fest".toList, "15-03-2025".toList, "Hall A".toList, 2, 1⟩]
        [⟨"amy".toList, "Tech Fest".toList, "t1".toList⟩] 1 "t2".toList =
      (Outcome.duplicateError,
        [⟨"Tech Fest".toList, "15-03-2025".toList, "Hall A".toList, 2, 1⟩],
        [⟨"amy".toList, "Tech Fest".toList, "t1".toList⟩]) :=
  registerForEvent_twice "amy".toList
    [⟨"Tech Fest".toList, "15-03-2025".toList, "Hall A".toList, 2, 0⟩]
    [⟨"Tech Fest".toList, "15-03-2025".toList, "Hall A".toList, 2, 1⟩]
    [] [⟨"amy".toList, "Tech Fest".toList, "t1".toList⟩] 1 "t1".toList "t2".toList (by decide)

/-- Claim C6. Capacity scenario: the events file `Tech Fest|15-03-2025|Hall A|2|0`
loads as one event with two seats and the empty registrations file as no
registration; three distinct students register for event number 1 in turn;
the first two calls succeed, the third reports `CapacityError` and changes
nothing; the event then encodes as `Tech Fest|15-03-2025|Hall A|2|2` and the
registrations are exactly two rows, both with `eventName` `Tech Fest`. -/
theorem capacity_scenario (s1 s2 s3 t1 t2 t3 : Str)
    (h12 : s1 ≠ s2) (h13 : s1 ≠ s3) (h23 : s2 ≠ s3) :
    loadEventsFromFile (some "Tech Fest|15-03-2025|Hall A|2|0".toList) =
        some [⟨"Tech Fest".toList, "15-03-2025".toList, "Hall A".toList, 2, 0⟩] ∧
      loadRegistrationsFromFile (some []) = [] ∧
      registerForEvent s1
          [⟨"Tech Fest".toList, "15-03-2025".toList, "Hall A".toList, 2, 0⟩] [] 1 t1 =
        (Outcome.success,
          [⟨"Tech Fest".toList, "15-03-2025".toList, "Hall A".toList, 2, 1⟩],
          [⟨s1, "Tech Fest".toList, t1⟩]) ∧
      registerForEvent s2
          [⟨"Tech Fest".toList, "15-03-2025".toList, "Hall A".toList, 2, 1⟩]
          [⟨s1, "Tech Fest".toList, t1⟩] 1 t2 =
        (Outcome.success,
          [⟨"Tech Fest".toList, "15-03-2025".toList, "Hall A".toList, 2, 2⟩],
          [⟨s1, "Tech Fest".toList, t1⟩, ⟨s2, "Tech Fest".toList, t2⟩]) ∧
      registerForEvent s3
          [⟨"Tech Fest".toList, "15-03-2025".toList, "Hall A".toList, 2, 2⟩]
          [⟨s1, "Tech Fest".toList, t1⟩, ⟨s2, "Tech Fest".toList, t2⟩] 1 t3 =
        (Outcome.capacityError,
          [⟨"Tech Fest".toList, "15-03-2025".toList, "Hall A".toList, 2, 2⟩],
          [⟨s1, "Tech Fest".toList, t1⟩, ⟨s2, "Tech Fest".toList, t2⟩]) ∧
      saveEventsToFile [⟨"Tech Fest".toList, "15-03-2025".toList, "Hall A".toList, 2, 2⟩] =
        "Tech Fest|15-03-2025|Hall A|2|2\n".toList ∧
      (List.filter (fun r => decide (r.eventName = "Tech Fest".toList))
        ([⟨s1, "Tech Fest".toList, t1⟩, ⟨s2, "Tech Fest".toList, t2⟩] :
          List Registration)).length = 2 := by
  refine ⟨by decide, by decide, ?_, ?_, ?_, by decide, by simp⟩
  · exact (registerForEvent_eval s1
      [⟨"Tech Fest".toList, "15-03-2025".toList, "Hall A".toList, 2, 0⟩] [] 0
      (by decide) t1).2.2 (by simp) (by decide)
  · exact (registerForEvent_eval s2
      [⟨"Tech Fest".toList, "15-03-2025".toList, "Hall A".toList, 2, 1⟩]
      [⟨s1, "Tech Fest".toList, t1⟩] 0 (by decide) t2).2.2
      (by simpa using h12) (by decide)
  · exact (registerForEvent_eval s3
      [⟨"Tech Fest".toList, "15-03-2025".toList, "Hall A".toList, 2, 2⟩]
      [⟨s1, "Tech Fest".toList, t1⟩, ⟨s2, "Tech Fest".toList, t2⟩] 0 (by decide) t3).2.1
      (by simpa using ⟨h13, h23⟩) (by decide)

/-- Claim C6 with the students `amy`, `bob` and `cyd`: the third call is refused. -/
theorem capacity_scenario_witness :
    registerForEvent "cyd".toList
        [⟨"Tech Fest".toList, "15-03-2025".toList, "Hall A".toList, 2, 2⟩]
        [⟨"amy".toList, "Tech Fest".toList, "t1".toList⟩,
          ⟨"bob".toList, "Tech Fest".toList, "t2".toList⟩] 1 "t3".toList =
      (Outcome.capacityError,
        [⟨"Tech Fest".toList, "15-03-2025".toList, "Hall A".toList, 2, 2⟩],
        [⟨"amy".toList, "Tech Fest".toList, "t1".toList⟩,
          ⟨"bob".toList, "Tech Fest".toList, "t2".toList⟩]) :=
  (capacity_scenario "amy".toList "bob".toList "cyd".toList "t1".toList "t2".toList
    "t3".toList (by decide) (by decide) (by decide)).2.2.2.2.1

/-- Claim C7, the claim as written fails: a registration exists for an event whose
`registeredCount` is 0; `unregisterFromEvent` removes the registration and
leaves the count at 0 instead of decrementing it. -/
theorem unregisterFromEvent_keeps_zero_count :
    unregisterFromEvent "s".toList
        [⟨"A".toList, "15-03-2025".toList, "Hall".toList, 5, 0⟩]
        [⟨"s".toList, "A".toList, "01-01-2025 10:00".toList⟩] "A".toList =
      (Outcome.success, [⟨"A".toList, "15-03-2025".toList, "Hall".toList, 5, 0⟩], []) ∧
    (unregisterFromEvent "s".toList
        [⟨"A".toList, "15-03-2025".toList, "Hall".toList, 5, 0⟩]
        [⟨"s".toList, "A".toList, "01-01-2025 10:00".toList⟩] "A".toList).2.1 ≠
      [⟨"A".toList, "15-03-2025".toList, "Hall".toList, 5, 0 - 1⟩] := by
  decide

/-- Claim C7, amended. `unregisterFromEvent` reports `NotFoundError`, with both
vectors unchanged, exactly when no registration has both the student's
username and the event name.  Otherwise it succeeds and removes exactly the
first such registration, the others keeping their order; the first event with
that name has its `registeredCount` decremented by 1 when that count is
greater than 0 and is left as it is otherwise; every other event is unchanged,
and no event changes when none has that name. -/
theorem unregisterFromEvent_contract (username : Str) (events : List Event)
    (registrations : List Registration) (eventName : Str) :
    ((unregisterFromEvent username events registrations eventName).1 = Outcome.notFoundError ↔
        ¬ ∃ r ∈ registrations, r.studentUsername = username ∧ r.eventName = eventName) ∧
      ((¬ ∃ r ∈ registrations, r.studentUsername = username ∧ r.eventName = eventName) →
        unregisterFromEvent username events registrations eventName =
          (Outcome.notFoundError, events, registrations)) ∧
      ((∃ r ∈ registrations, r.studentUsername = username ∧ r.eventName = eventName) →
        (unregisterFromEvent username events registrations eventName).1 = Outcome.success ∧
        (∃ pre r post, registrations = pre ++ r :: post ∧
          (r.studentUsername = username ∧ r.eventName = eventName) ∧
          (∀ x ∈ pre, ¬(x.studentUsername = username ∧ x.eventName = eventName)) ∧
          (unregisterFromEvent username events registrations eventName).2.2 = pre ++ post) ∧
        ((∀ e ∈ events, e.eventName ≠ eventName) →
          (unregisterFromEvent username events registrations eventName).2.1 = events) ∧
        (∀ pre e post, events = pre ++ e :: post → e.eventName = eventName →
          (∀ x ∈ pre, x.eventName ≠ eventName) →
          (unregisterFromEvent username events registrations eventName).2.1 =
            pre ++ (if 0 < e.registeredCount
              then { e with registeredCount := e.registeredCount - 1 } else e) :: post)) := by
  cases hf : findRegistration username eventName registrations with
  | none =>
    have hno := (findRegistration_none_iff username eventName registrations).mp hf
    have hres : unregisterFromEvent username events registrations eventName =
        (Outcome.notFoundError, events, registrations) := by
      simp [unregisterFromEvent, hf]
    refine ⟨?_, fun _ => hres, fun h => absurd h hno⟩
    rw [hres]
    exact ⟨fun _ => hno, fun _ => rfl⟩
  | some k =>
    have hex : ∃ r ∈ registrations, r.studentUsername = username ∧ r.eventName = eventName := by
      by_contra hno
      rw [(findRegistration_none_iff username eventName registrations).mpr hno] at hf
      exact Option.noConfusion hf
    have hres : unregisterFromEvent username events registrations eventName =
        (Outcome.success, unregisterFirstEvent eventName events, registrations.eraseIdx k) := by
      simp [unregisterFromEvent, hf]
    rw [hres]
    refine ⟨?_, fun h => absurd hex h, fun _ => ⟨rfl, ?_, ?_, ?_⟩⟩
    · constructor
      · intro h; exact absurd h (by simp)
      · intro h; exact absurd hex h
    · obtain ⟨pre, r, post, h1, h2, h3, h4⟩ :=
        findRegistration_some username eventName registrations k hf
      exact ⟨pre, r, post, h1, h2, h3, h4⟩
    · intro h
      exact unregisterFirstEvent_absent eventName events h
    · intro pre e post hsplit he hpre
      subst hsplit
      have := unregisterFirstEvent_first eventName e post he pre hpre
      simp only [this, Event.unregisterStudent, gt_iff_lt]

/-- Claim C8. Case-insensitive duplicate rejection: when the trimmed name is not
empty and its `toLower` equals the `toLower` of an existing event's name,
`addNewEvent` reports `DuplicateError` whatever the date, venue and capacity
are, and the events are unchanged. -/
theorem addNewEvent_duplicate (events : List Event) (nameInput dateInput venueInput : Str)
    (cap_input : Int) (hne : trim nameInput ≠ [])
    (hdup : ∃ e ∈ events, toLower e.eventName = toLower (trim nameInput)) :
    addNewEvent events nameInput dateInput venueInput cap_input =
      (Outcome.duplicateError, events) := by
  have h1 : (trim nameInput).isEmpty = false := by
    cases h : trim nameInput with
    | nil => exact absurd h hne
    | cons _ _ => rfl
  have h2 := (any_same_name_iff events (trim nameInput)).mpr hdup
  unfold addNewEvent
  simp only [h1, h2, if_true, if_false, Bool.false_eq_true]

/-- Claim C8 on the names of the specification: adding `TECH FEST` when `Tech Fest`
exists is refused as a duplicate. -/
theorem addNewEvent_duplicate_witness :
    addNewEvent [⟨"Tech Fest".toList, "15-03-2025".toList, "Hall A".toList, 2, 0⟩]
        "TECH FEST".toList "20-04-2026".toList "Hall B".toList 50 =
      (Outcome.duplicateError,
        [⟨"Tech Fest".toList, "15-03-2025".toList, "Hall A".toList, 2, 0⟩]) :=
  addNewEvent_duplicate [⟨"Tech Fest".toList, "15-03-2025".toList, "Hall A".toList, 2, 0⟩]
    "TECH FEST".toList "20-04-2026".toList "Hall B".toList 50 (by decide) (by decide)

/-- Claim C9. `addNewEvent` succeeds exactly when the trimmed name is not empty, no
existing event has the same name up to case, the trimmed date passes
`isValidDate`, the trimmed venue is not empty and the capacity is positive;
on success the saved vector is the old one followed by the new event with the
trimmed fields, that capacity and `registeredCount` 0; otherwise the vector is
unchanged. -/
theorem addNewEvent_acceptance (events : List Event) (nameInput dateInput venueInput : Str)
    (cap_input : Int) :
    ((addNewEvent events nameInput dateInput venueInput cap_input).1 = Outcome.success ↔
        (trim nameInput ≠ [] ∧
          (∀ e ∈ events, toLower e.eventName ≠ toLower (trim nameInput)) ∧
          isValidDate (trim dateInput) = true ∧ trim venueInput ≠ [] ∧ 0 < cap_input)) ∧
      ((addNewEvent events nameInput dateInput venueInput cap_input).1 = Outcome.success →
        (addNewEvent events nameInput dateInput venueInput cap_input).2 =
          events ++ [⟨trim nameInput, trim dateInput, trim venueInput, cap_input, 0⟩]) ∧
      ((addNewEvent events nameInput dateInput venueInput cap_input).1 ≠ Outcome.success →
        (addNewEvent events nameInput dateInput venueInput cap_input).2 = events) := by
  unfold addNewEvent
  by_cases h1 : trim nameInput = []
  · simp [h1]
  have h1e : (trim nameInput).isEmpty = false := by
    cases h : trim nameInput with
    | nil => exact absurd h h1
    | cons _ _ => rfl
  by_cases h2 : ∃ e ∈ events, toLower e.eventName = toLower (trim nameInput)
  · have h2a := (any_same_name_iff events (trim nameInput)).mpr h2
    have h2n : ¬ ∀ e ∈ events, toLower e.eventName ≠ toLower (trim nameInput) := by
      push_neg; exact h2
    simp [h1e, h2a, h2n]
  have h2a : events.any (fun e => toLower e.eventName == toLower (trim nameInput)) = false := by
    rw [Bool.eq_false_iff]
    exact fun h => h2 ((any_same_name_iff _ _).mp h)
  have h2b : ∀ e ∈ events, toLower e.eventName ≠ toLower (trim nameInput) :=
    fun e he hl => h2 ⟨e, he, hl⟩
  by_cases h3 : isValidDate (trim dateInput) = true
  · by_cases h4 : trim venueInput = []
    · simp [h1e, h2a, h3, h4]
    have h4e : (trim venueInput).isEmpty = false := by
      cases h : trim venueInput with
      | nil => exact absurd h h4
      | cons _ _ => rfl
    by_cases h5 : cap_input ≤ 0
    · simp [h1e, h2a, h3, h4e, h5]
    · have h5b : 0 < cap_input := not_le.mp h5
      simp only [h1e, h2a, h3, h4e, h5, if_false, Bool.false_eq_true, Bool.not_true]
      simp [h1, h4, h5b]
      exact h2b
  · have h3f : isValidDate (trim dateInput) = false := Bool.eq_false_iff.mpr h3
    simp [h1e, h2a, h3f]

/-- Claim C10. Capacity edit at a valid position `i` with the number `n`:
`ValidationError`, the events unchanged, exactly when `n` is below the event's
`registeredCount` or `n <= 0`; otherwise only the capacity of event `i`
becomes `n`, its other fields and every other event unchanged. -/
theorem editEvent_capacity (events : List Event) (i : Nat) (hi : i < events.length)
    (text : Str) (n : Int) :
    ((editEvent events ((i : Int) + 1) 4 text n).1 = Outcome.validationError ↔
        (n < events[i].registeredCount ∨ n ≤ 0)) ∧
      ((n < events[i].registeredCount ∨ n ≤ 0) →
        editEvent events ((i : Int) + 1) 4 text n = (Outcome.validationError, events)) ∧
      (¬(n < events[i].registeredCount ∨ n ≤ 0) →
        editEvent events ((i : Int) + 1) 4 text n =
          (Outcome.success,
            events.take i ++
              ⟨events[i].eventName, events[i].date, events[i].venue, n,
                events[i].registeredCount⟩ :: events.drop (i + 1))) := by
  obtain ⟨h1, h2, h3, h4⟩ := select_event events i hi
  have hfail : (n < events[i].registeredCount ∨ n ≤ 0) →
      editEvent events ((i : Int) + 1) 4 text n = (Outcome.validationError, events) := by
    intro h
    unfold editEvent
    simp only [h1, h2, h3, h4, if_false, Bool.false_eq_true]
    by_cases hneg : n < 0 ∨ n < events[i].registeredCount
    · simp [hneg]
    · have hz : ¬ n > 0 := by omega
      simp [hneg, hz]
  have hok : ¬(n < events[i].registeredCount ∨ n ≤ 0) →
      editEvent events ((i : Int) + 1) 4 text n =
        (Outcome.success,
          events.take i ++
            ⟨events[i].eventName, events[i].date, events[i].venue, n,
              events[i].registeredCount⟩ :: events.drop (i + 1)) := by
    intro h
    have hneg : ¬(n < 0 ∨ n < events[i].registeredCount) := by omega
    have hpos : n > 0 := by omega
    unfold editEvent
    simp only [h1, h2, h3, h4, if_false, Bool.false_eq_true]
    have c1 : ¬((4 : Int) = 1) := by decide
    have c2 : ¬((4 : Int) = 2) := by decide
    have c3 : ¬((4 : Int) = 3) := by decide
    simp only [c1, c2, c3, hneg, hpos, if_true, if_false, Event.setCapacity]
    rw [List.set_eq_take_append_cons_drop, if_pos hi]
  refine ⟨⟨fun h => ?_, fun h => by rw [hfail h]⟩, hfail, hok⟩
  by_contra hc
  rw [hok hc] at h
  exact absurd h (by simp)

/-- Claim C10 on an event with one registration: capacity 0 is refused. -/
theorem editEvent_capacity_witness :
    editEvent [⟨"A".toList, "15-03-2025".toList, "Hall".toList, 5, 1⟩] 1 4 [] 0 =
      (Outcome.validationError, [⟨"A".toList, "15-03-2025".toList, "Hall".toList, 5, 1⟩]) :=
  (editEvent_capacity [⟨"A".toList, "15-03-2025".toList, "Hall".toList, 5, 1⟩] 0 (by decide)
    [] 0).2.1 (by decide)

/-- Claim C11. Name edit on events whose names are pairwise distinct under
`toLower`, at a valid position `i`, with a non-empty trimmed new name:
`DuplicateError`, the events unchanged, exactly when an event at another
position has the same lower-cased name; otherwise only the name of event `i`
becomes the trimmed new name and the names are again pairwise distinct under
`toLower`; re-casing the event's own name is accepted. -/
theorem editEvent_name (events : List Event) (i : Nat) (hi : i < events.length)
    (text : Str) (newCap_input : Int) (hne : trim text ≠ [])
    (hnd : NamesDistinct events) :
    ((editEvent events ((i : Int) + 1) 1 text newCap_input).1 = Outcome.duplicateError ↔
        ∃ j, ∃ hj : j < events.length, j ≠ i ∧
          toLower events[j].eventName = toLower (trim text)) ∧
      ((∃ j, ∃ hj : j < events.length, j ≠ i ∧
          toLower events[j].eventName = toLower (trim text)) →
        editEvent events ((i : Int) + 1) 1 text newCap_input =
          (Outcome.duplicateError, events)) ∧
      ((¬ ∃ j, ∃ hj : j < events.length, j ≠ i ∧
          toLower events[j].eventName = toLower (trim text)) →
        editEvent events ((i : Int) + 1) 1 text newCap_input =
            (Outcome.success,
              events.take i ++
                ⟨trim text, events[i].date, events[i].venue, events[i].capacity,
                  events[i].registeredCount⟩ :: events.drop (i + 1)) ∧
          NamesDistinct (editEvent events ((i : Int) + 1) 1 text newCap_input).2) ∧
      (toLower (trim text) = toLower events[i].eventName →
        (editEvent events ((i : Int) + 1) 1 text newCap_input).1 = Outcome.success) := by
  have heval := editEvent_name_eval events i hi text newCap_input hne
  have hiff := rename_duplicate_iff events i hi (trim text) hnd
  have hdup : (∃ j, ∃ hj : j < events.length, j ≠ i ∧
      toLower events[j].eventName = toLower (trim text)) →
      editEvent events ((i : Int) + 1) 1 text newCap_input =
        (Outcome.duplicateError, events) := by
    intro h
    rw [heval, if_pos (hiff.mpr h)]
  have hok : (¬ ∃ j, ∃ hj : j < events.length, j ≠ i ∧
      toLower events[j].eventName = toLower (trim text)) →
      editEvent events ((i : Int) + 1) 1 text newCap_input =
        (Outcome.success, events.set i (events[i].setEventName (trim text))) := by
    intro h
    rw [heval, if_neg (fun hany => h (hiff.mp hany))]
  refine ⟨⟨fun h => ?_, fun h => by rw [hdup h]⟩, hdup, fun h => ⟨?_, ?_⟩, fun h => ?_⟩
  · by_contra hno
    rw [hok hno] at h
    exact absurd h (by simp)
  · rw [hok h, List.set_eq_take_append_cons_drop, if_pos hi]
    rfl
  · rw [hok h]
    exact namesDistinct_rename events i hi (trim text) hnd h
  · have hno : ¬ ∃ j, ∃ hj : j < events.length, j ≠ i ∧
        toLower events[j].eventName = toLower (trim text) := by
      rintro ⟨j, hj, hji, heq⟩
      have hany := hiff.mpr ⟨j, hj, hji, heq⟩
      have hself := (rename_duplicate_iff events i hi events[i].eventName hnd).mpr
        ⟨j, hj, hji, heq.trans h⟩
      simp only [List.any_eq_true, Bool.and_eq_true, beq_iff_eq, bne_iff_ne, ne_eq] at hself
      obtain ⟨e, _, h1, h2⟩ := hself
      exact h2 h1
    rw [hok hno]

/-- Claim C11 on the events `Tech Fest` and `Quiz`: re-casing the first to
`TECH FEST` is accepted. -/
theorem editEvent_name_witness :
    (editEvent [⟨"Tech Fest".toList, "15-03-2025".toList, "Hall A".toList, 2, 0⟩,
        ⟨"Quiz".toList, "16-03-2025".toList, "Lab".toList, 3, 1⟩]
      1 1 " TECH FEST ".toList 0).1 = Outcome.success :=
  (editEvent_name [⟨"Tech Fest".toList, "15-03-2025".toList, "Hall A".toList, 2, 0⟩,
      ⟨"Quiz".toList, "16-03-2025".toList, "Lab".toList, 3, 1⟩]
    0 (by decide) " TECH FEST ".toList 0 (by decide)
    (by unfold NamesDistinct; decide)).2.2.2 (by decide)

/-- Claim C12. Capacity invariant: when every event has
`0 <= registeredCount <= capacity`, the events saved by `addNewEvent`, by
`editEvent` (any choice and any new value, accepted or rejected), by
`deleteEvent`, by `registerForEvent` and by `unregisterFromEvent` again have
`0 <= registeredCount <= capacity`. -/
theorem capacity_invariant (events : List Event) (registrations : List Registration)
    (h : CapacityOk events) :
    (∀ nameInput dateInput venueInput cap_input,
        CapacityOk (addNewEvent events nameInput dateInput venueInput cap_input).2) ∧
      (∀ eventNum choice text newCap_input,
        CapacityOk (editEvent events eventNum choice text newCap_input).2) ∧
      (∀ eventNum confirmation,
        CapacityOk (deleteEvent events registrations eventNum confirmation).2.1) ∧
      (∀ username eventNum now,
        CapacityOk (registerForEvent username events registrations eventNum now).2.1) ∧
      (∀ username eventName,
        CapacityOk (unregisterFromEvent username events registrations eventName).2.1) :=
  ⟨fun a b c d => capacityOk_addNewEvent events a b c d h,
    fun a b c d => capacityOk_editEvent events a b c d h,
    fun a b => capacityOk_deleteEvent events registrations a b h,
    fun a b c => capacityOk_registerForEvent a events registrations b c h,
    fun a b => capacityOk_unregisterFromEvent a events registrations b h⟩

/-- Claim C12 on a full event: lowering the capacity below the registered
count is rejected and the saved events still satisfy the invariant. -/
theorem capacity_invariant_witness :
    CapacityOk (editEvent [⟨"A".toList, "15-03-2025".toList, "Hall".toList, 2, 2⟩]
      1 4 [] 1).2 :=
  (capacity_invariant [⟨"A".toList, "15-03-2025".toList, "Hall".toList, 2, 2⟩] []
    (by unfold CapacityOk; decide)).2.1 1 4 [] 1

/-- Claim C13. Seat guards: `registerStudent` adds exactly 1 to
`registeredCount` when `registeredCount < capacity` and changes nothing when
the event is full; `unregisterStudent` subtracts exactly 1 when
`registeredCount > 0` and changes nothing at 0; neither changes the name,
date, venue or capacity; a count inside `[0, capacity]` stays inside. -/
theorem seat_guards (e : Event) :
    (e.registeredCount < e.capacity →
        e.registerStudent = { e with registeredCount := e.registeredCount + 1 }) ∧
      (e.capacity ≤ e.registeredCount → e.registerStudent = e) ∧
      (0 < e.registeredCount →
        e.unregisterStudent = { e with registeredCount := e.registeredCount - 1 }) ∧
      (e.registeredCount = 0 → e.unregisterStudent = e) ∧
      (e.registerStudent.eventName = e.eventName ∧ e.registerStudent.date = e.date ∧
        e.registerStudent.venue = e.venue ∧ e.registerStudent.capacity = e.capacity) ∧
      (e.unregisterStudent.eventName = e.eventName ∧ e.unregisterStudent.date = e.date ∧
        e.unregisterStudent.venue = e.venue ∧ e.unregisterStudent.capacity = e.capacity) ∧
      (0 ≤ e.registeredCount ∧ e.registeredCount ≤ e.capacity →
        (0 ≤ e.registerStudent.registeredCount ∧
            e.registerStudent.registeredCount ≤ e.capacity) ∧
          (0 ≤ e.unregisterStudent.registeredCount ∧
            e.unregisterStudent.registeredCount ≤ e.capacity)) := by
  refine ⟨?_, ?_, ?_, ?_, ?_, ?_, ?_⟩
  · intro h
    simp [Event.registerStudent, Event.hasAvailableSeats, h]
  · intro h
    simp [Event.registerStudent, Event.hasAvailableSeats, not_lt.mpr h]
  · intro h
    simp [Event.unregisterStudent, h]
  · intro h
    simp [Event.unregisterStudent, h]
  · unfold Event.registerStudent
    split <;> simp
  · unfold Event.unregisterStudent
    split <;> simp
  · intro h
    have h1 := registerStudent_bounds e h
    have h2 := unregisterStudent_bounds e h
    have c1 : e.registerStudent.capacity = e.capacity := by
      unfold Event.registerStudent; split <;> rfl
    have c2 : e.unregisterStudent.capacity = e.capacity := by
      unfold Event.unregisterStudent; split <;> rfl
    rw [c1] at h1
    rw [c2] at h2
    exact ⟨h1, h2⟩

/-- Claim C14. `isValidDate s` holds exactly when `s` is ten characters
`DD-MM-YYYY` with hyphens at positions 2 and 5, the day, month and year
segments made of decimal digits, the month in 1..12, the day in 1..31 and the
year at least 2025; nothing relates the day to the month, so `31-02-2025` is
accepted; `15-03-2025` is accepted, `32-13-2020` and `2025-03-15` are not. -/
theorem isValidDate_characterisation :
    (∀ s : Str, isValidDate s = true ↔
      ∃ d1 d2 m1 m2 y1 y2 y3 y4 : Char,
        s = [d1, d2, '-', m1, m2, '-', y1, y2, y3, y4] ∧
        (isdigit d1 = true ∧ isdigit d2 = true) ∧
        (isdigit m1 = true ∧ isdigit m2 = true) ∧
        (isdigit y1 = true ∧ isdigit y2 = true ∧ isdigit y3 = true ∧ isdigit y4 = true) ∧
        (1 ≤ (m1.toNat - 48) * 10 + (m2.toNat - 48) ∧
          (m1.toNat - 48) * 10 + (m2.toNat - 48) ≤ 12) ∧
        (1 ≤ (d1.toNat - 48) * 10 + (d2.toNat - 48) ∧
          (d1.toNat - 48) * 10 + (d2.toNat - 48) ≤ 31) ∧
        2025 ≤ (y1.toNat - 48) * 1000 + (y2.toNat - 48) * 100 + (y3.toNat - 48) * 10 +
          (y4.toNat - 48)) ∧
      isValidDate "31-02-2025".toList = true ∧
      isValidDate "15-03-2025".toList = true ∧
      isValidDate "32-13-2020".toList = false ∧
      isValidDate "2025-03-15".toList = false := by
  refine ⟨fun s => ⟨fun h => ?_, ?_⟩, by decide, by decide, by decide, by decide⟩
  · obtain ⟨c0, c1, c2, c3, c4, c5, c6, c7, c8, c9, rfl⟩ :=
      length_ten_chars s (isValidDate_length s h)
    obtain ⟨h2, h5, hd, hm, hy, hmv, hdv, hyv⟩ :=
      (isValidDate_ten c0 c1 c2 c3 c4 c5 c6 c7 c8 c9).mp h
    subst h2 h5
    rw [digitsValue_pair] at hmv hdv
    rw [digitsValue_quad] at hyv
    exact ⟨c0, c1, c3, c4, c6, c7, c8, c9, rfl, hd, hm, hy, hmv, hdv, hyv⟩
  · rintro ⟨d1, d2, m1, m2, y1, y2, y3, y4, rfl, hd, hm, hy, hmv, hdv, hyv⟩
    rw [← digitsValue_pair] at hmv hdv
    rw [← digitsValue_quad] at hyv
    exact (isValidDate_ten d1 d2 '-' m1 m2 '-' y1 y2 y3 y4).mpr
      ⟨rfl, rfl, hd, hm, hy, hmv, hdv, hyv⟩

/-- Claim C15. `split s d` is the list of the maximal `d`-free segments of `s`
in order, empty segments kept, without an element for the empty remainder
after a final delimiter; every element is free of `d`; the split of the empty
string is empty, `split "a," ','` is `["a"]` and `split "a,,b" ','` is
`["a", "", "b"]`. -/
theorem split_contract :
    (∀ (s : Str) (d : Char), split s d = splitSpec s d ∧ ∀ t ∈ split s d, d ∉ t) ∧
      (∀ d : Char, split [] d = []) ∧
      split "a,".toList ',' = ["a".toList] ∧
      split "a,,b".toList ',' = ["a".toList, [], "b".toList] :=
  ⟨fun s d => ⟨split_eq_splitSpec d s, split_delimiter_free d s⟩, fun d => split_nil d,
    by decide, by decide⟩

/-- Claim C16. `trim s` is `s` without its longest prefix and its longest
suffix of characters from {space, tab, CR, LF}, interior white space kept; it
is empty exactly when `s` consists only of such characters; `trim "  hi "` is
`"hi"` and `trim "   "` is the empty string. -/
theorem trim_contract :
    (∀ s : Str, trim s = trimSpec s ∧
        (trim s = [] ↔ ∀ c ∈ s, c ∈ [' ', '\t', '\r', '\n'])) ∧
      trim "  hi ".toList = "hi".toList ∧
      trim "   ".toList = [] ∧
      trim "\t a  b\r\n".toList = "a  b".toList := by
  refine ⟨fun s => ⟨trim_eq_trimSpec s, ?_⟩, by decide, by decide, by decide⟩
  rw [trim_eq_nil_iff]
  constructor
  · intro h c hc
    have := h c hc
    rw [isTrimChar_eq_isSpecSpace] at this
    simpa [isSpecSpace] using this
  · intro h c hc
    rw [isTrimChar_eq_isSpecSpace]
    simpa [isSpecSpace] using h c hc

/-- Claim C17. The event line decoder: for a line whose `|`-split has at
least four parts and whose trimmed fourth part is read by `stoi` as `cap`, the
decoded event has the trimmed first three parts, capacity `cap` and
`registeredCount` 0 when there are exactly four parts, or the value `stoi`
reads from the trimmed fifth part when there are more; a line with fewer than
four parts, an empty line and a line of white space only give no event. -/
theorem decodeEventLine_contract (line : Str) :
    (∀ cap : Int, 4 ≤ (split line '|').length →
        stoi (trim ((split line '|').getD 3 [])) = some cap →
        ((split line '|').length = 4 →
          decodeEventLine line = LineResult.parsed
            ⟨trim ((split line '|').getD 0 []), trim ((split line '|').getD 1 []),
              trim ((split line '|').getD 2 []), cap, 0⟩) ∧
        (∀ reg : Int, 4 < (split line '|').length →
          stoi (trim ((split line '|').getD 4 [])) = some reg →
          decodeEventLine line = LineResult.parsed
            ⟨trim ((split line '|').getD 0 []), trim ((split line '|').getD 1 []),
              trim ((split line '|').getD 2 []), cap, reg⟩)) ∧
      ((split line '|').length < 4 → decodeEventLine line = LineResult.skipped) ∧
      (line = [] → decodeEventLine line = LineResult.skipped) ∧
      ((∀ c ∈ line, isTrimChar c = true) → decodeEventLine line = LineResult.skipped) := by
  have hshort : (split line '|').length < 4 → decodeEventLine line = LineResult.skipped := by
    intro h
    unfold decodeEventLine
    have : ¬ (split line '|').length ≥ 4 := by omega
    simp only [this, if_false]
    split <;> rfl
  refine ⟨fun cap h4 hcap => ⟨fun hlen => ?_, fun reg hlen hreg => ?_⟩, hshort, ?_, ?_⟩
  · have hne := split_length_pos_ne_nil line '|' (by omega)
    have h5 : ¬ (split line '|').length > 4 := by omega
    unfold decodeEventLine
    simp only [hne, Bool.false_eq_true, if_false, ge_iff_le, h4, if_true, hcap, h5]
  · have hne := split_length_pos_ne_nil line '|' (by omega)
    have h5 : (split line '|').length > 4 := hlen
    unfold decodeEventLine
    simp only [hne, Bool.false_eq_true, if_false, ge_iff_le, h4, if_true, hcap, h5, hreg]
  · intro h
    subst h
    rfl
  · intro h
    apply hshort
    cases line with
    | nil => simp [split_nil]
    | cons c cs =>
      have hfree : '|' ∉ (c :: cs) := by
        intro hmem
        have := h '|' hmem
        revert this
        decide
      rw [split_no_delim '|' (c :: cs) hfree (by simp)]
      simp

/-- Claim C17 on the line `Quiz | 16-03-2025 |Lab| 30`: four parts, trimmed,
`registeredCount` 0. -/
theorem decodeEventLine_contract_witness :
    decodeEventLine "Quiz | 16-03-2025 |Lab| 30".toList =
      LineResult.parsed ⟨"Quiz".toList, "16-03-2025".toList, "Lab".toList, 30, 0⟩ :=
  ((decodeEventLine_contract "Quiz | 16-03-2025 |Lab| 30".toList).1 30 (by decide)
    (by decide)).1 (by decide)

/-- Claim C18. `loadRegistrationsFromFile` yields, in file order, one
`Registration` with the three trimmed parts for each line whose `|`-split has
exactly three parts and nothing for any other line; an absent file gives no
registration. -/
theorem loadRegistrations_contract :
    (∀ lines : List Str,
        loadRegistrationsLines lines [] =
          lines.filterMap (fun line =>
            if (split line '|').length = 3 then
              some (⟨trim ((split line '|').getD 0 []), trim ((split line '|').getD 1 []),
                trim ((split line '|').getD 2 [])⟩ : Registration)
            else none)) ∧
      (∀ content : Str,
        loadRegistrationsFromFile (some content) =
          (split content '\n').filterMap (fun line =>
            if (split line '|').length = 3 then
              some (⟨trim ((split line '|').getD 0 []), trim ((split line '|').getD 1 []),
                trim ((split line '|').getD 2 [])⟩ : Registration)
            else none)) ∧
      loadRegistrationsFromFile none = [] ∧
      loadRegistrationsFromFile
          (some "amy|Quiz|01-03-2025 09:00\n\nbob|Quiz\n bob | Tech Fest | t \ncyd|Quiz|t|x\n".toList) =
        [⟨"amy".toList, "Quiz".toList, "01-03-2025 09:00".toList⟩,
          ⟨"bob".toList, "Tech Fest".toList, "t".toList⟩] := by
  refine ⟨fun lines => ?_, fun content => ?_, rfl, by decide⟩
  · rw [loadRegistrationsLines_acc]; simp
  · unfold loadRegistrationsFromFile
    simp only
    rw [loadRegistrationsLines_acc]; simp

/-- Claim C19. A line whose capacity field is not a number makes `stoi`
throw: the line is not skipped, `loadEventsFromFile` does not return a vector
and the well-formed second line is never decoded; an empty capacity field and
a non-numeric fifth field throw as well, while a line with too few fields is
skipped and the next line is decoded. -/
theorem loadEventsFromFile_aborts_on_bad_number :
    decodeEventLine "A|15-03-2025|Hall|abc".toList = LineResult.thrown ∧
      decodeEventLine "B|16-03-2025|Lab|3|1".toList =
        LineResult.parsed ⟨"B".toList, "16-03-2025".toList, "Lab".toList, 3, 1⟩ ∧
      loadEventsFromFile (some "A|15-03-2025|Hall|abc\nB|16-03-2025|Lab|3|1\n".toList) = none ∧
      loadEventsFromFile (some "A|15-03-2025|Hall||2\nB|16-03-2025|Lab|3|1\n".toList) = none ∧
      loadEventsFromFile (some "A|15-03-2025|Hall|5|x\nB|16-03-2025|Lab|3|1\n".toList) = none ∧
      loadEventsFromFile (some "A|15-03-2025\nB|16-03-2025|Lab|3|1\n".toList) =
        some [⟨"B".toList, "16-03-2025".toList, "Lab".toList, 3, 1⟩] := by
  decide

/-- Claim C20, the claim as written fails: the first line matching the
credentials stores the role `teacher`; `authenticateUser` yields no identity,
although a later line with the same credentials stores `student`. -/
theorem authenticateUser_unknown_role :
    CredentialsMatch "bob".toList "pw".toList "bob,pw,Bob B,teacher".toList ∧
      authenticateUser (some "bob,pw,Bob B,teacher\nbob,pw,Bob B,student\n".toList)
        "bob".toList "pw".toList = none := by
  constructor
  · unfold CredentialsMatch; decide
  · decide

/-- Claim C20, amended. When the lines of the users file are `pre`, then a
line matching the credentials, then `post`, and no line of `pre` matches:
if the trimmed fourth field of that first matching line is `admin` or
`student`, `authenticateUser` yields the identity with that role, the
username and the trimmed third field of that line as full name, whatever
`post` holds; if the fourth field is anything else it yields no identity,
whatever `post` holds. -/
theorem authenticateUser_first_match (content username password line : Str)
    (pre post : List Str) (hlines : split content '\n' = pre ++ line :: post)
    (hpre : ∀ l ∈ pre, ¬ CredentialsMatch username password l)
    (hline : CredentialsMatch username password line) :
    (trim ((split line ',').getD 3 []) = "admin".toList →
        authenticateUser (some content) username password =
          some ⟨Role.admin, username, password, trim ((split line ',').getD 2 [])⟩) ∧
      (trim ((split line ',').getD 3 []) = "student".toList →
        authenticateUser (some content) username password =
          some ⟨Role.student, username, password, trim ((split line ',').getD 2 [])⟩) ∧
      (trim ((split line ',').getD 3 []) ≠ "admin".toList →
        trim ((split line ',').getD 3 []) ≠ "student".toList →
        authenticateUser (some content) username password = none) := by
  have hres : authenticateUser (some content) username password =
      authenticateLines username password (line :: post) := by
    unfold authenticateUser
    simp only [hlines]
    exact authenticateLines_first username password line post hline pre hpre
  rw [hres, authenticateLines_match username password line post hline]
  refine ⟨fun h => ?_, fun h => ?_, fun h1 h2 => ?_⟩
  · rw [if_pos h]
  · have hna : trim ((split line ',').getD 3 []) ≠ "admin".toList := by
      rw [h]; decide
    rw [if_neg hna, if_pos h]
  · rw [if_neg h1, if_neg h2]

/-- Claim C20 on a file where the second line is the first to match and a
later line with other data matches too. -/
theorem authenticateUser_first_match_witness :
    authenticateUser
        (some "amy,x,Amy A,admin\n\nbob , pw ,Bob B, student,zz\nbob,pw,Other,admin".toList)
        "bob".toList "pw".toList =
      some ⟨Role.student, "bob".toList, "pw".toList, "Bob B".toList⟩ :=
  (authenticateUser_first_match
    "amy,x,Amy A,admin\n\nbob , pw ,Bob B, student,zz\nbob,pw,Other,admin".toList
    "bob".toList "pw".toList "bob , pw ,Bob B, student,zz".toList
    ["amy,x,Amy A,admin".toList, []] ["bob,pw,Other,admin".toList]
    (by decide) (by unfold CredentialsMatch; decide)
    (by unfold CredentialsMatch; decide)).2.1 (by decide)

/-- Claim C22. Save then load: for events with trimmed string fields free of
`|` and line breaks, non-empty name and venue and `int` numbers,
`saveEventsToFile` writes one line per event, each ended by a line feed, the
lines being the `toFileFormat` of the events in order, and
`loadEventsFromFile` on that content returns the same events in the same
order. -/
theorem save_then_load_events (events : List Event) (h : ∀ e ∈ events, StoredEvent e) :
    saveEventsToFile events = (events.map (fun e => e.toFileFormat ++ ['\n'])).flatten ∧
      split (saveEventsToFile events) '\n' = events.map Event.toFileFormat ∧
      loadEventsFromFile (some (saveEventsToFile events)) = some events := by
  have henc : ∀ e ∈ events, EncodableEvent e := fun e he => encodable_of_stored e (h e he)
  exact ⟨rfl, (load_save_events events henc).1, (load_save_events events henc).2⟩

/-- Claim C22 on two events. -/
theorem save_then_load_events_witness :
    loadEventsFromFile (some (saveEventsToFile
        [⟨"Tech Fest".toList, "15-03-2025".toList, "Hall A".toList, 2, 1⟩,
          ⟨"Quiz".toList, "16-03-2025".toList, "Lab".toList, 30, 0⟩])) =
      some [⟨"Tech Fest".toList, "15-03-2025".toList, "Hall A".toList, 2, 1⟩,
        ⟨"Quiz".toList, "16-03-2025".toList, "Lab".toList, 30, 0⟩] :=
  (save_then_load_events
    [⟨"Tech Fest".toList, "15-03-2025".toList, "Hall A".toList, 2, 1⟩,
      ⟨"Quiz".toList, "16-03-2025".toList, "Lab".toList, 30, 0⟩]
    (by unfold StoredEvent CleanField NoEdgeSpace; decide)).2.2

/-- Claim C28. The line `amy|Quiz| ` is loaded as a
registration with an empty date; saved, it is the line `amy|Quiz|`, which has
two parts, and loading the rewritten file returns no registration. -/
theorem rewrite_drops_empty_date :
    loadRegistrationsFromFile (some "amy|Quiz| \n".toList) =
        [⟨"amy".toList, "Quiz".toList, []⟩] ∧
      saveRegistrationsToFile (loadRegistrationsFromFile (some "amy|Quiz| \n".toList)) =
        "amy|Quiz|\n".toList ∧
      loadRegistrationsFromFile (some (saveRegistrationsToFile
        (loadRegistrationsFromFile (some "amy|Quiz| \n".toList)))) = [] := by
  decide

/-- What rewriting the registrations does on every file content: saving the
loaded registrations and loading again returns, in order, exactly the loaded
registrations whose `registrationDate` is not empty; when no loaded
registration has an empty date the loaded sequence comes back unchanged. -/
theorem rewrite_registrations (content : Str) :
    loadRegistrationsFromFile (some (saveRegistrationsToFile
        (loadRegistrationsFromFile (some content)))) =
      (loadRegistrationsFromFile (some content)).filter
        (fun r => decide (r.registrationDate ≠ [])) ∧
    ((∀ r ∈ loadRegistrationsFromFile (some content), r.registrationDate ≠ []) →
      loadRegistrationsFromFile (some (saveRegistrationsToFile
        (loadRegistrationsFromFile (some content)))) =
      loadRegistrationsFromFile (some content)) := by
  have hres := load_save_registrations (loadRegistrationsFromFile (some content))
    (loadRegistrationsFromFile_encodable content)
  refine ⟨hres, fun hne => ?_⟩
  rw [hres, List.filter_eq_self]
  intro r hr
  simpa using hne r hr

/-- Claim C29. Rewriting events: whenever `loadEventsFromFile` returns events
for a file content, saving them and loading again returns exactly these
events, also with an empty name or venue, and when lines had four fields or
more than five. -/
theorem rewrite_events (content : Str) (events : List Event)
    (h : loadEventsFromFile (some content) = some events) :
    loadEventsFromFile (some (saveEventsToFile events)) = some events :=
  (load_save_events events (loadEventsFromFile_encodable content events h)).2

/-- Claim C29 on a file with an empty name and venue, a negative capacity, a
sixth field, and a line of four fields. -/
theorem rewrite_events_witness :
    loadEventsFromFile (some (saveEventsToFile
        [⟨[], "x".toList, [], -5, 7⟩, ⟨"B".toList, "d".toList, "v".toList, 3, 0⟩])) =
      some [⟨[], "x".toList, [], -5, 7⟩, ⟨"B".toList, "d".toList, "v".toList, 3, 0⟩] :=
  rewrite_events " | x | |-5|+7|9\nB|d|v| 3 \n".toList
    [⟨[], "x".toList, [], -5, 7⟩, ⟨"B".toList, "d".toList, "v".toList, 3, 0⟩] (by decide)

/-- Claim C24, the claim as written fails: a new username with an empty
password is rejected and nothing is appended; a new username `a,b` is
appended as a line whose first field is `a`, the username of an existing
line; and on a file whose last line `a` has no line feed the record of `b`
continues that line, which then decodes as the existing username `ab`. -/
theorem addNewStudent_breaks_claim :
    addNewStudent (some "amy,x,Amy A,admin\n".toList) true "bob".toList [] "Bob B".toList =
        (Outcome.validationError, some "amy,x,Amy A,admin\n".toList) ∧
      (decodedUsernames (some "a,x,A,student\n".toList)).Nodup ∧
      decodedUsernames
          (addNewStudent (some "a,x,A,student\n".toList) true "a,b".toList "pw".toList
            "N".toList).2 = ["a".toList, "a".toList] ∧
      (decodedUsernames (some "ab,x,A,admin\na".toList)).Nodup ∧
      decodedUsernames
          (addNewStudent (some "ab,x,A,admin\na".toList) true "b".toList "pw".toList
            "N".toList).2 = ["ab".toList, "ab".toList] := by
  refine ⟨by decide, ?_, by decide, ?_, by decide⟩
  · have : decodedUsernames (some "a,x,A,student\n".toList) = ["a".toList] := by decide
    rw [this]; decide
  · have : decodedUsernames (some "ab,x,A,admin\na".toList) = ["ab".toList] := by decide
    rw [this]; decide

/-- Claim C24, amended. `addNewStudent` rejects the request and leaves the file
unchanged when the trimmed username is empty, when it is the trimmed first
field of an existing line, when the password is empty and when the trimmed
full name is empty; otherwise, the file opening for append, it appends the one
line `username,password,fullName,student`; when moreover the file is empty or
ends with a line feed, the three inputs are free of the line feed and the
trimmed username is free of the comma, the decoded usernames afterwards are
the former ones followed by the trimmed username, and they are pairwise
distinct when the former ones were. -/
theorem addNewStudent_contract (file : Option Str) (opens : Bool)
    (usernameInput password fullNameInput : Str) :
    ((trim usernameInput = [] ∨ password = [] ∨ trim fullNameInput = []) →
        (addNewStudent file opens usernameInput password fullNameInput).2 = file ∧
        (addNewStudent file opens usernameInput password fullNameInput).1 ≠
          Outcome.success) ∧
      (trim usernameInput ≠ [] →
        (∃ l ∈ split (file.getD []) '\n',
          trim ((split l ',').getD 0 []) = trim usernameInput) →
        addNewStudent file opens usernameInput password fullNameInput =
          (Outcome.duplicateError, file)) ∧
      (trim usernameInput ≠ [] → password ≠ [] → trim fullNameInput ≠ [] →
        (∀ l ∈ split (file.getD []) '\n',
          trim ((split l ',').getD 0 []) ≠ trim usernameInput) →
        addNewStudent file true usernameInput password fullNameInput =
            (Outcome.success,
              some (file.getD [] ++
                (studentRecord (trim usernameInput) password (trim fullNameInput) ++
                  ['\n']))) ∧
          (NewlineTerminated file → ',' ∉ trim usernameInput →
            '\n' ∉ usernameInput → '\n' ∉ password → '\n' ∉ fullNameInput →
            decodedUsernames
                (addNewStudent file true usernameInput password fullNameInput).2 =
              decodedUsernames file ++ [trim usernameInput] ∧
            ((decodedUsernames file).Nodup →
              (decodedUsernames
                (addNewStudent file true usernameInput password fullNameInput).2).Nodup))) := by
  refine ⟨addNewStudent_reject_empty file opens usernameInput password fullNameInput,
    addNewStudent_reject_duplicate file opens usernameInput password fullNameInput,
    fun hu hp hf hnew => ?_⟩
  have hacc := addNewStudent_accept file usernameInput password fullNameInput hu hnew hp hf
  refine ⟨hacc, fun hterm hcomma hn1 hn2 hn3 => ?_⟩
  have hrec : '\n' ∉ studentRecord (trim usernameInput) password (trim fullNameInput) :=
    studentRecord_no_newline _ _ _ (fun h => hn1 (mem_of_mem_trim _ _ h)) hn2
      (fun h => hn3 (mem_of_mem_trim _ _ h))
  have hdec := decodedUsernames_after_append file (trim usernameInput) password
    (trim fullNameInput) hterm hcomma (noEdgeSpace_trim usernameInput) hrec
  rw [hacc]
  refine ⟨hdec, fun hnd => ?_⟩
  simp only at hdec ⊢
  rw [hdec]
  apply List.Nodup.append hnd (by simp)
  intro x hx hx2
  simp only [List.mem_singleton] at hx2
  subst hx2
  exact not_mem_decodedUsernames file _ hnew hx

/-- Claim C24 on a file with one admin: the student `bob` is appended. -/
theorem addNewStudent_contract_witness :
    addNewStudent (some "amy,x,Amy A,admin\n".toList) true " bob ".toList "pw".toList
        "Bob B".toList =
      (Outcome.success, some "amy,x,Amy A,admin\nbob,pw,Bob B,student\n".toList) :=
  ((addNewStudent_contract (some "amy,x,Amy A,admin\n".toList) true " bob ".toList
    "pw".toList "Bob B".toList).2.2 (by decide) (by decide) (by decide) (by decide)).1

/-- Claim C30, the claim as written fails: the users file ends without a line
feed; `addNewStudent` reports success, the record continues the last line,
and `authenticateUser` yields no identity for the new student. -/
theorem created_student_on_unterminated_file :
    addNewStudent (some "amy,x,Amy A,admin".toList) true "bob".toList "pw".toList
        "Bob B".toList =
      (Outcome.success, some "amy,x,Amy A,adminbob,pw,Bob B,student\n".toList) ∧
    authenticateUser
      (addNewStudent (some "amy,x,Amy A,admin".toList) true "bob".toList "pw".toList
        "Bob B".toList).2 "bob".toList "pw".toList = none := by
  decide

/-- Claim C30, amended. On a users file that is absent, empty or ends with a
line feed, for a username, password and full name that are not empty, free of
the comma and of the line feed and without surrounding white space, the
username not being the trimmed first field of an existing line: `addNewStudent`
(the file opening for append) succeeds, and `authenticateUser` with that
username and password then yields the identity with role student, that
username and that full name. -/
theorem created_student_can_log_in (file : Option Str) (username password fullName : Str)
    (hterm : NewlineTerminated file)
    (hu : CleanUserField username) (hp : CleanUserField password)
    (hf : CleanUserField fullName)
    (hnew : ∀ l ∈ split (file.getD []) '\n', trim ((split l ',').getD 0 []) ≠ username) :
    (addNewStudent file true username password fullName).1 = Outcome.success ∧
      authenticateUser (addNewStudent file true username password fullName).2
          username password =
        some ⟨Role.student, username, password, fullName⟩ := by
  have tu := trim_of_noEdgeSpace _ hu.2.2.2
  have tp := trim_of_noEdgeSpace _ hp.2.2.2
  have tf := trim_of_noEdgeSpace _ hf.2.2.2
  have hacc := addNewStudent_accept file username password fullName
    (by rw [tu]; exact hu.1) (by rw [tu]; exact hnew) hp.1 (by rw [tf]; exact hf.1)
  rw [tu, tf] at hacc
  rw [hacc]
  refine ⟨rfl, ?_⟩
  have hrec := studentRecord_no_newline username password fullName hu.2.2.1 hp.2.2.1 hf.2.2.1
  have hsplit := split_studentRecord username password fullName hu.2.1 hp.2.1 hf.2.1
  have hmatch : CredentialsMatch username password (studentRecord username password fullName) := by
    unfold CredentialsMatch
    rw [hsplit]
    exact ⟨by simp, by simpa using tu, by simpa using tp⟩
  have hpre : ∀ l ∈ split (file.getD []) '\n', ¬ CredentialsMatch username password l :=
    fun l hl hm => hnew l hl hm.2.1
  unfold authenticateUser
  simp only
  rw [lines_after_append file _ hterm hrec,
    authenticateLines_first username password _ [] hmatch _ hpre,
    authenticateLines_match username password _ [] hmatch, hsplit]
  have ts : trim "student".toList = "student".toList := by decide
  have hna : ¬ ("student".toList = "admin".toList) := by decide
  simp only [List.getD_cons_succ, List.getD_cons_zero, ts, hna, if_false, if_true, tf]

/-- Claim C30 on a file with one admin. -/
theorem created_student_can_log_in_witness :
    authenticateUser
        (addNewStudent (some "amy,x,Amy A,admin\n".toList) true "bob".toList "pw".toList
          "Bob B".toList).2 "bob".toList "pw".toList =
      some ⟨Role.student, "bob".toList, "pw".toList, "Bob B".toList⟩ :=
  (created_student_can_log_in (some "amy,x,Amy A,admin\n".toList) "bob".toList "pw".toList
    "Bob B".toList (by unfold NewlineTerminated; decide)
    (by unfold CleanUserField NoEdgeSpace; decide)
    (by unfold CleanUserField NoEdgeSpace; decide)
    (by unfold CleanUserField NoEdgeSpace; decide) (by decide)).2

/-- Claim C21. Authentication failure: `authenticateUser` yields no identity
when the users file cannot be opened, and when no line of the file has at
least four fields with trimmed first and second fields equal to the username
and the password; a line with the username and another password, and a line
with fewer than four fields, do not match. -/
theorem authenticateUser_failure (username password : Str) :
    authenticateUser none username password = none ∧
      (∀ content : Str,
        (∀ l ∈ split content '\n', ¬ CredentialsMatch username password l) →
        authenticateUser (some content) username password = none) ∧
      (∀ line : Str, trim ((split line ',').getD 1 []) ≠ password →
        ¬ CredentialsMatch username password line) ∧
      (∀ line : Str, (split line ',').length < 4 →
        ¬ CredentialsMatch username password line) := by
  refine ⟨rfl, fun content h => ?_, fun line h hm => h hm.2.2, fun line h hm => ?_⟩
  · unfold authenticateUser
    exact authenticateLines_none username password _ h
  · have := hm.1
    omega

/-- Claim C21 on a file holding `bob` with another password and a line of
three fields. -/
theorem authenticateUser_failure_witness :
    authenticateUser (some "bob,secret,Bob B,student\nbob,pw,Bob B\n".toList)
      "bob".toList "pw".toList = none :=
  (authenticateUser_failure "bob".toList "pw".toList).2.1
    "bob,secret,Bob B,student\nbob,pw,Bob B\n".toList
    (by unfold CredentialsMatch; decide)

/-- Claim C23. Referential integrity: when every registration names an
existing event, the vectors saved by `registerForEvent`, by
`unregisterFromEvent` and by `deleteEvent` (confirmed or not) again have every
registration naming an existing event. -/
theorem referential_integrity (events : List Event) (registrations : List Registration)
    (h : RefersToEvents events registrations) :
    (∀ username eventNum now,
        RefersToEvents (registerForEvent username events registrations eventNum now).2.1
          (registerForEvent username events registrations eventNum now).2.2) ∧
      (∀ username eventName,
        RefersToEvents (unregisterFromEvent username events registrations eventName).2.1
          (unregisterFromEvent username events registrations eventName).2.2) ∧
      (∀ eventNum confirmation,
        RefersToEvents (deleteEvent events registrations eventNum confirmation).2.1
          (deleteEvent events registrations eventNum confirmation).2.2) :=
  ⟨fun u n t => refers_registerForEvent u events registrations n t h,
    fun u n => refers_unregisterFromEvent u events registrations n h,
    fun n c => refers_deleteEvent events registrations n c h⟩

/-- Claim C23 on two events with one registration each: deleting the first
event leaves a registration of the second only. -/
theorem referential_integrity_witness :
    RefersToEvents
      (deleteEvent
        [⟨"A".toList, "15-03-2025".toList, "Hall".toList, 5, 1⟩,
          ⟨"B".toList, "16-03-2025".toList, "Lab".toList, 3, 1⟩]
        [⟨"s".toList, "A".toList, "t".toList⟩, ⟨"s".toList, "B".toList, "t".toList⟩]
        1 "yes".toList).2.1
      (deleteEvent
        [⟨"A".toList, "15-03-2025".toList, "Hall".toList, 5, 1⟩,
          ⟨"B".toList, "16-03-2025".toList, "Lab".toList, 3, 1⟩]
        [⟨"s".toList, "A".toList, "t".toList⟩, ⟨"s".toList, "B".toList, "t".toList⟩]
        1 "yes".toList).2.2 :=
  (referential_integrity
    [⟨"A".toList, "15-03-2025".toList, "Hall".toList, 5, 1⟩,
      ⟨"B".toList, "16-03-2025".toList, "Lab".toList, 3, 1⟩]
    [⟨"s".toList, "A".toList, "t".toList⟩, ⟨"s".toList, "B".toList, "t".toList⟩]
    (by unfold RefersToEvents; decide)).2.2 1 "yes".toList

/-- Claim C25. Date edit at a valid position `i` with the line `d`: when
`isValidDate (trim d)` holds only the date of event `i` becomes `trim d`;
otherwise `ValidationError` is reported and every event, the date of event
`i` included, is unchanged. -/
theorem editEvent_date (events : List Event) (i : Nat) (hi : i < events.length)
    (d : Str) (newCap_input : Int) :
    (isValidDate (trim d) = true →
        editEvent events ((i : Int) + 1) 2 d newCap_input =
          (Outcome.success,
            events.take i ++
              ⟨events[i].eventName, trim d, events[i].venue, events[i].capacity,
                events[i].registeredCount⟩ :: events.drop (i + 1))) ∧
      (isValidDate (trim d) = false →
        editEvent events ((i : Int) + 1) 2 d newCap_input =
          (Outcome.validationError, events)) := by
  have heval := editEvent_date_eval events i hi d newCap_input
  refine ⟨fun h => ?_, fun h => ?_⟩
  · rw [heval, if_pos h, List.set_eq_take_append_cons_drop, if_pos hi]
    rfl
  · rw [heval, if_neg (by rw [h]; decide)]

/-- Claim C25 on one event: the date `31-02-2025` is accepted and replaces the
old date. -/
theorem editEvent_date_witness :
    editEvent [⟨"A".toList, "15-03-2025".toList, "Hall".toList, 5, 1⟩] 1 2
        " 31-02-2025 ".toList 0 =
      (Outcome.success, [⟨"A".toList, "31-02-2025".toList, "Hall".toList, 5, 1⟩]) :=
  (editEvent_date [⟨"A".toList, "15-03-2025".toList, "Hall".toList, 5, 1⟩] 0 (by decide)
    " 31-02-2025 ".toList 0).1 (by decide)

/-- Claim C26. Dual-write order: in every run of `registerForEvent`,
`unregisterFromEvent` and `deleteEvent` on the files, the save of the events
comes before the save of the registrations, which is made only after a
successful save of the events; when the events file does not open, no save of
the registrations is made and the files are as before the operation. -/
theorem dual_write_order (fs : Files) :
    (∀ username eventNum now run,
        registerForEventOnFiles username fs eventNum now = some run →
        DualWriteOrder fs run) ∧
      (∀ username eventName run,
        unregisterFromEventOnFiles username fs eventName = some run →
        DualWriteOrder fs run) ∧
      (∀ eventNum confirmation run,
        deleteEventOnFiles fs eventNum confirmation = some run →
        DualWriteOrder fs run) :=
  ⟨fun u n t run h => dualWriteOrder_register u fs n t run h,
    fun u n run h => dualWriteOrder_unregister u fs n run h,
    fun n c run h => dualWriteOrder_delete fs n c run h⟩

/-- Claim C26 on a registration that passes every check while the events file
does not open: the run reports the failure, makes the one failed save of the
events and leaves both files as they were. -/
theorem dual_write_order_witness :
    registerForEventOnFiles "amy".toList
        ⟨some "Quiz|15-03-2025|Lab|2|0\n".toList, some "bob|Quiz|t\n".toList, false, true⟩
        1 "01-03-2025 09:00".toList =
      some ⟨Outcome.ioError,
        ⟨some "Quiz|15-03-2025|Lab|2|0\n".toList, some "bob|Quiz|t\n".toList, false, true⟩,
        [(FileName.eventsFile, false)]⟩ ∧
    DualWriteOrder
      ⟨some "Quiz|15-03-2025|Lab|2|0\n".toList, some "bob|Quiz|t\n".toList, false, true⟩
      ⟨Outcome.ioError,
        ⟨some "Quiz|15-03-2025|Lab|2|0\n".toList, some "bob|Quiz|t\n".toList, false, true⟩,
        [(FileName.eventsFile, false)]⟩ :=
  ⟨by decide,
    (dual_write_order
      ⟨some "Quiz|15-03-2025|Lab|2|0\n".toList, some "bob|Quiz|t\n".toList, false, true⟩).1
      "amy".toList 1 "01-03-2025 09:00".toList _ (by decide)⟩

/-- Claim C27. The store functions of `Admin` and of `Student` agree: on every
file content the two `loadEventsFromFile` return the same result and the two
`loadRegistrationsFromFile` the same registrations, and for every vector the
two `saveEventsToFile` and the two `saveRegistrationsToFile` write the same
content. -/
theorem stores_agree :
    (∀ file : Option Str, Student.loadEventsFromFile file = loadEventsFromFile file) ∧
      (∀ file : Option Str,
        Student.loadRegistrationsFromFile file = loadRegistrationsFromFile file) ∧
      (∀ events : List Event, Student.saveEventsToFile events = saveEventsToFile events) ∧
      (∀ registrations : List Registration,
        Student.saveRegistrationsToFile registrations =
          saveRegistrationsToFile registrations) :=
  ⟨student_loadEventsFromFile, student_loadRegistrationsFromFile, student_saveEventsToFile,
    student_saveRegistrationsToFile⟩

end EventMgmt
